import Mathlib

/-!
# Hierarchy pass (`passes/hierarchy/hierarchy.cc`)

A shallow embedding of the hierarchy pass of the synthesis suite: the design
graph (modules, cells, wires), the reachability pruner (`hierarchy_worker`,
`hierarchy`), the per-module expander (`expand_module`), the port inference
generator (`generate`) and the positional-argument remapper.

Conventions of the embedding.
* `std::map<K, V>` is an association list; the list order is the iteration
  order of the map.  Modules, wires and cells carry their own name, and the
  containers `design->modules`, `module->wires`, `module->cells` are keyed by
  that name.
* A `Module*` is identified with the name of the module (the key of
  `design->modules`).
* `log_error` is an `Except.error`; `log` has no effect on the data.  A failed
  `assert` and an uncaught `std::out_of_range` are errors of their own.
* A cell is mutated in place through its pointer: the cell of that name in the
  module of that name is replaced (`Design.setCell`).
* `array_cells` is keyed by `Cell*`; its entries are visited here in the order in
  which they were recorded.  The order decides only which of several errors is
  reported.
* Recursion and loops that need not end (`hierarchy_worker`, the expander loop)
  take a bound on their depth or on the number of sweeps and return `none`
  when it is exhausted.
* Code outside this file (`Module::derive`, the front ends, `access`, `fnmatch`,
  `unescape_id`, `SigSpec::extract`) is a parameter or is modelled from the
  specification, as the doc comments say.
* `int` is `Int` and `size_t` is `Nat`; overflow is not modelled.
-/

namespace Hierarchy

/-! ## Data model -/

/-- A constant value: its bits, least significant first. -/
structure Const where
  bits : List Bool
  deriving DecidableEq, Repr

/-- The constant `RTLIL::Const(1)`: the 32-bit value 1. -/
def Const.one : Const := ⟨true :: List.replicate 31 false⟩

/-- The truth value of a constant (`as_bool`): some bit is set. -/
def Const.as_bool (c : Const) : Bool := c.bits.any id

/-- A signal: the list of its bits, least significant first; a bit is named by a number. -/
abbrev SigSpec := List Nat

/-- A wire of a module. -/
structure Wire where
  name : String
  width : Int
  port_id : Int
  port_input : Bool
  port_output : Bool
  deriving DecidableEq, Repr

/-- A cell of a module. -/
structure Cell where
  name : String
  type : String
  parameters : List (String × Const)
  connections_ : List (String × SigSpec)
  deriving DecidableEq, Repr

/-- A module of the design. -/
structure Module where
  name : String
  attributes : List (String × Const)
  wires : List Wire
  cells : List Cell
  deriving DecidableEq, Repr

/-- The design: its map of modules. -/
structure Design where
  modules : List Module
  deriving DecidableEq, Repr

/-- Lookup in an association list (`map.find`). -/
def lookup {β : Type} (k : String) : List (String × β) → Option β
  | [] => none
  | (k', v) :: rest => if k' = k then some v else lookup k rest

/-- The attribute test `get_bool_attribute(id)`. -/
def Module.get_bool_attribute (m : Module) (id : String) : Bool :=
  match lookup id m.attributes with
  | none => false
  | some c => c.as_bool

/-- The module stored under a name: `design->modules.at(name)`. -/
def Design.find (d : Design) (name : String) : Option Module :=
  d.modules.find? (fun m => m.name = name)

/-- Membership test `design->modules.count(name) > 0`. -/
def Design.count (d : Design) (name : String) : Bool :=
  (d.find name).isSome

/-- Removal `design->modules.erase(name)`. -/
def Design.erase (d : Design) (name : String) : Design :=
  ⟨d.modules.filter (fun m => m.name ≠ name)⟩

/-- The string `s.substr(pos, len)`. -/
def substr (s : String) (pos len : Nat) : String :=
  ⟨(s.data.drop pos).take len⟩

/-- The string `s.substr(pos)`. -/
def substrFrom (s : String) (pos : Nat) : String :=
  ⟨s.data.drop pos⟩

/-! ## Reachability pruner -/

/-- The recursive walk `hierarchy_worker(design, used, mod, indent)`: the set `used`
after the call.  The first argument bounds the depth of the recursion; `none`
means the bound was too small. -/
def hierarchy_worker (design : Design) : Nat → List String → Module → Option (List String)
  | 0, _, _ => none
  | fuel + 1, used, mod =>
    if mod.name ∈ used then some used
    else
      mod.cells.foldlM
        (fun u c =>
          match design.find c.type with
          | some m => hierarchy_worker design fuel u m
          | none => some u)
        (mod.name :: used)

/-- The second loop of `hierarchy`: the modules of `del_modules` are erased unless
protected by the first-pass rule or the blackbox rule. -/
def hierarchy_delete (purge_lib first_pass : Bool) (del_modules : List Module) (design : Design) :
    Design :=
  del_modules.foldl
    (fun d mod =>
      if first_pass && substr mod.name 0 9 = "$abstract" then d
      else if !purge_lib && mod.get_bool_attribute "\\blackbox" then d
      else d.erase mod.name)
    design

/-- The pruner `hierarchy(design, top, purge_lib, first_pass)`; `none` only when the
depth bound of the walk is exhausted. -/
def hierarchy (design : Design) (top : Module) (purge_lib first_pass : Bool) : Option Design :=
  match hierarchy_worker design (design.modules.length + 1) [] top with
  | none => none
  | some used =>
    let del_modules := design.modules.filter (fun m => decide (m.name ∉ used))
    some (hierarchy_delete purge_lib first_pass del_modules design)

/-- A string begins with a given marker. -/
def startsWith (marker s : String) : Bool := marker.data.isPrefixOf s.data

/-- One step of the cell-instantiation relation: the module stored under `a` has a
cell whose type `b` names a module of the design. -/
def Edge (d : Design) (a b : String) : Prop :=
  ∃ m, d.find a = some m ∧ ∃ c ∈ m.cells, c.type = b ∧ d.count b = true

/-- Reachability along cell types that name modules of the design. -/
def Reach (d : Design) (a b : String) : Prop := Relation.ReflTransGen (Edge d) a b

/-- The number of modules of the design whose name is not yet in `used`. -/
def unvisited (d : Design) (used : List String) : Nat :=
  (d.modules.filter (fun m => decide (m.name ∉ used))).length

/-- Postcondition of a walk that started with the visited set `u`, ended with `U`, and
entered the design at roots satisfying `roots`. -/
structure WalkPost (d : Design) (roots : String → Prop) (u U : List String) : Prop where
  mono : ∀ x ∈ u, x ∈ U
  reach : ∀ x ∈ U, x ∉ u → ∃ r, roots r ∧ Reach d r x
  closed : ∀ x ∈ U, x ∉ u → ∀ y, Edge d x y → y ∈ U

/-- The body of the loop over the cells in `hierarchy_worker`. -/
def worker_step (design : Design) (fuel : Nat) (u : List String) (c : Cell) :
    Option (List String) :=
  match design.find c.type with
  | some m => hierarchy_worker design fuel u m
  | none => some u

/-- The specification of one call of the walk, for a given depth bound. -/
def WorkerSpec (d : Design) (fuel : Nat) : Prop :=
  ∀ used mod, d.find mod.name = some mod → unvisited d used < fuel →
    ∃ U, hierarchy_worker d fuel used mod = some U ∧ mod.name ∈ U ∧
      WalkPost d (fun r => r = mod.name) used U

/-- A module of `del_modules` that the second loop of `hierarchy` skips. -/
def retained (purge_lib first_pass : Bool) (mod : Module) : Bool :=
  (first_pass && decide (substr mod.name 0 9 = "$abstract")) ||
    (!purge_lib && mod.get_bool_attribute "\\blackbox")

/-! ## Example designs -/

/-- A cell without parameters and connections. -/
def plainCell (name type : String) : Cell := ⟨name, type, [], []⟩

/-- The design of the pruning scenario: `top` instantiates `foo`, `foo` instantiates
`bar`, and `baz` is instantiated by nobody. -/
def pruneTop : Module := ⟨"\\top", [], [], [plainCell "\\u1" "\\foo"]⟩

/-- Module `foo` of the pruning scenario. -/
def pruneFoo : Module := ⟨"\\foo", [], [], [plainCell "\\u2" "\\bar"]⟩

/-- Module `bar` of the pruning scenario. -/
def pruneBar : Module := ⟨"\\bar", [], [], []⟩

/-- Module `baz` of the pruning scenario. -/
def pruneBaz : Module := ⟨"\\baz", [], [], []⟩

/-- The design of the pruning scenario. -/
def pruneDesign : Design := ⟨[pruneBar, pruneBaz, pruneFoo, pruneTop]⟩

/-! ## Strings and numbers -/

/-- Byte-wise comparison of two character sequences (`std::string::operator<`). -/
def charsLt : List Char → List Char → Bool
  | [], [] => false
  | [], _ :: _ => true
  | _ :: _, [] => false
  | a :: as, b :: bs =>
    if a.toNat < b.toNat then true
    else if b.toNat < a.toNat then false
    else charsLt as bs

/-- The order of the keys of a `std::map<std::string, _>`. -/
def strLt (a b : String) : Bool := charsLt a.data b.data

/-- The test `s[0] == '$'` (false on the empty string, whose `s[0]` is the terminator). -/
def firstIsDollar (s : String) : Bool := s.data.head? = some '$'

/-- White space in the sense of `isspace`. -/
def isspace (c : Char) : Bool :=
  c = ' ' || c = '\t' || c = '\n' || c = '\r' || c.toNat = 11 || c.toNat = 12

/-- A decimal digit. -/
def isdigit (c : Char) : Bool := decide (48 ≤ c.toNat) && decide (c.toNat ≤ 57)

/-- The value of the leading decimal digits of a character sequence, continuing from
an accumulator. -/
def digitsValue : Nat → List Char → Nat
  | acc, [] => acc
  | acc, c :: cs => if isdigit c then digitsValue (acc * 10 + (c.toNat - 48)) cs else acc

/-- The number written at the start of a character sequence: leading white space is
skipped, an optional sign is read, then the leading decimal digits. -/
def decimal_value (s : List Char) : Int :=
  match s.dropWhile isspace with
  | '-' :: r => - (digitsValue 0 r : Int)
  | '+' :: r => (digitsValue 0 r : Int)
  | r => (digitsValue 0 r : Int)

/-- The conversion of a number to the type `int`: the value modulo `2^32` in the range
`-2^31 .. 2^31 - 1`. -/
def to_int (v : Int) : Int := (v + 2147483648) % 4294967296 - 2147483648

/-- The C function `atoi` with its result stored in an `int`, which is
`(int) strtol(s, NULL, 10)`: the number written is limited to the range of `long`
(`-2^63 .. 2^63 - 1`) and then converted to `int`. -/
def atoi (s : List Char) : Int :=
  let v := decimal_value s
  to_int (if v > 9223372036854775807 then 9223372036854775807
    else if v < -9223372036854775808 then -9223372036854775808 else v)

/-- The call `s.find_first_of(c, pos)` converted to `int`: the index of the first `c`
at or after `pos`, and `-1` (`npos`) when there is none. -/
def find_first_of (s : String) (c : Char) (pos : Nat) : Int :=
  match (s.data.drop pos).indexOf? c with
  | some i => ((pos + i : Nat) : Int)
  | none => -1

/-- The call `s.substr(pos, len)` with `int` arguments converted to `size_t`: a negative
length is `npos` and selects the rest of the string. -/
def substrInt (s : String) (pos len : Int) : String :=
  if len < 0 then substrFrom s pos.toNat else substr s pos.toNat len.toNat

/-! ## Hierarchy expander -/

/-- The ways in which the pass ends abnormally: the fatal errors (`log_error`) with the
names they report, a failed assertion, and an uncaught exception. -/
inductive Err where
  /-- Error "Module referenced in module in cell is not part of the design". -/
  | notPartOfDesign (type module cell : String)
  /-- Error "File from libdir does not declare module". -/
  | libdirNoModule (filename type : String)
  /-- Error "Array cell of unkown type". -/
  | arrayUnknownType (module cell type : String)
  /-- Error "Array cell connects to unkown port". -/
  | arrayUnknownPort (module cell port : String)
  /-- Error "Array cell has invalid port vs. signal size for port". -/
  | arrayInvalidSize (module cell port : String)
  /-- Error "Port index exceeds number of found ports". -/
  | portIndexExceeds (index : Int) (ports : Nat)
  /-- Error "Conflict on port index". -/
  | portConflict (index : Int)
  /-- Error "Can't match port". -/
  | cantMatch (port : String)
  /-- A failed `assert(...)`: the process is aborted. -/
  | assertFailed (condition : String)
  /-- An uncaught `std::out_of_range` of `map::at`: the process is terminated. -/
  | outOfRange (key : String)
  /-- The fatal error of the module deriver for an ill-formed parameter set. -/
  | deriveFailed (template : String)
  deriving DecidableEq, Repr

/-- The collaborators of the expander that are not part of this file: the module
deriver, the file system and the front ends. -/
structure Env where
  /-- The name of the module `derive` produces from a template and a parameter set. -/
  derive_name : Module → List (String × Const) → String
  /-- The contents of the module `derive` creates when that name is not yet registered. -/
  derive_body : Module → List (String × Const) → Module
  /-- The parameter sets that are ill-formed for a template: `derive` ends with a fatal
  error. -/
  derive_fails : Module → List (String × Const) → Bool
  /-- The function `RTLIL::unescape_id`. -/
  unescape_id : String → String
  /-- The test `access(filename, F_OK) == 0`. -/
  access : String → Bool
  /-- The modules a front end declares when it reads a file in a format. -/
  frontend : String → String → List Module

/-- Insertion into the module map `design->modules[name] = mod` at its place in the
key order; an entry with the same name is replaced. -/
def insertModule (m : Module) : List Module → List Module
  | [] => [m]
  | x :: rest =>
    if x.name = m.name then m :: rest
    else if strLt m.name x.name then m :: x :: rest
    else x :: insertModule m rest

/-- Modelled from the spec: the result of a call of `Module::derive` that does not fail.
It is the name of the concrete module for the parameter set; when that name is already
registered the design is unchanged (cache hit), otherwise the freshly created module is
registered under that name. -/
def derive_result (env : Env) (design : Design) (tmpl : Module)
    (parameters : List (String × Const)) : String × Design :=
  let modname := env.derive_name tmpl parameters
  if design.count modname then (modname, design)
  else (modname, ⟨insertModule { env.derive_body tmpl parameters with name := modname }
    design.modules⟩)

/-- Modelled from the spec: `Module::derive(design, parameters)` is not in this file.
The derivation of an ill-formed parameter set is fatal; otherwise the call returns the
name of the concrete module and registers it as `derive_result` says. -/
def derive (env : Env) (design : Design) (tmpl : Module) (parameters : List (String × Const)) :
    Except Err (String × Design) :=
  if env.derive_fails tmpl parameters then .error (.deriveFailed tmpl.name)
  else .ok (derive_result env design tmpl parameters)

/-- Modelled from the spec: `Frontend::frontend_call(design, NULL, filename, format)` is
not in this file.  It registers the modules declared by the file under their declared
names; a module whose name is already registered is left as it is. -/
def frontend_call (env : Env) (design : Design) (filename format : String) : Design :=
  (env.frontend filename format).foldl
    (fun d m => if d.count m.name then d else ⟨insertModule m d.modules⟩) design

/-- The cell of a module with the given name replaced (the in-place update of a cell). -/
def Module.setCell (m : Module) (c : Cell) : Module :=
  { m with cells := m.cells.map (fun x => if x.name = c.name then c else x) }

/-- The in-place update of a cell of the module stored under `modname`. -/
def Design.setCell (d : Design) (modname : String) (c : Cell) : Design :=
  ⟨d.modules.map (fun m => if m.name = modname then m.setCell c else m)⟩

/-- Lines 144-152 of `expand_module`: a type that starts with `$array:` is split into
the index, the count and the remaining type name. -/
def strip_array (type : String) : String × Option (Int × Int) :=
  if substr type 0 7 = "$array:" then
    let pos_idx := find_first_of type ':' 0
    let pos_num := find_first_of type ':' (pos_idx + 1).toNat
    let pos_type := find_first_of type ':' (pos_num + 1).toNat
    let idx := atoi (substrInt type (pos_idx + 1) pos_num).data
    let num := atoi (substrInt type (pos_num + 1) pos_type).data
    (substrFrom type (pos_type + 1).toNat, some (idx, num))
  else (type, none)

/-- The search through `libdirs` (lines 167-184): the first directory that has a `.v`
or `.il` file for the type, with the file name and the format to load. -/
def find_libfile (env : Env) (type : String) : List String → Option (String × String)
  | [] => none
  | dir :: rest =>
    let fv := dir ++ "/" ++ env.unescape_id type ++ ".v"
    if env.access fv then some (fv, "verilog")
    else
      let fi := dir ++ "/" ++ env.unescape_id type ++ ".il"
      if env.access fi then some (fi, "ilang")
      else find_libfile env type rest

/-- The state of the first loop of `expand_module`. -/
structure ExpandState where
  design : Design
  did_something : Bool
  array_cells : List (Cell × Int × Int)

/-- The entry of the map `array_cells` for a cell (line 150): the cell is recorded, in
the state in which the first loop leaves it, when its type had an array descriptor. -/
def record_array (array_cells : List (Cell × Int × Int)) (arr : Option (Int × Int)) (c : Cell) :
    List (Cell × Int × Int) :=
  match arr with
  | some (idx, num) => array_cells ++ [(c, idx, num)]
  | none => array_cells

/-- Lines 197-206: a cell of a resolved type with parameters is re-derived unless the
target is a blackbox. -/
def derive_resolved (env : Env) (modname : String) (st : ExpandState) (cell : Cell)
    (arr : Option (Int × Int)) : Except Err ExpandState :=
  if cell.parameters.length = 0 then
    .ok ⟨st.design, st.did_something, record_array st.array_cells arr cell⟩
  else
    match st.design.find cell.type with
    | none => .ok ⟨st.design, st.did_something, record_array st.array_cells arr cell⟩
    | some mod =>
      if mod.get_bool_attribute "\\blackbox" then
        .ok ⟨st.design, st.did_something, record_array st.array_cells arr cell⟩
      else
        match derive env st.design mod cell.parameters with
        | .error e => .error e
        | .ok r =>
          let cell' := { cell with type := r.1, parameters := [] }
          .ok ⟨r.2.setCell modname cell', true, record_array st.array_cells arr cell'⟩

/-- The state after lines 197-206 when the derivation, if one is made, does not fail. -/
def derive_resolved_ok (env : Env) (modname : String) (st : ExpandState) (cell : Cell)
    (arr : Option (Int × Int)) : ExpandState :=
  if cell.parameters.length = 0 then
    ⟨st.design, st.did_something, record_array st.array_cells arr cell⟩
  else
    match st.design.find cell.type with
    | none => ⟨st.design, st.did_something, record_array st.array_cells arr cell⟩
    | some mod =>
      if mod.get_bool_attribute "\\blackbox" then
        ⟨st.design, st.did_something, record_array st.array_cells arr cell⟩
      else
        let r := derive_result env st.design mod cell.parameters
        let cell' := { cell with type := r.1, parameters := [] }
        ⟨r.2.setCell modname cell', true, record_array st.array_cells arr cell'⟩

/-- The call of `derive` on line 204 is reached and fails. -/
def derive_resolved_fails (env : Env) (design : Design) (cell : Cell) : Bool :=
  decide (cell.parameters.length ≠ 0) &&
    match design.find cell.type with
    | none => false
    | some mod => !mod.get_bool_attribute "\\blackbox" && env.derive_fails mod cell.parameters

/-- The body of the first loop of `expand_module` (lines 140-207) for one cell of the
module `modname`. -/
def expand_cell (env : Env) (modname : String) (flag_check : Bool) (libdirs : List String)
    (st : ExpandState) (cell0 : Cell) : Except Err ExpandState :=
  let stripped := strip_array cell0.type
  let cell : Cell := { cell0 with type := stripped.1 }
  let arr := stripped.2
  let design := match arr with
    | some _ => st.design.setCell modname cell
    | none => st.design
  if design.count cell.type = false then
    match design.find ("$abstract" ++ cell.type) with
    | some tmpl =>
      match derive env design tmpl cell.parameters with
      | .error e => .error e
      | .ok r =>
        let cell' := { cell with type := r.1, parameters := [] }
        .ok ⟨r.2.setCell modname cell', true, record_array st.array_cells arr cell'⟩
    | none =>
      if firstIsDollar cell.type then
        .ok ⟨design, st.did_something, record_array st.array_cells arr cell⟩
      else
        match find_libfile env cell.type libdirs with
        | some (filename, format) =>
          let design' := frontend_call env design filename format
          if design'.count cell.type = false then
            .error (.libdirNoModule filename cell.type)
          else
            derive_resolved env modname ⟨design', true, st.array_cells⟩ cell arr
        | none =>
          if flag_check && !firstIsDollar cell.type then
            .error (.notPartOfDesign cell.type modname cell.name)
          else
            .ok ⟨design, st.did_something, record_array st.array_cells arr cell⟩
  else
    derive_resolved env modname ⟨design, st.did_something, st.array_cells⟩ cell arr

/-- Modelled from the spec: `SigSpec::extract(offset, length)` is not in this file; it
is the sub-range of `length` bits of the signal that starts at bit `offset`. -/
def extract (sig : SigSpec) (offset length : Int) : SigSpec :=
  (sig.drop offset.toNat).take length.toNat

/-- The wire stored under a name: `mod->wires.at(name)`. -/
def Module.findWire (m : Module) (name : String) : Option Wire :=
  m.wires.find? (fun w => w.name = name)

/-- Lines 221-229: a key that starts with `$` is replaced by the name of the first wire
of the target whose `port_id` is the number read from the key. -/
def array_portname (mod : Module) (key : String) : String :=
  if substr key 0 1 = "$" then
    let port_id := atoi (substrFrom key 1).data
    match mod.wires.find? (fun w => w.port_id = port_id) with
    | some w => w.name
    | none => key
  else key

/-- Lines 220-237: the array pass for one connection of an array cell that is instance
`idx` of `num`.  The products `port_size * num` and `port_size * idx` are products of
`int` values, whose overflow is undefined in C; they are taken exactly. -/
def array_conn (modname cellname : String) (mod : Module) (idx num : Int)
    (conn : String × SigSpec) : Except Err (String × SigSpec) :=
  let conn_size : Int := conn.2.length
  let portname := array_portname mod conn.1
  match mod.findWire portname with
  | none => .error (.arrayUnknownPort modname cellname conn.1)
  | some wire =>
    let port_size := wire.width
    if conn_size = port_size then .ok conn
    else if conn_size ≠ port_size * num then .error (.arrayInvalidSize modname cellname conn.1)
    else .ok (conn.1, extract conn.2 (port_size * idx) port_size)

/-- The loop over the connections of an array cell (line 219). -/
def array_conns (modname cellname : String) (mod : Module) (idx num : Int) :
    List (String × SigSpec) → Except Err (List (String × SigSpec))
  | [] => .ok []
  | conn :: rest =>
    match array_conn modname cellname mod idx num conn with
    | .error e => .error e
    | .ok conn' =>
      match array_conns modname cellname mod idx num rest with
      | .error e => .error e
      | .ok rest' => .ok (conn' :: rest')

/-- The body of the second loop of `expand_module` (lines 209-239) for one recorded
array cell. -/
def array_cell (modname : String) (design : Design) (entry : Cell × Int × Int) :
    Except Err Design :=
  match design.find entry.1.type with
  | none => .error (.arrayUnknownType modname entry.1.name entry.1.type)
  | some mod =>
    match array_conns modname entry.1.name mod entry.2.1 entry.2.2 entry.1.connections_ with
    | .error e => .error e
    | .ok conns => .ok (design.setCell modname { entry.1 with connections_ := conns })

/-- The second loop of `expand_module` over the recorded array cells. -/
def array_pass (modname : String) : List (Cell × Int × Int) → Design → Except Err Design
  | [], design => .ok design
  | entry :: rest, design =>
    match array_cell modname design entry with
    | .error e => .error e
    | .ok design' => array_pass modname rest design'

/-- The first loop of `expand_module` over the cells of the module. -/
def expand_cells (env : Env) (modname : String) (flag_check : Bool) (libdirs : List String) :
    List Cell → ExpandState → Except Err ExpandState
  | [], st => .ok st
  | cell :: rest, st =>
    match expand_cell env modname flag_check libdirs st cell with
    | .error e => .error e
    | .ok st' => expand_cells env modname flag_check libdirs rest st'

/-- The function `expand_module(design, module, flag_check, libdirs)`: the design after
the call and the returned flag `did_something`, or the fatal error. -/
def expand_module (env : Env) (design : Design) (module : Module) (flag_check : Bool)
    (libdirs : List String) : Except Err (Design × Bool) :=
  match expand_cells env module.name flag_check libdirs module.cells ⟨design, false, []⟩ with
  | .error e => .error e
  | .ok st =>
    match array_pass module.name st.array_cells st.design with
    | .error e => .error e
    | .ok design' => .ok (design', st.did_something)

/-- One sweep of the expander loop (lines 452-457) over the snapshot of module names. -/
def expand_sweep (env : Env) (flag_check : Bool) (libdirs : List String) :
    List String → Design → Bool → Except Err (Design × Bool)
  | [], design, did_something => .ok (design, did_something)
  | modname :: rest, design, did_something =>
    match design.find modname with
    | none => expand_sweep env flag_check libdirs rest design did_something
    | some module =>
      match expand_module env design module flag_check libdirs with
      | .error e => .error e
      | .ok (design', did) =>
        expand_sweep env flag_check libdirs rest design' (did_something || did)

/-- The expander loop (lines 444-460): sweeps are repeated until one reports no change.
The first argument bounds the number of sweeps; `none` means the bound was reached. -/
def expand_loop (env : Env) (flag_check : Bool) (libdirs : List String) :
    Nat → Design → Option (Except Err Design)
  | 0, _ => none
  | fuel + 1, design =>
    match expand_sweep env flag_check libdirs (design.modules.map (·.name)) design false with
    | .error e => some (.error e)
    | .ok (design', true) => expand_loop env flag_check libdirs fuel design'
    | .ok (design', false) => some (.ok design')

/-- The collaborators of a run without templates to derive and without library files. -/
def noEnv : Env :=
  { derive_name := fun m _ => m.name
    derive_body := fun m _ => m
    derive_fails := fun _ _ => false
    unescape_id := fun s => s
    access := fun _ => false
    frontend := fun _ _ => [] }

/-- The target of the array scenario: a module with one 8-bit input port `d`. -/
def arraySub : Module := ⟨"\\sub", [], [⟨"\\d", 8, 1, true, false⟩], []⟩

/-- The 32-bit bus of the array scenario: bits 100, 101, ..., 131. -/
def arrayBus : SigSpec := (List.range 32).map (fun i => 100 + i)

/-- The array cell of the scenario: instance 2 of 4 of `sub`, with the bus on `d`. -/
def arrayInst : Cell := ⟨"\\u", "$array:2:4:\\sub", [], [("\\d", arrayBus)]⟩

/-- The module that holds the array cell. -/
def arrayTop : Module := ⟨"\\top", [], [], [arrayInst]⟩

/-- The design of the array scenario. -/
def arrayDesign : Design := ⟨[arraySub, arrayTop]⟩

/-! ## Positional-argument remapper -/

/-- The assignment `map[k] = v` on a `std::map` with string keys: the entry is replaced
when the key is present and inserted at its place in the key order otherwise. -/
def mapInsert {β : Type} (k : String) (v : β) : List (String × β) → List (String × β)
  | [] => [(k, v)]
  | (k', v') :: rest =>
    if k' = k then (k, v) :: rest
    else if strLt k k' then (k, v) :: (k', v') :: rest
    else (k', v') :: mapInsert k v rest

/-- The test `conn.first[0] == '$' && '0' <= conn.first[1] && conn.first[1] <= '9'`. -/
def is_positional (key : String) : Bool :=
  firstIsDollar key &&
    (match key.data.get? 1 with
     | some c => isdigit c
     | none => false)

/-- The number of a positional key: `atoi(conn.first.c_str() + 1)`. -/
def positional_id (key : String) : Int := atoi (key.data.drop 1)

/-- The table `pos_map`, keyed by target module and position; only lookups are made
on it, so an assignment is put in front and a lookup takes the first match. -/
abbrev PosMap := List ((String × Int) × String)

/-- The lookup `pos_map.count(key)` / `pos_map.at(key)`. -/
def PosMap.at (pos_map : PosMap) (key : String × Int) : Option String :=
  (pos_map.find? (fun e => e.1 = key)).map (·.2)

/-- Lines 481-492: the cells that name a module of the design and have a positional
connection, each with the name of its module. -/
def pos_work (design : Design) : List (String × Cell) :=
  design.modules.flatMap (fun m =>
    (m.cells.filter (fun cell =>
      design.count cell.type && cell.connections_.any (fun conn => is_positional conn.1))).map
      (fun cell => (m.name, cell)))

/-- Lines 494-499 for one target module: every wire with a positive `port_id` is entered
under its position, a later wire replacing an earlier one of the same position. -/
def pos_map_module (module : Module) (pos_map : PosMap) : PosMap :=
  module.wires.foldl
    (fun pm wire => if wire.port_id > 0 then ((module.name, wire.port_id), wire.name) :: pm else pm)
    pos_map

/-- Lines 494-499: the table of the target modules of the cells in `pos_work`. -/
def build_pos_map (design : Design) : PosMap :=
  (design.modules.filter (fun m => (pos_work design).any (fun w => w.2.type = m.name))).foldl
    (fun pm module => pos_map_module module pm) []

/-- Lines 506-518: the new connection map of a cell. -/
def remap_connections (pos_map : PosMap) (type : String) :
    List (String × SigSpec) → List (String × SigSpec) → List (String × SigSpec)
  | [], new_connections => new_connections
  | conn :: rest, new_connections =>
    if is_positional conn.1 then
      match pos_map.at (type, positional_id conn.1) with
      | none => remap_connections pos_map type rest (mapInsert conn.1 conn.2 new_connections)
      | some portname => remap_connections pos_map type rest (mapInsert portname conn.2 new_connections)
    else remap_connections pos_map type rest (mapInsert conn.1 conn.2 new_connections)

/-- Lines 501-520 for one cell: its connections are replaced by the new map. -/
def remap_cell (pos_map : PosMap) (cell : Cell) : Cell :=
  { cell with connections_ := remap_connections pos_map cell.type cell.connections_ [] }

/-- The positional remapping step (lines 475-521, `keep_positionals` off). -/
def remap_positionals (design : Design) : Design :=
  let pos_map := build_pos_map design
  (pos_work design).foldl (fun d work => d.setCell work.1 (remap_cell pos_map work.2)) design

/-- The positional key `$N`. -/
def posKey (n : Nat) : String := ⟨'$' :: (Nat.toDigits 10 n)⟩

/-- The target of the remapping scenario: ports `clk` and `data` at positions 1 and 2. -/
def remapSub : Module :=
  ⟨"\\sub", [], [⟨"\\clk", 1, 1, true, false⟩, ⟨"\\data", 8, 2, true, false⟩, ⟨"\\tmp", 1, 0, false, false⟩], []⟩

/-- The cell of the remapping scenario, connected by position. -/
def remapInst : Cell := ⟨"\\u", "\\sub", [], [("$1", [7]), ("$2", [10, 11, 12])]⟩

/-- The design of the remapping scenario. -/
def remapDesign : Design := ⟨[remapSub, ⟨"\\top", [], [], [remapInst]⟩]⟩

/-- The keys of an association list are strictly increasing: the list is the content of
a `std::map` in iteration order. -/
def KeySorted {β : Type} (l : List (String × β)) : Prop :=
  l.Pairwise (fun x y => strLt x.1 y.1 = true)

/-- The key under which the remapper stores a connection of a cell of the given type. -/
def new_key (pos_map : PosMap) (type key : String) : String :=
  if is_positional key then
    match pos_map.at (type, positional_id key) with
    | none => key
    | some portname => portname
  else key

/-- The name of the last wire (in iteration order) of a module that is exported at the
position `id`. -/
def pos_lookup (module : Module) (id : Int) : Option String :=
  (module.wires.reverse.find? (fun w => decide (w.port_id = id) && decide (w.port_id > 0))).map
    (·.name)

/-- The invariants of the data of a design: the names of the modules are pairwise
distinct, and so are the names of the cells and of the wires of every module (they are
the keys of maps), and the port position of every wire is a value of the type `int`. -/
def Design.WF (d : Design) : Prop :=
  (d.modules.map (·.name)).Nodup ∧
    (∀ m ∈ d.modules, (m.cells.map (·.name)).Nodup ∧ (m.wires.map (·.name)).Nodup) ∧
    ∀ m ∈ d.modules, ∀ w ∈ m.wires, -2147483648 ≤ w.port_id ∧ w.port_id < 2147483648

/-- The cell stored under `cellname` in the module stored under `modname`. -/
def Design.cellAt (d : Design) (modname cellname : String) : Option Cell :=
  match d.find modname with
  | none => none
  | some m => m.cells.find? (fun c => c.name = cellname)

/-- The cells the remapper works on (the condition of lines 484-491). -/
def has_positional (design : Design) (cell : Cell) : Bool :=
  design.count cell.type && cell.connections_.any (fun conn => is_positional conn.1)

/-- One in-place update seen from a cell `x` of the module `mn`: the update `w` replaces
`x` by `g w.2` when it addresses the module and the name of the cell. -/
def update_cell (g : Cell → Cell) (mn : String) (x : Cell) (w : String × Cell) : Cell :=
  if mn = w.1 ∧ x.name = (g w.2).name then g w.2 else x

/-- The port names of the remapping scenario by position. -/
def remapPorts (i : Nat) : String := if i = 1 then "\\clk" else "\\data"

/-- The signals of the remapping scenario by position. -/
def remapSigs (i : Nat) : SigSpec := if i = 1 then [7] else [10, 11, 12]

/-- The key under which a connection of a cell with target module `T` is stored by the
remapper, read off the wires of `T`. -/
def target_key (T : Module) (key : String) : String :=
  if is_positional key then
    match pos_lookup T (positional_id key) with
    | none => key
    | some portname => portname
  else key

/-- A target whose only port is named like a positional key: the wire `$1` is exported
at position 2 and no wire is exported at position 1. -/
def clashSub : Module := ⟨"\\sub", [], [⟨"$1", 1, 2, true, false⟩], []⟩

/-- A cell of `clashSub` connected by position at the positions 1 and 2. -/
def clashInst : Cell := ⟨"\\u", "\\sub", [], [("$1", [7]), ("$2", [8])]⟩

/-- The module that holds `clashInst`. -/
def clashTop : Module := ⟨"\\top", [], [], [clashInst]⟩

/-- The design with the clashing port name. -/
def clashDesign : Design := ⟨[clashSub, clashTop]⟩

/-! ## Port inference generator -/

/-- A port declaration of the generate mode; `index = 0` means that no position was
given. -/
structure generate_port_decl_t where
  input : Bool
  output : Bool
  portname : String
  index : Int
  deriving DecidableEq, Repr

/-- The value of a default-constructed element of the vector `ports`. -/
def generate_port_decl_t.default : generate_port_decl_t := ⟨false, false, "", 0⟩

/-- The collaborators of the generator that are not part of this file. -/
structure GenEnv where
  /-- The test `!fnmatch(pattern, string, FNM_NOESCAPE)`: the string matches the pattern. -/
  fnmatch : String → String → Bool
  /-- The function `RTLIL::unescape_id`. -/
  unescape_id : String → String

/-- Insertion into a `std::set<std::string>`, kept in ascending order. -/
def setInsert (s : String) : List String → List String
  | [] => [s]
  | x :: rest =>
    if x = s then x :: rest
    else if strLt s x then s :: x :: rest
    else x :: setInsert s rest

/-- The read `portwidths[key]` of a `std::map<std::string, int>`: an absent key reads 0. -/
def widthOf (portwidths : List (String × Int)) (key : String) : Int :=
  (lookup key portwidths).getD 0

/-- The side effect of a read `portwidths[key]`: an absent key is entered with 0. -/
def widthTouch (portwidths : List (String × Int)) (key : String) : List (String × Int) :=
  match lookup key portwidths with
  | some _ => portwidths
  | none => mapInsert key 0 portwidths

/-- The statement `portwidths[key] = std::max(portwidths[key], value)`. -/
def widthMax (portwidths : List (String × Int)) (key : String) (value : Int) :
    List (String × Int) :=
  mapInsert key (max (widthOf portwidths key) value) portwidths

/-- All cells of the design, module by module. -/
def Design.allCells (design : Design) : List Cell :=
  design.modules.flatMap (fun m => m.cells)

/-- Lines 40-49: the cell types that are neither primitive nor a module of the design
and match one of the patterns, as a set in ascending order. -/
def found_celltypes (env : GenEnv) (design : Design) (celltypes : List String) : List String :=
  design.allCells.foldl
    (fun found cell =>
      if firstIsDollar cell.type || design.count cell.type then found
      else celltypes.foldl
        (fun found pattern =>
          if env.fnmatch pattern (env.unescape_id cell.type) then setInsert cell.type found
          else found)
        found)
    []

/-- The sets and maps collected from the cells of one type (lines 53-68). -/
structure Observed where
  portnames : List String
  parameters : List String
  portwidths : List (String × Int)

/-- Lines 61-65 for the connections of one cell. -/
def observe_conns (obs : Observed) (conns : List (String × SigSpec)) : Observed :=
  conns.foldl
    (fun obs conn =>
      { obs with
        portnames := if firstIsDollar conn.1 then obs.portnames else setInsert conn.1 obs.portnames
        portwidths := widthMax obs.portwidths conn.1 conn.2.length })
    obs

/-- Lines 58-68: the scan over all cells of the design of the given type. -/
def observe (design : Design) (celltype : String) : Observed :=
  design.allCells.foldl
    (fun obs cell =>
      if cell.type = celltype then
        let obs1 := observe_conns obs cell.connections_
        { obs1 with
          parameters := cell.parameters.foldl (fun ps para => setInsert para.1 ps) obs1.parameters }
      else obs)
    ⟨[], [], []⟩

/-- Lines 70-72: the names of the declarations with a position are added. -/
def add_positional_names (portdecls : List generate_port_decl_t) (portnames : List String) :
    List String :=
  portdecls.foldl (fun names decl => if decl.index > 0 then setInsert decl.portname names else names)
    portnames

/-- The state of the two loops over the declarations and the pending port names. -/
structure GenState where
  portnames : List String
  indices : List Int
  ports : List generate_port_decl_t
  portwidths : List (String × Int)
  deriving DecidableEq, Repr

/-- Lines 81-92: one declaration with a position. -/
def place_positional (st : GenState) (decl : generate_port_decl_t) : Except Err GenState :=
  if decl.index > 0 then
    let pw1 := widthMax st.portwidths decl.portname 1
    let key := String.mk ('$' :: (toString decl.index).data)
    let pw2 := widthMax (widthTouch pw1 key) decl.portname (widthOf pw1 key)
    if (if decl.index ∈ st.indices then 1 else 0) > st.ports.length then
      .error (.portIndexExceeds decl.index st.ports.length)
    else if decl.index ∉ st.indices then
      .error (.portConflict decl.index)
    else
      .ok ⟨st.portnames.filter (fun n => n ≠ decl.portname),
        st.indices.filter (fun i => i ≠ decl.index),
        st.ports.set (decl.index - 1).toNat decl, pw2⟩
  else .ok st

/-- The loop of lines 80-92 over the declarations. -/
def place_positionals : List generate_port_decl_t → GenState → Except Err GenState
  | [], st => .ok st
  | decl :: rest, st =>
    match place_positional st decl with
    | .error e => .error e
    | .ok st' => place_positionals rest st'

/-- Lines 96-97: the first declaration without a position whose pattern matches the
port name. -/
def matching_decl (env : GenEnv) (portdecls : List generate_port_decl_t) (portname : String) :
    Option generate_port_decl_t :=
  portdecls.find? (fun decl => decide (decl.index = 0) &&
    env.fnmatch decl.portname (env.unescape_id portname))

/-- The loop of lines 94-111 over the pending port names, in ascending order. -/
def place_wildcards (env : GenEnv) (portdecls : List generate_port_decl_t) :
    List String → GenState → Except Err GenState
  | [], st => .ok st
  | portname :: rest, st =>
    match matching_decl env portdecls portname with
    | none => .error (.cantMatch portname)
    | some decl =>
      match st.indices with
      | [] => .error (.assertFailed "!indices.empty()")
      | index :: indices =>
        let d : generate_port_decl_t := { decl with portname := portname, index := index }
        place_wildcards env portdecls rest
          ⟨rest, indices.filter (fun i => i ≠ index), st.ports.set (index - 1).toNat d,
            widthMax st.portwidths portname 1⟩

/-- The set `indices` as it is filled in lines 74-76: the numbers `1, ..., n`. -/
def all_indices (n : Nat) : List Int := (List.range n).map (fun (i : Nat) => (i : Int) + 1)

/-- The port placement of `generate` for one cell type (lines 53-113): the state after
the two loops and the final assertion. -/
def generate_ports (env : GenEnv) (design : Design) (portdecls : List generate_port_decl_t)
    (celltype : String) : Except Err GenState :=
  let obs := observe design celltype
  let portnames := add_positional_names portdecls obs.portnames
  let indices := all_indices portnames.length
  let ports := List.replicate portnames.length generate_port_decl_t.default
  match place_positionals portdecls ⟨portnames, indices, ports, obs.portwidths⟩ with
  | .error e => .error e
  | .ok st1 =>
    match place_wildcards env portdecls st1.portnames st1 with
    | .error e => .error e
    | .ok st2 =>
      if st2.indices = [] then .ok st2 else .error (.assertFailed "indices.empty()")

/-- Modelled from the spec: `Module::addWire(name, width)` is not in this file.  The new
wire is entered into the wire map of the module at its place in the key order. -/
def insertWire (w : Wire) : List Wire → List Wire
  | [] => [w]
  | x :: rest =>
    if x.name = w.name then w :: rest
    else if strLt w.name x.name then w :: x :: rest
    else x :: insertWire w rest

/-- Lines 120-125: one wire per element of `ports`, with the collected width. -/
def generate_wires (portwidths : List (String × Int)) :
    List generate_port_decl_t → List Wire → Except Err (List Wire)
  | [], wires => .ok wires
  | decl :: rest, wires =>
    match lookup decl.portname portwidths with
    | none => .error (.outOfRange decl.portname)
    | some width =>
      generate_wires portwidths rest
        (insertWire ⟨decl.portname, width, decl.index, decl.input, decl.output⟩ wires)

/-- The body of the loop of `generate` for one found cell type (lines 53-130): the
synthesized blackbox module. -/
def generate_module (env : GenEnv) (design : Design) (portdecls : List generate_port_decl_t)
    (celltype : String) : Except Err Module :=
  match generate_ports env design portdecls celltype with
  | .error e => .error e
  | .ok st =>
    match generate_wires st.portwidths st.ports [] with
    | .error e => .error e
    | .ok wires => .ok ⟨celltype, [("\\blackbox", Const.one)], wires, []⟩

/-- The loop of `generate` over the found cell types (lines 51-131). -/
def generate_loop (env : GenEnv) (portdecls : List generate_port_decl_t) :
    List String → Design → Except Err Design
  | [], design => .ok design
  | celltype :: rest, design =>
    match generate_module env design portdecls celltype with
    | .error e => .error e
    | .ok mod => generate_loop env portdecls rest ⟨insertModule mod design.modules⟩

/-- The function `generate(design, celltypes, portdecls)`. -/
def generate (env : GenEnv) (design : Design) (celltypes : List String)
    (portdecls : List generate_port_decl_t) : Except Err Design :=
  generate_loop env portdecls (found_celltypes env design celltypes) design

/-- A matcher for the scenarios: a pattern matches the strings that are equal to it,
and a pattern that ends in `*` matches the strings that begin with the rest. -/
def starMatch (pattern s : String) : Bool :=
  match pattern.data.reverse with
  | '*' :: rev => rev.reverse.isPrefixOf s.data
  | _ => pattern = s

/-- The collaborators of the generator in the scenarios; `unescape_id` removes a leading
backslash. -/
def genEnv : GenEnv :=
  { fnmatch := starMatch
    unescape_id := fun s => match s.data with
      | '\\' :: rest => ⟨rest⟩
      | _ => s }

/-- The design of the inference scenario: one cell of the undeclared type `MUX2` with
the ports `A`, `B`, `Y`. -/
def muxDesign : Design :=
  ⟨[⟨"\\top", [], [], [⟨"\\m", "\\MUX2", [], [("\\A", [1]), ("\\B", [2]), ("\\Y", [3])]⟩]⟩]⟩

/-- The declarations `i:A`, `i:B`, `o@3:Y` of the inference scenario. -/
def muxDecls : List generate_port_decl_t :=
  [⟨true, false, "A", 0⟩, ⟨true, false, "B", 0⟩, ⟨false, true, "\\Y", 3⟩]

/-- The port names of the declarations with a position. -/
def positional_names (portdecls : List generate_port_decl_t) : List String :=
  (portdecls.filter (fun decl => decide (decl.index > 0))).map (·.portname)

/-- The positions of the declarations with a position. -/
def positional_indices (portdecls : List generate_port_decl_t) : List Int :=
  (portdecls.filter (fun decl => decide (decl.index > 0))).map (·.index)

/-- The invariant of the set `indices`: ascending, and every element is a position of
the vector `ports`. -/
def GenState.Inv (st : GenState) : Prop :=
  st.indices.Pairwise (fun a b => a < b) ∧ ∀ i ∈ st.indices, 1 ≤ i ∧ i ≤ (st.ports.length : Int)

/-- The port names of a cell type before the declarations are applied (line 72). -/
def all_portnames (design : Design) (portdecls : List generate_port_decl_t) (celltype : String) :
    List String :=
  add_positional_names portdecls (observe design celltype).portnames

/-- The port names of a cell type that no declaration with a position claims, in
ascending order: the names the loop of lines 94-111 goes through. -/
def pending_names (design : Design) (portdecls : List generate_port_decl_t) (celltype : String) :
    List String :=
  (all_portnames design portdecls celltype).filter
    (fun n => decide (n ∉ positional_names portdecls))

/-- The positions `1, ..., n` that no declaration with a position claims, in ascending
order. -/
def free_indices (design : Design) (portdecls : List generate_port_decl_t) (celltype : String) :
    List Int :=
  (all_indices (all_portnames design portdecls celltype).length).filter
    (fun i => decide (i ∉ positional_indices portdecls))

/-- The result of the port placement in the inference scenario. -/
def muxState : GenState :=
  ⟨[], [], [⟨true, false, "\\A", 1⟩, ⟨true, false, "\\B", 2⟩, ⟨false, true, "\\Y", 3⟩],
    [("$3", 0), ("\\A", 1), ("\\B", 1), ("\\Y", 1)]⟩

/-- A design with one cell of the undeclared type `MUX2` that connects the port `B`. -/
def dupDesign : Design :=
  ⟨[⟨"\\top", [], [], [⟨"\\m", "\\MUX2", [], [("\\B", [2])]⟩]⟩]⟩

/-- The declarations `i@1:\A`, `i@2:\A`, `i:*`: two positions for the same port name. -/
def dupDecls : List generate_port_decl_t :=
  [⟨true, false, "\\A", 1⟩, ⟨true, false, "\\A", 2⟩, ⟨true, false, "*", 0⟩]

/-- The attributes and wires of the module stored under a name: what the expander reads
of the targets of the cells. -/
def Design.face (d : Design) (n : String) : Option (List (String × Const) × List Wire) :=
  (d.find n).map (fun m => (m.attributes, m.wires))

/-- A deriver for the scenarios: the derived module is named `$paramod` followed by the
name of the template, and has the contents of the template. -/
def paramodEnv : Env :=
  { derive_name := fun m _ => "$paramod" ++ m.name
    derive_body := fun m _ => m
    derive_fails := fun _ _ => false
    unescape_id := fun s => s
    access := fun _ => false
    frontend := fun _ _ => [] }

/-- A module with one array cell (instance 0 of 2) of the unknown type `missing`. -/
def arrayMissingTop : Module :=
  ⟨"\\top", [], [], [⟨"\\u", "$array:0:2:\\missing", [], [("\\d", [1, 2])]⟩]⟩

/-- The design that holds only `arrayMissingTop`. -/
def arrayMissingDesign : Design := ⟨[arrayMissingTop]⟩

/-- The blackbox flag of the module stored under a name (false when there is none). -/
def Design.blackbox (d : Design) (n : String) : Bool :=
  match d.find n with
  | some m => m.get_bool_attribute "\\blackbox"
  | none => false

/-- A cell with its type replaced by the type without array descriptor (line 151). -/
def stripped (c : Cell) : Cell := { c with type := (strip_array c.type).1 }

/-- A cell for which the first loop of `expand_module` neither derives, nor loads, nor
fails: a resolved type without parameters or with a blackbox target, or an unresolved
type without template that is primitive or tolerated (no library file, no strict
checking). -/
def Calm (env : Env) (flag_check : Bool) (libdirs : List String) (d : Design) (c : Cell) : Prop :=
  (d.count c.type = true → c.parameters.length = 0 ∨ d.blackbox c.type = true) ∧
  (d.count c.type = false → d.find ("$abstract" ++ c.type) = none ∧
    (firstIsDollar c.type = true ∨ (find_libfile env c.type libdirs = none ∧ flag_check = false)))

/-- A cell as the expander leaves it when it reports no change: calm, and of a resolved
type in case the type still begins with `$array:`. -/
def Settled (env : Env) (flag_check : Bool) (libdirs : List String) (d : Design) (c : Cell) :
    Prop :=
  (startsWith "$array:" c.type = true → d.count c.type = true) ∧ Calm env flag_check libdirs d c

/-- A module whose name begins with `$array:`. -/
def nestedInner : Module := ⟨"$array:0:1:\\sub", [], [], []⟩

/-- The module `sub` of the nested scenario. -/
def nestedSub : Module := ⟨"\\sub", [], [], []⟩

/-- A module with an array cell whose type, without its array descriptor, is the name of
the module `nestedInner`. -/
def nestedTop : Module :=
  ⟨"\\top", [], [], [plainCell "\\u" "$array:0:1:$array:0:1:\\sub"]⟩

/-- The design of the nested scenario. -/
def nestedDesign : Design := ⟨[nestedInner, nestedSub, nestedTop]⟩

/-- The design of the nested scenario after one run of the expander loop. -/
def nestedOnce : Design :=
  ⟨[nestedInner, nestedSub, ⟨"\\top", [], [], [plainCell "\\u" "$array:0:1:\\sub"]⟩]⟩

/-- The design of the nested scenario after two runs of the expander loop. -/
def nestedTwice : Design :=
  ⟨[nestedInner, nestedSub, ⟨"\\top", [], [], [plainCell "\\u" "\\sub"]⟩]⟩

/-- The design of the array scenario after the expander loop. -/
def arrayDesignDone : Design :=
  ⟨[arraySub, ⟨"\\top", [], [],
    [⟨"\\u", "\\sub", [], [("\\d", [116, 117, 118, 119, 120, 121, 122, 123])]⟩]⟩]⟩

/-- Condition (a) of the generator: a declared position exceeds the number of ports. -/
def index_exceeds (design : Design) (portdecls : List generate_port_decl_t) (celltype : String) :
    Prop :=
  ∃ i ∈ positional_indices portdecls, i > ((all_portnames design portdecls celltype).length : Int)

/-- Condition (b) of the generator: a declared position is claimed twice. -/
def index_conflict (portdecls : List generate_port_decl_t) : Prop :=
  ¬ (positional_indices portdecls).Nodup

/-- Condition (c) of the generator: a pending port name matches no declaration without
a position. -/
def unmatched_port (env : GenEnv) (design : Design) (portdecls : List generate_port_decl_t)
    (celltype : String) : Prop :=
  ∃ name ∈ pending_names design portdecls celltype, matching_decl env portdecls name = none

/-! ## Example designs of the pruner -/

/-- A module without cells and wires that carries the attribute `blackbox = 1`. -/
def libAttrs : List (String × Const) := [("\\blackbox", Const.one)]

/-- The top module of the library scenario: it instantiates nothing. -/
def libTop : Module := ⟨"\\top", [], [], []⟩

/-- A blackbox module that no module instantiates and that has a cell of type `helper`. -/
def libCell : Module := ⟨"\\lib", libAttrs, [], [plainCell "\\h" "\\helper"]⟩

/-- The module `helper`, instantiated only by `lib`. -/
def libHelper : Module := ⟨"\\helper", [], [], []⟩

/-- The design of the library scenario. -/
def libDesign : Design := ⟨[libHelper, libCell, libTop]⟩

/-- The top module of the blackbox scenario: it instantiates the blackbox `bb`. -/
def bbTop : Module := ⟨"\\top", [], [], [plainCell "\\u" "\\bb"]⟩

/-- A blackbox module with a cell of type `inner`. -/
def bbBox : Module := ⟨"\\bb", libAttrs, [], [plainCell "\\i" "\\inner"]⟩

/-- The module `inner`, instantiated only from inside the blackbox `bb`. -/
def bbInner : Module := ⟨"\\inner", [], [], []⟩

/-- The design of the blackbox scenario. -/
def bbDesign : Design := ⟨[bbBox, bbInner, bbTop]⟩

/-- A module `a` that instantiates itself and `b`. -/
def cycA : Module := ⟨"\\a", [], [], [plainCell "\\s" "\\a", plainCell "\\x" "\\b"]⟩

/-- A module `b` that instantiates `a`. -/
def cycB : Module := ⟨"\\b", [], [], [plainCell "\\y" "\\a"]⟩

/-- A module `c` that nobody instantiates. -/
def cycC : Module := ⟨"\\c", [], [], [plainCell "\\z" "\\a"]⟩

/-- A design with a self-instantiation and a cycle. -/
def cycDesign : Design := ⟨[cycA, cycB, cycC]⟩

/-- A cell of the target of the remapping scenario that connects the port `clk` both
by position and by name. -/
def mixedInst : Cell := ⟨"\\u", "\\sub", [], [("$1", [7]), ("\\clk", [9])]⟩

/-- The design with the doubly connected port. -/
def mixedDesign : Design := ⟨[remapSub, ⟨"\\top", [], [], [mixedInst]⟩]⟩

/-- A design with one cell of the undeclared type `MUX2` that connects the ports `B`
and `C`. -/
def dup2Design : Design :=
  ⟨[⟨"\\top", [], [], [⟨"\\m", "\\MUX2", [], [("\\B", [2]), ("\\C", [3])]⟩]⟩]⟩

/-- The design of the inference scenario after `generate`: the synthesized blackbox
module `MUX2` with the ports `A`, `B`, `Y` at the positions 1, 2, 3. -/
def muxGenerated : Design :=
  ⟨[⟨"\\MUX2", [("\\blackbox", Const.one)],
      [⟨"\\A", 1, 1, true, false⟩, ⟨"\\B", 1, 2, true, false⟩, ⟨"\\Y", 1, 3, false, true⟩], []⟩,
    ⟨"\\top", [], [], [⟨"\\m", "\\MUX2", [], [("\\A", [1]), ("\\B", [2]), ("\\Y", [3])]⟩]⟩]⟩

/-- The key of line 83, `stringf("$%d", index)`. -/
def index_key (index : Int) : String := String.mk ('$' :: (toString index).data)

/-- The maximum bit width observed for the connection stored under `key` over all cells
of the type `celltype` in the design; 0 when there is no such connection. -/
def max_observed (design : Design) (celltype key : String) : Int :=
  (((design.allCells.filter (fun c => c.type = celltype)).flatMap
      (fun c => c.connections_)).filter (fun conn => conn.1 = key)).foldl
    (fun acc conn => max acc (conn.2.length : Int)) 0

/-- A design with two cells of the undeclared type `BUF`: one connects four bits by
position, the other two bits to the port `A` by name. -/
def widthDesign : Design :=
  ⟨[⟨"\\top", [], [],
    [⟨"\\u1", "\\BUF", [], [("$1", [1, 2, 3, 4])]⟩, ⟨"\\u2", "\\BUF", [], [("\\A", [5, 6])]⟩]⟩]⟩

/-- The declaration `i@1:\A`. -/
def widthDecls : List generate_port_decl_t := [⟨true, false, "\\A", 1⟩]

/-- The module synthesized for `BUF` in the design `widthDesign`. -/
def widthMod : Module :=
  ⟨"\\BUF", [("\\blackbox", Const.one)], [⟨"\\A", 4, 1, true, false⟩], []⟩

/-- The design `widthDesign` after `generate`. -/
def widthGenerated : Design :=
  ⟨[widthMod, ⟨"\\top", [], [],
    [⟨"\\u1", "\\BUF", [], [("$1", [1, 2, 3, 4])]⟩, ⟨"\\u2", "\\BUF", [], [("\\A", [5, 6])]⟩]⟩]⟩

/-- The conditions under which the first loop of `expand_module` reaches a call of
`derive` (lines 158 and 204) or of `frontend_call` (lines 173 and 181) for a cell, taken
without its array descriptor, in a design: the type is not a module and has an
`$abstract` template, or is not a module, is not primitive and has a library file, or
is a module that is not a blackbox while the cell has parameters. -/
def calls_derive_or_load (env : Env) (libdirs : List String) (d : Design) (c : Cell) : Bool :=
  if d.count c.type = false then
    d.count ("$abstract" ++ c.type) ||
      (!firstIsDollar c.type && (find_libfile env c.type libdirs).isSome)
  else decide (c.parameters.length ≠ 0) && !d.blackbox c.type

/-- A module with one cell of the primitive type `$gate`. -/
def tmplTop : Module := ⟨"\\top", [], [], [plainCell "\\g" "$gate"]⟩

/-- A design in which the primitive type `$gate` has the template `$abstract$gate`. -/
def tmplDesign : Design := ⟨[⟨"$abstract$gate", [], [], []⟩, tmplTop]⟩

/-- The design `tmplDesign` after the expander loop with the deriver `paramodEnv`. -/
def tmplDone : Design :=
  ⟨[⟨"$abstract$gate", [], [], []⟩, ⟨"$paramod$abstract$gate", [], [], []⟩,
    ⟨"\\top", [], [], [plainCell "\\g" "$paramod$abstract$gate"]⟩]⟩

/-- A design whose cells are an unresolved cell, a primitive cell, an instance of a
blackbox module with a parameter, and an instance without parameters. -/
def idleDesign : Design :=
  ⟨[⟨"\\bb", [("\\blackbox", Const.one)], [], []⟩, ⟨"\\sub", [], [], []⟩,
    ⟨"\\top", [], [],
      [plainCell "\\a" "\\missing", plainCell "\\b" "$and",
        ⟨"\\c", "\\bb", [("\\W", Const.one)], []⟩, plainCell "\\d" "\\sub"]⟩]⟩

/-- The conditions under which the first loop of `expand_module` reaches a call of
`derive` (line 158 or line 204) for a cell, taken without its array descriptor, in the
design in which the cell is visited: the type is not a module and has an `$abstract`
template; or the type is a module that is not a blackbox and the cell has parameters,
where the module may have been declared by the library file loaded for the cell. -/
def calls_derive (env : Env) (libdirs : List String) (d : Design) (c : Cell) : Bool :=
  if d.count c.type = false then
    if d.count ("$abstract" ++ c.type) then true
    else if firstIsDollar c.type then false
    else
      match find_libfile env c.type libdirs with
      | some (filename, format) =>
        (frontend_call env d filename format).count c.type &&
          decide (c.parameters.length ≠ 0) &&
          !(frontend_call env d filename format).blackbox c.type
      | none => false
  else decide (c.parameters.length ≠ 0) && !d.blackbox c.type

/-- The type and the parameters of the cell stored under `cellname` in the module stored
under `modname`. -/
def Design.sigAt (d : Design) (modname cellname : String) :
    Option (String × List (String × Const)) :=
  (d.cellAt modname cellname).map (fun c => (c.type, c.parameters))

/-- The value of a constant, least significant bit first. -/
def Const.value (c : Const) : Nat :=
  c.bits.foldr (fun b acc => (if b then 1 else 0) + 2 * acc) 0

/-- A deriver for the scenarios whose module names depend on the parameters: the name
is `$paramod`, the name of the template without `$abstract`, and `\NAME=value` for each
parameter. -/
def adderEnv : Env :=
  { derive_name := fun m ps => "$paramod" ++ substrFrom m.name 9 ++
      String.join (ps.map (fun p => p.1 ++ "=" ++ toString p.2.value))
    derive_body := fun m _ => m
    derive_fails := fun _ _ => false
    unescape_id := fun s => s
    access := fun _ => false
    frontend := fun _ _ => [] }

/-- The constant 8. -/
def const8 : Const := ⟨[false, false, false, true]⟩

/-- The constant 16. -/
def const16 : Const := ⟨[false, false, false, false, true]⟩

/-- The module of the template scenario: two cells of the type `adder`, with the
parameter `WIDTH` set to 8 and to 16. -/
def adderTop : Module :=
  ⟨"\\top", [], [],
    [⟨"\\a16", "\\adder", [("\\WIDTH", const16)], []⟩,
      ⟨"\\a8", "\\adder", [("\\WIDTH", const8)], []⟩]⟩

/-- The design of the template scenario: the template `$abstract\adder` and `top`. -/
def adderDesign : Design := ⟨[⟨"$abstract\\adder", [], [], []⟩, adderTop]⟩

/-- A library for the scenarios: the file `lib/bar.v` declares the modules `bar` and
`foo`; there is no other file. -/
def libEnv : Env :=
  { derive_name := fun m _ => "$paramod" ++ m.name
    derive_body := fun m _ => m
    derive_fails := fun _ _ => false
    unescape_id := fun s => match s.data with
      | '\\' :: rest => ⟨rest⟩
      | _ => s
    access := fun f => f = "lib/bar.v"
    frontend := fun f _ =>
      if f = "lib/bar.v" then [⟨"\\bar", [], [], []⟩, ⟨"\\foo", [], [], []⟩] else [] }

/-- A module with a cell of type `foo` that has a parameter, and a cell of type `bar`. -/
def multiTop : Module :=
  ⟨"\\top", [], [], [⟨"\\u1", "\\foo", [("\\W", const8)], []⟩, plainCell "\\u2" "\\bar"]⟩

/-- The design that holds only `multiTop`. -/
def multiDesign : Design := ⟨[multiTop]⟩

/-- The design `adderDesign` after the call of `expand_module` for `top`. -/
def adderDone : Design :=
  ⟨[⟨"$abstract\\adder", [], [], []⟩, ⟨"$paramod\\adder\\WIDTH=16", [], [], []⟩,
    ⟨"$paramod\\adder\\WIDTH=8", [], [], []⟩,
    ⟨"\\top", [], [],
      [plainCell "\\a16" "$paramod\\adder\\WIDTH=16",
        plainCell "\\a8" "$paramod\\adder\\WIDTH=8"]⟩]⟩

/-- The design `multiDesign` after the call of `expand_module` for `top` with the
library `libEnv`. -/
def multiDone : Design :=
  ⟨[⟨"\\bar", [], [], []⟩, ⟨"\\foo", [], [], []⟩,
    ⟨"\\top", [], [], [⟨"\\u1", "\\foo", [("\\W", const8)], []⟩, plainCell "\\u2" "\\bar"]⟩]⟩

/-- The modules of `d` are modules of `d2`, unchanged. -/
def Design.Extends (d d2 : Design) : Prop :=
  ∀ n, d.count n = true → d2.find n = d.find n

/-- The modules of `d` are modules of `d2` with the same attributes and wires. -/
def Design.Grows (d d2 : Design) : Prop :=
  ∀ n, d.count n = true → d2.face n = d.face n

/-- A cell of the target of the remapping scenario that connects by the keys `$1` and
`$4294967297`. -/
def wideInst : Cell := ⟨"\\u", "\\sub", [], [("$1", [7]), ("$4294967297", [9])]⟩

/-- The design with the key `$4294967297`. -/
def wideDesign : Design := ⟨[remapSub, ⟨"\\top", [], [], [wideInst]⟩]⟩

/-- A cell of the target of the remapping scenario whose only connection has the key
`$4294967297`. -/
def wideOnlyInst : Cell := ⟨"\\u", "\\sub", [], [("$4294967297", [9])]⟩

/-- The design that holds the cell `wideOnlyInst`. -/
def wideOnlyDesign : Design := ⟨[remapSub, ⟨"\\top", [], [], [wideOnlyInst]⟩]⟩

/-! # Lemmas and theorems -/

/-! ## Lemmas on the design map -/

theorem find_some_mem {d : Design} {n : String} {m : Module} (h : d.find n = some m) :
    m ∈ d.modules ∧ m.name = n := by
  unfold Design.find at h
  exact ⟨List.mem_of_find?_eq_some h, by simpa using List.find?_some h⟩

theorem find_of_mem_nodup {d : Design} (hn : (d.modules.map (·.name)).Nodup) {m : Module}
    (hm : m ∈ d.modules) : d.find m.name = some m := by
  unfold Design.find
  obtain ⟨ms⟩ := d
  simp only at hn hm ⊢
  induction ms with
  | nil => simp at hm
  | cons a rest ih =>
    simp only [List.map_cons, List.nodup_cons] at hn
    rcases List.mem_cons.1 hm with rfl | hmem
    · simp
    · have hne : a.name ≠ m.name := by
        intro h
        exact hn.1 (h ▸ List.mem_map_of_mem _ hmem)
      simp [List.find?_cons, hne, ih hn.2 hmem]

theorem unvisited_mono (d : Design) {u v : List String} (h : ∀ x ∈ u, x ∈ v) :
    unvisited d v ≤ unvisited d u := by
  unfold unvisited
  apply List.Sublist.length_le
  apply List.monotone_filter_right
  intro m hm
  simp only [decide_eq_true_eq] at hm ⊢
  exact fun hu => hm (h _ hu)

theorem filter_length_lt {α : Type} (p q : α → Bool) (l : List α) (himp : ∀ x, p x = true → q x = true)
    {a : α} (ha : a ∈ l) (hq : q a = true) (hp : p a = false) :
    (l.filter p).length < (l.filter q).length := by
  induction l with
  | nil => simp at ha
  | cons b rest ih =>
    have hle : (rest.filter p).length ≤ (rest.filter q).length :=
      List.Sublist.length_le (List.monotone_filter_right rest himp)
    rcases List.mem_cons.1 ha with rfl | hmem
    · rw [List.filter_cons_of_neg (by simp [hp]), List.filter_cons_of_pos hq, List.length_cons]
      omega
    · have h := ih hmem
      by_cases hpb : p b = true
      · rw [List.filter_cons_of_pos hpb, List.filter_cons_of_pos (himp b hpb)]
        simp only [List.length_cons]
        omega
      · rw [List.filter_cons_of_neg hpb]
        by_cases hqb : q b = true
        · rw [List.filter_cons_of_pos hqb, List.length_cons]
          omega
        · rw [List.filter_cons_of_neg hqb]
          exact h

theorem unvisited_cons_lt (d : Design) {used : List String} {m : Module} (hm : m ∈ d.modules)
    (hnot : m.name ∉ used) : unvisited d (m.name :: used) < unvisited d used := by
  unfold unvisited
  apply filter_length_lt _ _ _ _ hm
  · simpa using hnot
  · simp
  · intro x hx
    simp only [decide_eq_true_eq, List.mem_cons, not_or] at hx ⊢
    exact hx.2

/-! ## Correctness of the walk -/

theorem hierarchy_worker_succ (design : Design) (fuel : Nat) (used : List String) (mod : Module) :
    hierarchy_worker design (fuel + 1) used mod =
      if mod.name ∈ used then some used
      else mod.cells.foldlM (worker_step design fuel) (mod.name :: used) := by
  rw [hierarchy_worker]
  rfl

theorem worker_fold_spec (d : Design) (fuel : Nat) (ih : WorkerSpec d fuel) :
    ∀ (cs : List Cell) (u : List String), unvisited d u < fuel →
      ∃ U, cs.foldlM (worker_step d fuel) u = some U ∧
        (∀ c ∈ cs, d.count c.type = true → c.type ∈ U) ∧
        WalkPost d (fun r => ∃ c ∈ cs, c.type = r ∧ d.count r = true) u U := by
  intro cs
  induction cs with
  | nil =>
    intro u _
    refine ⟨u, rfl, by simp, ⟨fun _ h => h, fun x hx hnx => absurd hx hnx,
      fun x hx hnx => absurd hx hnx⟩⟩
  | cons c rest ihr =>
    intro u hu
    -- the call for the first cell
    have hfirst : ∃ U1, worker_step d fuel u c = some U1 ∧
        (d.count c.type = true → c.type ∈ U1) ∧
        WalkPost d (fun r => r = c.type ∧ d.count r = true) u U1 := by
      unfold worker_step
      cases hf : d.find c.type with
      | none =>
        refine ⟨u, rfl, ?_, ⟨fun _ h => h, fun x hx hnx => absurd hx hnx,
          fun x hx hnx => absurd hx hnx⟩⟩
        intro hc
        simp [Design.count, hf] at hc
      | some m =>
        have hname : m.name = c.type := (find_some_mem hf).2
        have hfm : d.find m.name = some m := by rw [hname]; exact hf
        obtain ⟨U1, hU1, hmem, hpost⟩ := ih u m hfm hu
        refine ⟨U1, hU1, fun _ => hname ▸ hmem, ⟨hpost.mono, ?_, hpost.closed⟩⟩
        intro x hx hnx
        obtain ⟨r, hr, hreach⟩ := hpost.reach x hx hnx
        refine ⟨c.type, ⟨rfl, by simp [Design.count, hf]⟩, ?_⟩
        rw [← hname, ← hr]
        exact hreach
    obtain ⟨U1, hU1, hc1, hpost1⟩ := hfirst
    have hu1 : unvisited d U1 < fuel := lt_of_le_of_lt (unvisited_mono d hpost1.mono) hu
    obtain ⟨U, hU, hcs, hpost⟩ := ihr U1 hu1
    refine ⟨U, ?_, ?_, ⟨?_, ?_, ?_⟩⟩
    · simp only [List.foldlM_cons, hU1]
      exact hU
    · intro c' hc' hcount
      rcases List.mem_cons.1 hc' with rfl | hmem
      · exact hpost.mono _ (hc1 hcount)
      · exact hcs c' hmem hcount
    · exact fun x hx => hpost.mono _ (hpost1.mono x hx)
    · intro x hx hnx
      by_cases hx1 : x ∈ U1
      · obtain ⟨r, ⟨hr, hcnt⟩, hreach⟩ := hpost1.reach x hx1 hnx
        exact ⟨r, ⟨c, List.mem_cons_self _ _, hr.symm, hcnt⟩, hreach⟩
      · obtain ⟨r, ⟨c', hc', hr⟩, hreach⟩ := hpost.reach x hx hx1
        exact ⟨r, ⟨c', List.mem_cons_of_mem _ hc', hr⟩, hreach⟩
    · intro x hx hnx y hxy
      by_cases hx1 : x ∈ U1
      · exact hpost.mono _ (hpost1.closed x hx1 hnx y hxy)
      · exact hpost.closed x hx hx1 y hxy

theorem worker_spec (d : Design) : ∀ fuel, WorkerSpec d fuel := by
  intro fuel
  induction fuel with
  | zero => intro used mod _ h; exact absurd h (Nat.not_lt_zero _)
  | succ fuel ih =>
    intro used mod hfind hfuel
    rw [hierarchy_worker_succ]
    by_cases hin : mod.name ∈ used
    · rw [if_pos hin]
      exact ⟨used, rfl, hin, ⟨fun _ h => h, fun x hx hnx => absurd hx hnx,
        fun x hx hnx => absurd hx hnx⟩⟩
    · rw [if_neg hin]
      have hlt := unvisited_cons_lt d (find_some_mem hfind).1 hin
      obtain ⟨U, hU, hcs, hpost⟩ := worker_fold_spec d fuel ih mod.cells (mod.name :: used)
        (by omega)
      have hmodU : mod.name ∈ U := hpost.mono _ (List.mem_cons_self _ _)
      refine ⟨U, hU, hmodU, ⟨fun x hx => hpost.mono _ (List.mem_cons_of_mem _ hx), ?_, ?_⟩⟩
      · intro x hx hnx
        by_cases hxm : x = mod.name
        · exact ⟨mod.name, rfl, hxm ▸ Relation.ReflTransGen.refl⟩
        · have hnx' : x ∉ mod.name :: used := by
            simp only [List.mem_cons, not_or]; exact ⟨hxm, hnx⟩
          obtain ⟨r, ⟨c, hc, hr, hcnt⟩, hreach⟩ := hpost.reach x hx hnx'
          refine ⟨mod.name, rfl, Relation.ReflTransGen.head ?_ hreach⟩
          exact ⟨mod, hfind, c, hc, hr, hcnt⟩
      · intro x hx hnx y hxy
        by_cases hxm : x = mod.name
        · obtain ⟨m, hm, c, hc, hty, hcnt⟩ := hxy
          rw [hxm, hfind] at hm
          cases hm
          exact hty ▸ hcs c hc (hty ▸ hcnt)
        · have hnx' : x ∉ mod.name :: used := by
            simp only [List.mem_cons, not_or]; exact ⟨hxm, hnx⟩
          exact hpost.closed x hx hnx' y hxy

/-- The walk from `top` with an empty visited set returns exactly the names reachable
from `top`. -/
theorem worker_top (d : Design) (top : Module) (htop : d.find top.name = some top) :
    ∃ U, hierarchy_worker d (d.modules.length + 1) [] top = some U ∧
      ∀ x, x ∈ U ↔ Reach d top.name x := by
  have hfuel : unvisited d [] < d.modules.length + 1 := by
    unfold unvisited
    exact Nat.lt_succ_of_le (List.length_filter_le _ _)
  obtain ⟨U, hU, hmem, hpost⟩ := worker_spec d _ [] top htop hfuel
  refine ⟨U, hU, fun x => ⟨?_, ?_⟩⟩
  · intro hx
    obtain ⟨r, hr, hreach⟩ := hpost.reach x hx (by simp)
    exact hr ▸ hreach
  · intro hx
    induction hx with
    | refl => exact hmem
    | tail _ hbc ihb => exact hpost.closed _ ihb (by simp) _ hbc

/-! ## Correctness of the pruner -/

theorem substr_abstract_iff (s : String) :
    substr s 0 9 = "$abstract" ↔ startsWith "$abstract" s = true := by
  unfold substr startsWith
  rw [List.isPrefixOf_iff_prefix, List.prefix_iff_eq_take, String.ext_iff]
  simp only [List.drop_zero]
  exact eq_comm

theorem hierarchy_delete_mem (purge_lib first_pass : Bool) (dels : List Module) :
    ∀ (d : Design) (M : Module),
      M ∈ (hierarchy_delete purge_lib first_pass dels d).modules ↔
        M ∈ d.modules ∧ ∀ x ∈ dels, retained purge_lib first_pass x = false → x.name ≠ M.name := by
  induction dels with
  | nil => intro d M; simp [hierarchy_delete]
  | cons a rest ih =>
    intro d M
    have hstep : hierarchy_delete purge_lib first_pass (a :: rest) d =
        hierarchy_delete purge_lib first_pass rest
          (if retained purge_lib first_pass a = true then d else d.erase a.name) := by
      unfold hierarchy_delete retained
      simp only [List.foldl_cons]
      congr 1
      by_cases h1 : (first_pass && decide (substr a.name 0 9 = "$abstract")) = true
      · simp [h1]
      · by_cases h2 : (!purge_lib && a.get_bool_attribute "\\blackbox") = true
        · simp only [Bool.not_eq_true] at h1
          simp only [h1, h2, Bool.or_true, if_true, Bool.false_eq_true, if_false]
        · simp only [Bool.not_eq_true] at h1 h2
          simp only [h1, h2, Bool.or_false, Bool.false_eq_true, if_false]
    rw [hstep, ih]
    by_cases hr : retained purge_lib first_pass a = true
    · simp [hr]
    · rw [if_neg hr]
      simp only [Bool.not_eq_true] at hr
      simp only [Design.erase, List.mem_filter, decide_eq_true_eq,
        List.mem_cons, forall_eq_or_imp, hr, true_implies, ne_eq]
      constructor
      · rintro ⟨⟨h1, h2⟩, h3⟩
        exact ⟨h1, fun h => h2 h.symm, h3⟩
      · rintro ⟨h1, h2, h3⟩
        exact ⟨⟨h1, fun h => h2 h.symm⟩, h3⟩

/-- Claim C1 (reachability correctness of the pruner).  For every design whose module
names are pairwise distinct, every top module in it and all flag values, the call
`hierarchy(design, top, purge_lib, first_pass)` returns, and a module `M` of the design
is still in the design afterwards if and only if `M` is reachable from `top` along cell
types naming modules of the design, or `first_pass` holds and the name of `M` starts
with `$abstract`, or `purge_lib` is off and `M` has a true `blackbox` attribute. -/
theorem hierarchy_survivors (design : Design) (top : Module) (purge_lib first_pass : Bool)
    (hnodup : (design.modules.map (·.name)).Nodup) (htop : top ∈ design.modules) :
    ∃ d', hierarchy design top purge_lib first_pass = some d' ∧
      ∀ M ∈ design.modules,
        (M ∈ d'.modules ↔
          (Reach design top.name M.name ∨
            (first_pass = true ∧ startsWith "$abstract" M.name = true) ∨
            (purge_lib = false ∧ M.get_bool_attribute "\\blackbox" = true))) := by
  obtain ⟨U, hU, hreach⟩ := worker_top design top (find_of_mem_nodup hnodup htop)
  refine ⟨hierarchy_delete purge_lib first_pass
    (design.modules.filter (fun m => decide (m.name ∉ U))) design, by simp only [hierarchy, hU], ?_⟩
  intro M hM
  rw [hierarchy_delete_mem]
  have hret : retained purge_lib first_pass M = true ↔
      ((first_pass = true ∧ startsWith "$abstract" M.name = true) ∨
        (purge_lib = false ∧ M.get_bool_attribute "\\blackbox" = true)) := by
    unfold retained
    simp only [Bool.or_eq_true, Bool.and_eq_true, decide_eq_true_eq, substr_abstract_iff,
      Bool.not_eq_true']
  constructor
  · rintro ⟨_, hall⟩
    by_cases hr : Reach design top.name M.name
    · exact Or.inl hr
    · right
      rw [← hret]
      by_contra hnr
      have hdel : M ∈ design.modules.filter (fun m => decide (m.name ∉ U)) := by
        simp only [List.mem_filter, decide_eq_true_eq]
        exact ⟨hM, fun h => hr ((hreach _).1 h)⟩
      exact hall M hdel (by simpa using hnr) rfl
  · intro h
    refine ⟨hM, ?_⟩
    intro x hx hxret hname
    simp only [List.mem_filter, decide_eq_true_eq] at hx
    -- names are unique, so `x` is `M`
    have hxM : x = M := by
      have h1 := find_of_mem_nodup hnodup hx.1
      have h2 := find_of_mem_nodup hnodup hM
      rw [hname, h2] at h1
      exact (Option.some.inj h1).symm
    subst hxM
    rcases h with h | h
    · exact hx.2 ((hreach _).2 h)
    · rw [hret.2 h] at hxret
      exact Bool.noConfusion hxret

/-- The pruning scenario evaluated: `baz` is removed, `top`, `foo`, `bar` are kept. -/
theorem hierarchy_prune_example :
    hierarchy pruneDesign pruneTop false false = some ⟨[pruneBar, pruneFoo, pruneTop]⟩ := by
  decide

/-- Witness of `hierarchy_survivors` on the pruning scenario. -/
theorem hierarchy_survivors_witness :
    (pruneDesign.modules.map (·.name)).Nodup ∧ pruneTop ∈ pruneDesign.modules ∧
    ∃ d', hierarchy pruneDesign pruneTop false false = some d' ∧
      ∀ M ∈ pruneDesign.modules,
        (M ∈ d'.modules ↔
          (Reach pruneDesign pruneTop.name M.name ∨
            (false = true ∧ startsWith "$abstract" M.name = true) ∨
            (false = false ∧ M.get_bool_attribute "\\blackbox" = true))) :=
  ⟨by decide, by decide,
    hierarchy_survivors pruneDesign pruneTop false false (by decide) (by decide)⟩

/-! ## Array pass -/

theorem extract_length (sig : SigSpec) (offset length : Int)
    (h : offset.toNat + length.toNat ≤ sig.length) :
    (extract sig offset length).length = length.toNat := by
  unfold extract
  rw [List.length_take, List.length_drop]
  omega

theorem extract_get (sig : SigSpec) (offset length : Int) (j : Nat) (hj : j < length.toNat) :
    (extract sig offset length)[j]? = sig[offset.toNat + j]? := by
  unfold extract
  rw [List.getElem?_take_of_lt hj, List.getElem?_drop]

/-- The check of one connection (lines 230-237) against a target port that is a wire of
width `w`: a connection of width `w` is left unchanged; a connection of width `w * num`
(and not `w`) is replaced by the bits `w * idx, ..., w * idx + w - 1` of the original
signal; any other width is the fatal size error.  For `0 ≤ idx < num` the slice has
exactly `w` bits, bit `j` of it being bit `w * idx + j` of the original signal. -/
theorem array_conn_widths (modname cellname : String) (mod : Module) (idx num : Int)
    (conn : String × SigSpec) (wire : Wire)
    (hport : mod.findWire (array_portname mod conn.1) = some wire) :
    ((conn.2.length : Int) = wire.width →
      array_conn modname cellname mod idx num conn = .ok conn) ∧
    ((conn.2.length : Int) ≠ wire.width → (conn.2.length : Int) = wire.width * num →
      array_conn modname cellname mod idx num conn =
        .ok (conn.1, (conn.2.drop (wire.width * idx).toNat).take wire.width.toNat)) ∧
    ((conn.2.length : Int) ≠ wire.width → (conn.2.length : Int) ≠ wire.width * num →
      array_conn modname cellname mod idx num conn =
        .error (.arrayInvalidSize modname cellname conn.1)) ∧
    ((conn.2.length : Int) = wire.width * num → 0 ≤ idx → idx < num →
      ((conn.2.drop (wire.width * idx).toNat).take wire.width.toNat).length = wire.width.toNat ∧
      ∀ j, j < wire.width.toNat →
        ((conn.2.drop (wire.width * idx).toNat).take wire.width.toNat)[j]? =
          conn.2[(wire.width * idx).toNat + j]?) := by
  refine ⟨?_, ?_, ?_, ?_⟩
  · intro h
    simp only [array_conn, hport, h, if_true]
  · intro h1 h2
    unfold array_conn
    simp only [hport]
    rw [if_neg h1, if_neg (by simpa using h2)]
    rfl
  · intro h1 h2
    simp only [array_conn, hport, h1, if_false, h2, ne_eq, not_false_eq_true, if_true]
  · intro hlen h0 hlt
    refine ⟨?_, fun j hj => extract_get conn.2 _ _ j hj⟩
    apply extract_length
    have hw : 0 ≤ wire.width ∨ wire.width < 0 := le_or_lt 0 wire.width
    rcases hw with hw | hw
    · have h1 : wire.width * idx + wire.width ≤ wire.width * num := by nlinarith
      have h2 : 0 ≤ wire.width * idx := mul_nonneg hw h0
      omega
    · have : wire.width.toNat = 0 := Int.toNat_eq_zero.2 hw.le
      have h3 : wire.width * num < 0 ∨ num = 0 := by
        rcases eq_or_lt_of_le (le_trans h0 hlt.le) with h | h
        · right; exact h.symm
        · left; exact mul_neg_of_neg_of_pos hw h
      rcases h3 with h3 | h3
      · omega
      · omega

/-- The array scenario evaluated through `expand_module`: instance 2 of 4 with an 8-bit
port and a 32-bit bus ends connected to the bits 16..23 of the bus. -/
theorem expand_module_array_example :
    expand_module noEnv arrayDesign arrayTop false [] =
      .ok (⟨[arraySub, ⟨"\\top", [], [],
        [⟨"\\u", "\\sub", [], [("\\d", [116, 117, 118, 119, 120, 121, 122, 123])]⟩]⟩]⟩, false) := by
  rfl

/-- The check of the connection of the array scenario: index 2 of 4, width 8, the 32-bit
bus is replaced by its bits 16..23. -/
theorem array_conn_widths_example :
    arraySub.findWire (array_portname arraySub "\\d") = some ⟨"\\d", 8, 1, true, false⟩ ∧
    array_conn "\\top" "\\u" arraySub 2 4 ("\\d", arrayBus) =
      .ok ("\\d", (arrayBus.drop 16).take 8) ∧
    (arrayBus.drop 16).take 8 = [116, 117, 118, 119, 120, 121, 122, 123] :=
  ⟨by decide,
    (array_conn_widths "\\top" "\\u" arraySub 2 4 ("\\d", arrayBus) ⟨"\\d", 8, 1, true, false⟩
      (by decide)).2.1 (by decide) (by decide),
    by decide⟩

/-! ## The key order and map assignment -/

theorem charsLt_irrefl : ∀ a : List Char, charsLt a a = false
  | [] => rfl
  | c :: cs => by simp [charsLt, charsLt_irrefl cs]

theorem charsLt_trans : ∀ a b c : List Char, charsLt a b = true → charsLt b c = true →
    charsLt a c = true
  | [], [], _, h, _ => by simp [charsLt] at h
  | [], _ :: _, [], _, h => by simp [charsLt] at h
  | [], _ :: _, _ :: _, _, _ => by simp [charsLt]
  | _ :: _, [], _, h, _ => by simp [charsLt] at h
  | _ :: _, _ :: _, [], _, h => by simp [charsLt] at h
  | x :: xs, y :: ys, z :: zs, h1, h2 => by
    simp only [charsLt] at h1 h2 ⊢
    by_cases hxy : x.toNat < y.toNat
    · by_cases hyz : y.toNat < z.toNat
      · rw [if_pos (by omega)]
      · rw [if_neg hyz] at h2
        by_cases hzy : z.toNat < y.toNat
        · simp [hzy] at h2
        · rw [if_pos (by omega)]
    · rw [if_neg hxy] at h1
      by_cases hyx : y.toNat < x.toNat
      · simp [hyx] at h1
      · rw [if_neg hyx] at h1
        by_cases hyz : y.toNat < z.toNat
        · rw [if_pos (by omega)]
        · rw [if_neg hyz] at h2
          by_cases hzy : z.toNat < y.toNat
          · simp [hzy] at h2
          · rw [if_neg hzy] at h2
            rw [if_neg (by omega), if_neg (by omega)]
            exact charsLt_trans xs ys zs h1 h2

theorem charsLt_total : ∀ a b : List Char, a ≠ b → charsLt a b = false → charsLt b a = true
  | [], [], h, _ => absurd rfl h
  | [], _ :: _, _, h => by simp [charsLt] at h
  | _ :: _, [], _, _ => by simp [charsLt]
  | x :: xs, y :: ys, hne, h => by
    simp only [charsLt] at h ⊢
    by_cases hxy : x.toNat < y.toNat
    · simp [hxy] at h
    · rw [if_neg hxy] at h
      by_cases hyx : y.toNat < x.toNat
      · rw [if_pos hyx]
      · rw [if_neg hyx] at h
        rw [if_neg hyx, if_neg hxy]
        have hx : x = y := by
          apply Char.ext
          apply UInt32.ext
          show x.toNat = y.toNat
          omega
        subst hx
        exact charsLt_total xs ys (fun e => hne (by rw [e])) h

theorem strLt_irrefl (a : String) : strLt a a = false := charsLt_irrefl _

theorem strLt_trans {a b c : String} (h1 : strLt a b = true) (h2 : strLt b c = true) :
    strLt a c = true := charsLt_trans _ _ _ h1 h2

theorem strLt_total {a b : String} (hne : a ≠ b) (h : strLt a b = false) : strLt b a = true :=
  charsLt_total _ _ (fun e => hne (String.ext e)) h

theorem strLt_ne {a b : String} (h : strLt a b = true) : a ≠ b := by
  intro e
  rw [e, strLt_irrefl] at h
  exact Bool.noConfusion h

theorem lookup_mapInsert {β : Type} (k : String) (v : β) (k' : String) :
    ∀ l : List (String × β),
      lookup k' (mapInsert k v l) = if k = k' then some v else lookup k' l
  | [] => by simp [mapInsert, lookup]
  | (a, b) :: rest => by
    simp only [mapInsert]
    by_cases h1 : a = k
    · subst h1
      by_cases h2 : a = k' <;> simp [lookup, h2]
    · rw [if_neg h1]
      by_cases h2 : strLt k a = true
      · rw [if_pos h2]
        by_cases h3 : k = k' <;> simp [lookup, h3]
      · rw [if_neg h2]
        by_cases h3 : k = k'
        · subst h3
          simp [lookup, h1, lookup_mapInsert k v k rest]
        · simp [lookup, h3, lookup_mapInsert k v k' rest]

theorem mem_mapInsert_imp {β : Type} (k : String) (v : β) (x : String × β) :
    ∀ l : List (String × β), x ∈ mapInsert k v l → x = (k, v) ∨ x ∈ l
  | [] => by simp [mapInsert]
  | (a, b) :: rest => by
    simp only [mapInsert]
    by_cases h1 : a = k
    · rw [if_pos h1]
      intro h
      rcases List.mem_cons.1 h with h | h
      · exact Or.inl h
      · exact Or.inr (List.mem_cons_of_mem _ h)
    · rw [if_neg h1]
      by_cases h2 : strLt k a = true
      · rw [if_pos h2]
        intro h
        rcases List.mem_cons.1 h with h | h
        · exact Or.inl h
        · exact Or.inr h
      · rw [if_neg h2]
        intro h
        rcases List.mem_cons.1 h with h | h
        · exact Or.inr (h ▸ List.mem_cons_self _ _)
        · rcases mem_mapInsert_imp k v x rest h with h | h
          · exact Or.inl h
          · exact Or.inr (List.mem_cons_of_mem _ h)

theorem mapInsert_sorted {β : Type} (k : String) (v : β) :
    ∀ l : List (String × β), KeySorted l → KeySorted (mapInsert k v l)
  | [], _ => by simp [mapInsert, KeySorted]
  | (a, b) :: rest, hs => by
    unfold KeySorted at hs ⊢
    rw [List.pairwise_cons] at hs
    simp only [mapInsert]
    by_cases h1 : a = k
    · rw [if_pos h1]
      subst h1
      exact List.pairwise_cons.2 ⟨hs.1, hs.2⟩
    · rw [if_neg h1]
      by_cases h2 : strLt k a = true
      · rw [if_pos h2]
        refine List.pairwise_cons.2 ⟨?_, List.pairwise_cons.2 hs⟩
        intro y hy
        rcases List.mem_cons.1 hy with rfl | hy
        · exact h2
        · exact strLt_trans h2 (hs.1 y hy)
      · rw [if_neg h2]
        have hak : strLt a k = true := strLt_total (fun e => h1 e.symm) (by simpa using h2)
        refine List.pairwise_cons.2 ⟨?_, mapInsert_sorted k v rest hs.2⟩
        intro y hy
        rcases mem_mapInsert_imp k v y rest hy with rfl | hy
        · exact hak
        · exact hs.1 y hy

theorem keySorted_lookup {β : Type} :
    ∀ (l : List (String × β)), KeySorted l → ∀ x, x ∈ l ↔ lookup x.1 l = some x.2
  | [], _, x => by simp [lookup]
  | (a, b) :: rest, hs, x => by
    unfold KeySorted at hs
    rw [List.pairwise_cons] at hs
    have ih := keySorted_lookup rest hs.2 x
    simp only [lookup, List.mem_cons]
    by_cases h : a = x.1
    · rw [if_pos h]
      constructor
      · rintro (hx | hx)
        · rw [hx]
        · exact absurd h (strLt_ne (hs.1 x hx))
      · intro hb
        left
        exact Prod.ext h.symm (Option.some.inj hb).symm
    · rw [if_neg h, ← ih]
      constructor
      · rintro (hx | hx)
        · exact absurd (by rw [hx]) h
        · exact hx
      · exact Or.inr

/-! ## The position table -/

theorem pos_map_wires_at (modname n : String) (id : Int) :
    ∀ (ws : List Wire) (pm : PosMap),
      PosMap.at (ws.foldl
        (fun pm wire =>
          if wire.port_id > 0 then ((modname, wire.port_id), wire.name) :: pm else pm) pm) (n, id) =
      match ws.reverse.find?
        (fun w => decide (modname = n) && (decide (w.port_id = id) && decide (w.port_id > 0))) with
      | some w => some w.name
      | none => PosMap.at pm (n, id) := by
  intro ws
  induction ws with
  | nil => intro pm; rfl
  | cons w rest ih =>
    intro pm
    rw [List.foldl_cons, ih, List.reverse_cons, List.find?_append]
    cases hrest : rest.reverse.find?
        (fun w => decide (modname = n) && (decide (w.port_id = id) && decide (w.port_id > 0))) with
    | some w' => simp
    | none =>
      simp only [Option.none_or, List.find?_cons, List.find?_nil]
      by_cases hpos : w.port_id > 0
      · rw [if_pos hpos]
        by_cases hk : modname = n ∧ w.port_id = id
        · obtain ⟨h1, h2⟩ := hk
          subst h1 h2
          simp [PosMap.at, hpos]
        · have hk' : ((modname, w.port_id) = (n, id)) = False := by
            simp only [Prod.mk.injEq, eq_iff_iff, iff_false]; exact hk
          have hb : (decide (modname = n) && (decide (w.port_id = id) && decide (w.port_id > 0)))
              = false := by
            rw [not_and_or] at hk
            rcases hk with hk | hk <;> simp [hk]
          simp [PosMap.at, hk', hb]
      · rw [if_neg hpos]
        simp [hpos]

theorem pos_map_module_at_ne (m : Module) (pm : PosMap) (n : String) (id : Int)
    (h : m.name ≠ n) : PosMap.at (pos_map_module m pm) (n, id) = PosMap.at pm (n, id) := by
  unfold pos_map_module
  rw [pos_map_wires_at]
  have hf : m.wires.reverse.find?
      (fun w => decide (m.name = n) && (decide (w.port_id = id) && decide (w.port_id > 0)))
      = none := by
    rw [List.find?_eq_none]
    intro x _
    simp [h]
  rw [hf]

theorem pos_map_module_at_self (m : Module) (pm : PosMap) (id : Int) :
    PosMap.at (pos_map_module m pm) (m.name, id) =
      match pos_lookup m id with
      | some p => some p
      | none => PosMap.at pm (m.name, id) := by
  unfold pos_map_module pos_lookup
  rw [pos_map_wires_at]
  simp only [decide_True, Bool.true_and]
  cases m.wires.reverse.find? (fun w => decide (w.port_id = id) && decide (w.port_id > 0)) <;> rfl

theorem pos_map_fold_at_ne (n : String) (id : Int) :
    ∀ (mods : List Module) (pm : PosMap), (∀ m ∈ mods, m.name ≠ n) →
      PosMap.at (mods.foldl (fun pm module => pos_map_module module pm) pm) (n, id) =
        PosMap.at pm (n, id) := by
  intro mods
  induction mods with
  | nil => intro pm _; rfl
  | cons m rest ih =>
    intro pm h
    rw [List.foldl_cons, ih _ (fun x hx => h x (List.mem_cons_of_mem _ hx)),
      pos_map_module_at_ne _ _ _ _ (h m (List.mem_cons_self _ _))]

theorem pos_map_fold_at (T : Module) (id : Int) :
    ∀ (mods : List Module) (pm : PosMap), (mods.map (·.name)).Nodup → T ∈ mods →
      PosMap.at (mods.foldl (fun pm module => pos_map_module module pm) pm) (T.name, id) =
        match pos_lookup T id with
        | some p => some p
        | none => PosMap.at pm (T.name, id) := by
  intro mods
  induction mods with
  | nil => intro pm _ h; simp at h
  | cons m rest ih =>
    intro pm hn hT
    simp only [List.map_cons, List.nodup_cons] at hn
    rw [List.foldl_cons]
    rcases List.mem_cons.1 hT with rfl | hmem
    · rw [pos_map_fold_at_ne, pos_map_module_at_self]
      intro x hx hname
      exact hn.1 (hname ▸ List.mem_map_of_mem _ hx)
    · rw [ih _ hn.2 hmem]
      have hne : m.name ≠ T.name := fun e => hn.1 (e ▸ List.mem_map_of_mem _ hmem)
      rw [pos_map_module_at_ne _ _ _ _ hne]

/-- The table built by the remapper gives, for the target of a cell in `pos_work`, the
last wire of the target exported at the position. -/
theorem build_pos_map_at (design : Design) (hn : (design.modules.map (·.name)).Nodup)
    (T : Module) (hT : T ∈ design.modules)
    (hwork : ∃ w ∈ pos_work design, w.2.type = T.name) (id : Int) :
    PosMap.at (build_pos_map design) (T.name, id) = pos_lookup T id := by
  unfold build_pos_map
  rw [pos_map_fold_at T id]
  · cases pos_lookup T id <;> rfl
  · exact (List.Nodup.sublist (List.Sublist.map _ (List.filter_sublist _)) hn)
  · rw [List.mem_filter]
    refine ⟨hT, ?_⟩
    obtain ⟨w, hw, hty⟩ := hwork
    exact List.any_eq_true.2 ⟨w, hw, by simpa using hty⟩

/-! ## In-place updates of cells -/

theorem find?_map_name {α : Type} (nm : α → String) (F : α → α) (hF : ∀ a, nm (F a) = nm a)
    (n : String) : ∀ l : List α,
      (l.map F).find? (fun a => decide (nm a = n)) = (l.find? (fun a => decide (nm a = n))).map F
  | [] => rfl
  | a :: rest => by
    simp only [List.map_cons, List.find?_cons, hF]
    by_cases h : nm a = n
    · simp [h]
    · simp [h, find?_map_name nm F hF n rest]

theorem find?_of_mem_nodup {α : Type} (nm : α → String) :
    ∀ (l : List α), (l.map nm).Nodup → ∀ a ∈ l, l.find? (fun x => decide (nm x = nm a)) = some a
  | [], _, a, h => by simp at h
  | b :: rest, hn, a, h => by
    simp only [List.map_cons, List.nodup_cons] at hn
    rcases List.mem_cons.1 h with rfl | hmem
    · simp
    · have hne : nm b ≠ nm a := fun e => hn.1 (e ▸ List.mem_map_of_mem _ hmem)
      simp [List.find?_cons, hne, find?_of_mem_nodup nm rest hn.2 a hmem]

/-- The value of a cell after a list of in-place updates `g w.2` of the cells `w.2` of
the modules `w.1`. -/
theorem foldl_setCell_modules (g : Cell → Cell) :
    ∀ (W : List (String × Cell)) (d : Design),
      (W.foldl (fun d w => d.setCell w.1 (g w.2)) d).modules =
        d.modules.map (fun m =>
          { m with cells := m.cells.map (fun x => W.foldl (update_cell g m.name) x) }) := by
  intro W
  induction W with
  | nil => intro d; simp
  | cons w rest ih =>
    intro d
    rw [List.foldl_cons, ih]
    simp only [Design.setCell, List.map_map]
    apply List.map_congr_left
    intro m _
    simp only [Function.comp]
    by_cases hm : m.name = w.1
    · simp only [hm, if_true, Module.setCell, List.map_map, List.foldl_cons]
      congr 1
      apply List.map_congr_left
      intro x _
      simp only [Function.comp, update_cell, true_and]
    · simp only [hm, if_false, List.foldl_cons, update_cell, false_and]

theorem foldl_update_cell (g : Cell → Cell) (hg : ∀ c, (g c).name = c.name) (mn : String)
    (x : Cell) :
    ∀ (W : List (String × Cell)),
      (∀ w ∈ W, mn = w.1 → w.2.name = x.name → w.2 = x) →
      W.foldl (update_cell g mn) (g x) = g x ∧
      W.foldl (update_cell g mn) x =
        if W.any (fun w => decide (w.1 = mn) && decide (w.2 = x)) then g x else x := by
  intro W
  induction W with
  | nil => intro _; simp
  | cons w rest ih =>
    intro h
    have ih' := ih (fun w' hw' => h w' (List.mem_cons_of_mem _ hw'))
    have hw := h w (List.mem_cons_self _ _)
    rw [List.foldl_cons, List.foldl_cons, List.any_cons]
    by_cases hc : mn = w.1 ∧ x.name = w.2.name
    · have hwx : w.2 = x := hw hc.1 hc.2.symm
      have h1 : update_cell g mn (g x) w = g x := by
        unfold update_cell
        rw [if_pos ⟨hc.1, by rw [hg, hg]; exact hc.2⟩, hwx]
      have h2 : update_cell g mn x w = g x := by
        unfold update_cell
        rw [if_pos ⟨hc.1, by rw [hg]; exact hc.2⟩, hwx]
      rw [h1, h2]
      refine ⟨ih'.1, ?_⟩
      rw [ih'.1]
      simp [hc.1, hwx]
    · have h1 : update_cell g mn (g x) w = g x := by
        unfold update_cell
        rw [if_neg]
        rw [hg, hg]; exact hc
      have h2 : update_cell g mn x w = x := by
        unfold update_cell
        rw [if_neg]
        rw [hg]; exact hc
      rw [h1, h2]
      refine ⟨ih'.1, ?_⟩
      rw [ih'.2]
      have : (decide (w.1 = mn) && decide (w.2 = x)) = false := by
        rw [Bool.and_eq_false_iff]
        by_cases h1 : w.1 = mn
        · right
          simp only [decide_eq_false_iff_not]
          intro h2
          exact hc ⟨h1.symm, by rw [h2]⟩
        · left; simpa using h1
      rw [this, Bool.false_or]

theorem foldl_update_cell_name (g : Cell → Cell) (mn : String) :
    ∀ (W : List (String × Cell)) (x : Cell), (W.foldl (update_cell g mn) x).name = x.name := by
  intro W
  induction W with
  | nil => intro x; rfl
  | cons w rest ih =>
    intro x
    rw [List.foldl_cons, ih]
    unfold update_cell
    split
    · rename_i h
      rw [h.2]
    · rfl

theorem nodup_name_eq {α : Type} (nm : α → String) {l : List α} (hn : (l.map nm).Nodup)
    {a b : α} (ha : a ∈ l) (hb : b ∈ l) (h : nm a = nm b) : a = b := by
  have h1 := find?_of_mem_nodup nm l hn a ha
  have h2 := find?_of_mem_nodup nm l hn b hb
  rw [h, h2] at h1
  exact (Option.some.inj h1).symm

theorem mem_pos_work (design : Design) (w : String × Cell) :
    w ∈ pos_work design ↔
      ∃ m ∈ design.modules, w.1 = m.name ∧ w.2 ∈ m.cells ∧ has_positional design w.2 = true := by
  unfold pos_work has_positional
  simp only [List.mem_flatMap, List.mem_map, List.mem_filter]
  constructor
  · rintro ⟨m, hm, c, ⟨hc, hp⟩, rfl⟩
    exact ⟨m, hm, rfl, hc, hp⟩
  · rintro ⟨m, hm, h1, hc, hp⟩
    exact ⟨m, hm, w.2, ⟨hc, hp⟩, by rw [← h1]⟩

theorem remap_cell_name (pos_map : PosMap) (c : Cell) : (remap_cell pos_map c).name = c.name :=
  rfl

/-- The remapping step seen from one cell: a cell that names a module of the design and
has a positional connection gets the new connection map, every other cell is left as
it is. -/
theorem remap_positionals_cellAt (design : Design) (hwf : design.WF) (m : Module)
    (hm : m ∈ design.modules) (x : Cell) (hx : x ∈ m.cells) :
    (remap_positionals design).cellAt m.name x.name =
      some (if has_positional design x then remap_cell (build_pos_map design) x else x) := by
  have hmods := foldl_setCell_modules (remap_cell (build_pos_map design)) (pos_work design) design
  have hfind : (remap_positionals design).find m.name =
      some { m with cells := m.cells.map (fun x =>
        (pos_work design).foldl (update_cell (remap_cell (build_pos_map design)) m.name) x) } := by
    unfold Design.find remap_positionals
    simp only
    rw [hmods]
    have h1 := find?_map_name (fun m : Module => m.name)
      (fun m : Module => { m with cells := m.cells.map (fun x =>
        (pos_work design).foldl (update_cell (remap_cell (build_pos_map design)) m.name) x) })
      (fun _ => rfl) m.name design.modules
    have h2 := find?_of_mem_nodup (fun m : Module => m.name) _ hwf.1 m hm
    simp only at h1 h2
    rw [h1, h2]
    rfl
  unfold Design.cellAt
  rw [hfind]
  simp only
  have h3 := find?_map_name (fun c : Cell => c.name)
    (fun x => (pos_work design).foldl (update_cell (remap_cell (build_pos_map design)) m.name) x)
    (fun c => foldl_update_cell_name _ _ _ c) x.name m.cells
  have h4 := find?_of_mem_nodup (fun c : Cell => c.name) _ (hwf.2.1 m hm).1 x hx
  simp only at h3 h4
  rw [h3, h4]
  simp only [Option.map_some']
  congr 1
  have hcond : ∀ w ∈ pos_work design, m.name = w.1 → w.2.name = x.name → w.2 = x := by
    intro w hw h1 h2
    obtain ⟨m', hm', hw1, hw2, _⟩ := (mem_pos_work design w).1 hw
    have : m' = m := nodup_name_eq (fun m : Module => m.name) hwf.1 hm' hm
      (show m'.name = m.name by rw [← hw1, h1])
    subst this
    exact nodup_name_eq (fun c : Cell => c.name) (hwf.2.1 m' hm').1 hw2 hx h2
  rw [(foldl_update_cell _ (remap_cell_name _) m.name x (pos_work design) hcond).2]
  have hany : (pos_work design).any (fun w => decide (w.1 = m.name) && decide (w.2 = x)) =
      has_positional design x := by
    rw [Bool.eq_iff_iff, List.any_eq_true]
    constructor
    · rintro ⟨w, hw, hcond⟩
      simp only [Bool.and_eq_true, decide_eq_true_eq] at hcond
      obtain ⟨_, _, _, _, hp⟩ := (mem_pos_work design w).1 hw
      rw [← hcond.2]
      exact hp
    · intro hp
      exact ⟨(m.name, x), (mem_pos_work design _).2 ⟨m, hm, rfl, hx, hp⟩, by simp⟩
  rw [hany]

/-! ## Positional keys -/

theorem digitChar_spec (d : Nat) (hd : d < 10) :
    isdigit (Nat.digitChar d) = true ∧ (Nat.digitChar d).toNat - 48 = d := by
  interval_cases d <;> exact ⟨by decide, by decide⟩

theorem digitsValue_cons_digit (acc d : Nat) (hd : d < 10) (rest : List Char) :
    digitsValue acc (Nat.digitChar d :: rest) = digitsValue (acc * 10 + d) rest := by
  rw [digitsValue, if_pos (digitChar_spec d hd).1, (digitChar_spec d hd).2]

/-- The decimal digits written by `toDigitsCore` are read back by `digitsValue`. -/
theorem toDigitsCore_spec : ∀ (fuel n : Nat) (ds : List Char), n < fuel →
    ∃ xs : List Char, Nat.toDigitsCore 10 fuel n ds = xs ++ ds ∧
      (∃ c tl, xs = c :: tl ∧ isdigit c = true) ∧
      ∀ acc rest, digitsValue acc (xs ++ rest) = digitsValue (acc * 10 ^ xs.length + n) rest := by
  intro fuel
  induction fuel with
  | zero => intro n ds h; exact absurd h (Nat.not_lt_zero _)
  | succ fuel ih =>
    intro n ds hn
    rw [Nat.toDigitsCore]
    have hmod : n % 10 < 10 := Nat.mod_lt _ (by decide)
    by_cases h0 : n / 10 = 0
    · simp only [h0, if_true]
      refine ⟨[Nat.digitChar (n % 10)], rfl, ⟨_, _, rfl, (digitChar_spec _ hmod).1⟩, ?_⟩
      intro acc rest
      have hn10 : n % 10 = n := Nat.mod_eq_of_lt (by omega)
      simp only [List.singleton_append, List.length_singleton, pow_one]
      rw [digitsValue_cons_digit _ _ hmod, hn10]
    · simp only [h0, if_false]
      have hlt : n / 10 < fuel := by omega
      obtain ⟨xs, hxs, ⟨c, tl, hc, hcd⟩, hval⟩ := ih (n / 10) (Nat.digitChar (n % 10) :: ds) hlt
      refine ⟨xs ++ [Nat.digitChar (n % 10)], by rw [hxs]; simp, ⟨c, tl ++ [Nat.digitChar (n % 10)],
        by rw [hc]; rfl, hcd⟩, ?_⟩
      intro acc rest
      rw [List.append_assoc, hval, List.singleton_append, digitsValue_cons_digit _ _ hmod,
        List.length_append, List.length_singleton, pow_succ]
      congr 1
      have := Nat.div_add_mod n 10
      nlinarith [this]

theorem isdigit_not_space {c : Char} (h : isdigit c = true) : isspace c = false := by
  unfold isdigit at h
  simp only [Bool.and_eq_true, decide_eq_true_eq] at h
  unfold isspace
  simp only [Bool.or_eq_false_iff, decide_eq_false_iff_not]
  refine ⟨⟨⟨⟨⟨?_, ?_⟩, ?_⟩, ?_⟩, ?_⟩, ?_⟩
  · rintro rfl; revert h; decide
  · rintro rfl; revert h; decide
  · rintro rfl; revert h; decide
  · rintro rfl; revert h; decide
  · omega
  · omega

theorem decimal_value_digits (c : Char) (tl : List Char) (hc : isdigit c = true) :
    decimal_value (c :: tl) = (digitsValue 0 (c :: tl) : Int) := by
  unfold decimal_value
  rw [List.dropWhile_cons_of_neg (by rw [isdigit_not_space hc]; decide)]
  have h1 : c ≠ '-' := by rintro rfl; revert hc; decide
  have h2 : c ≠ '+' := by rintro rfl; revert hc; decide
  split
  · rename_i heq
    exact absurd (List.cons.inj heq).1 h1
  · rename_i heq
    exact absurd (List.cons.inj heq).1 h2
  · rfl

theorem to_int_of_range (v : Int) (h1 : -2147483648 ≤ v) (h2 : v < 2147483648) :
    to_int v = v := by
  unfold to_int
  omega

theorem to_int_range (v : Int) : -2147483648 ≤ to_int v ∧ to_int v < 2147483648 := by
  unfold to_int
  omega

theorem atoi_range (s : List Char) : -2147483648 ≤ atoi s ∧ atoi s < 2147483648 := by
  unfold atoi
  exact to_int_range _

/-- A number below `2^31` written in decimal digits is read back by `atoi`. -/
theorem atoi_digits (c : Char) (tl : List Char) (hc : isdigit c = true)
    (hlt : digitsValue 0 (c :: tl) < 2147483648) :
    atoi (c :: tl) = (digitsValue 0 (c :: tl) : Int) := by
  unfold atoi
  simp only
  rw [decimal_value_digits c tl hc]
  have h0 : (0 : Int) ≤ (digitsValue 0 (c :: tl) : Int) := Int.natCast_nonneg _
  have h1 : ((digitsValue 0 (c :: tl) : Nat) : Int) < 2147483648 := by exact_mod_cast hlt
  rw [if_neg (by omega), if_neg (by omega)]
  exact to_int_of_range _ (by omega) h1

theorem posKey_positional (n : Nat) : is_positional (posKey n) = true := by
  obtain ⟨xs, hxs, ⟨c, tl, hc, hcd⟩, _⟩ := toDigitsCore_spec (n + 1) n [] (Nat.lt_succ_self n)
  have hdig : Nat.toDigits 10 n = c :: tl := by
    rw [Nat.toDigits, hxs, List.append_nil, hc]
  unfold is_positional posKey firstIsDollar
  rw [hdig]
  simp [hcd]

theorem posKey_spec (n : Nat) (hn : n < 2147483648) :
    is_positional (posKey n) = true ∧ positional_id (posKey n) = n := by
  refine ⟨posKey_positional n, ?_⟩
  obtain ⟨xs, hxs, ⟨c, tl, hc, hcd⟩, hval⟩ := toDigitsCore_spec (n + 1) n [] (Nat.lt_succ_self n)
  have hdig : Nat.toDigits 10 n = c :: tl := by
    rw [Nat.toDigits, hxs, List.append_nil, hc]
  unfold positional_id posKey
  rw [hdig]
  simp only [List.drop_succ_cons, List.drop_zero]
  have := hval 0 []
  simp only [List.append_nil, zero_mul, zero_add] at this
  have hv : digitsValue 0 (c :: tl) = n := by
    rw [← hc, this]
    rfl
  rw [atoi_digits c tl hcd (by rw [hv]; exact hn), hv]

/-! ## The new connection map -/

theorem remap_connections_eq (pos_map : PosMap) (type : String) :
    ∀ (conns acc : List (String × SigSpec)),
      remap_connections pos_map type conns acc =
        conns.foldl (fun acc conn => mapInsert (new_key pos_map type conn.1) conn.2 acc) acc := by
  intro conns
  induction conns with
  | nil => intro acc; rfl
  | cons conn rest ih =>
    intro acc
    rw [remap_connections, List.foldl_cons]
    unfold new_key
    by_cases hp : is_positional conn.1 = true
    · rw [if_pos hp, if_pos hp]
      cases hat : PosMap.at pos_map (type, positional_id conn.1) with
      | none => exact ih _
      | some p => exact ih _
    · rw [if_neg hp, if_neg hp]
      exact ih _

theorem remap_connections_sorted (pos_map : PosMap) (type : String) :
    ∀ (conns acc : List (String × SigSpec)), KeySorted acc →
      KeySorted (remap_connections pos_map type conns acc) := by
  intro conns
  induction conns with
  | nil => intro acc h; exact h
  | cons conn rest ih =>
    intro acc h
    rw [remap_connections_eq, List.foldl_cons, ← remap_connections_eq]
    exact ih _ (mapInsert_sorted _ _ _ h)

/-- A key of the new connection map carries the signal of the last connection stored
under it. -/
theorem remap_connections_lookup (pos_map : PosMap) (type : String) (k : String) :
    ∀ (conns acc : List (String × SigSpec)),
      lookup k (remap_connections pos_map type conns acc) =
        match conns.reverse.find? (fun conn => decide (new_key pos_map type conn.1 = k)) with
        | some conn => some conn.2
        | none => lookup k acc := by
  intro conns
  induction conns with
  | nil => intro acc; rfl
  | cons conn rest ih =>
    intro acc
    rw [remap_connections_eq, List.foldl_cons, ← remap_connections_eq, ih, List.reverse_cons,
      List.find?_append]
    cases rest.reverse.find? (fun conn => decide (new_key pos_map type conn.1 = k)) with
    | some c => rfl
    | none =>
      simp only [Option.none_or, List.find?_cons, List.find?_nil, lookup_mapInsert]
      by_cases h : new_key pos_map type conn.1 = k
      · simp [h]
      · simp [h]

/-- When the connections of a cell are stored under pairwise different keys, the new
connection map holds exactly the connections under their new keys. -/
theorem remap_connections_mem (pos_map : PosMap) (type : String)
    (conns : List (String × SigSpec))
    (hinj : ∀ a ∈ conns, ∀ b ∈ conns,
      new_key pos_map type a.1 = new_key pos_map type b.1 → a = b)
    (x : String × SigSpec) :
    x ∈ remap_connections pos_map type conns [] ↔
      ∃ conn ∈ conns, x = (new_key pos_map type conn.1, conn.2) := by
  rw [keySorted_lookup _ (remap_connections_sorted pos_map type conns [] List.Pairwise.nil) x,
    remap_connections_lookup]
  cases hf : conns.reverse.find? (fun conn => decide (new_key pos_map type conn.1 = x.1)) with
  | none =>
    simp only [lookup]
    refine ⟨fun h => Option.noConfusion h, ?_⟩
    rintro ⟨conn, hconn, hx⟩
    exfalso
    have := List.find?_eq_none.1 hf conn (List.mem_reverse.2 hconn)
    simp only [decide_eq_true_eq] at this
    exact this (by rw [hx])
  | some c =>
    have hc : c ∈ conns := List.mem_reverse.1 (List.mem_of_find?_eq_some hf)
    have hk : new_key pos_map type c.1 = x.1 := by simpa using List.find?_some hf
    simp only [Option.some.injEq]
    constructor
    · intro h
      exact ⟨c, hc, Prod.ext hk.symm h.symm⟩
    · rintro ⟨conn, hconn, hx⟩
      have : conn = c := hinj conn hconn c hc (by rw [hk, hx])
      rw [hx, this]

/-! ## Positional remapping -/

theorem pos_lookup_unique (T : Module) (id : Int) (hid : 0 < id) (name : String)
    (hex : ∃ w ∈ T.wires, w.port_id = id)
    (huniq : ∀ w ∈ T.wires, w.port_id = id → w.name = name) :
    pos_lookup T id = some name := by
  unfold pos_lookup
  cases hf : T.wires.reverse.find? (fun w => decide (w.port_id = id) && decide (w.port_id > 0)) with
  | none =>
    obtain ⟨w, hw, hwid⟩ := hex
    have := List.find?_eq_none.1 hf w (List.mem_reverse.2 hw)
    simp only [Bool.and_eq_true, decide_eq_true_eq, not_and] at this
    exact absurd (hwid ▸ hid) (this hwid)
  | some w =>
    have hw : w ∈ T.wires := List.mem_reverse.1 (List.mem_of_find?_eq_some hf)
    have hp := List.find?_some hf
    simp only [Bool.and_eq_true, decide_eq_true_eq] at hp
    simp only [Option.map_some', huniq w hw hp.1]

/-- Claim C3 (positional remap correctness).  In a design with well-formed maps, let a
cell `c` name a module `T` of the design that has, for every position `i` in `1..k`,
exactly one wire with `port_id = i`, named `p i`, and let the connections of `c` be
exactly the keys `$1, ..., $k` with the signals `s 1, ..., s k`.  After the remapping
step the cell has the same name, type and parameters, and its connection map holds
exactly the entries `p i -> s i` for `i` in `1..k`: every signal is unchanged, and no
positional key `$i` remains (unless a port of the target is itself named `$i`). -/
theorem remap_positionals_named (design : Design) (hwf : design.WF) (m : Module)
    (hm : m ∈ design.modules) (c : Cell) (hc : c ∈ m.cells) (T : Module)
    (hT : design.find c.type = some T) (k : Nat) (p : Nat → String) (s : Nat → SigSpec)
    (hports : ∀ i, 1 ≤ i → i ≤ k → ∃ w ∈ T.wires, w.name = p i ∧ w.port_id = (i : Int))
    (huniq : ∀ w ∈ T.wires, ∀ i, 1 ≤ i → i ≤ k → w.port_id = (i : Int) → w.name = p i)
    (hconns : ∀ conn, conn ∈ c.connections_ ↔ ∃ i, 1 ≤ i ∧ i ≤ k ∧ conn = (posKey i, s i)) :
    ∃ c', (remap_positionals design).cellAt m.name c.name = some c' ∧
      c'.name = c.name ∧ c'.type = c.type ∧ c'.parameters = c.parameters ∧
      KeySorted c'.connections_ ∧
      (∀ x, x ∈ c'.connections_ ↔ ∃ i, 1 ≤ i ∧ i ≤ k ∧ x = (p i, s i)) ∧
      ∀ i, 1 ≤ i → i ≤ k → (∀ j, 1 ≤ j → j ≤ k → p j ≠ posKey i) →
        ∀ sig, (posKey i, sig) ∉ c'.connections_ := by
  suffices hmain : ∃ c', (remap_positionals design).cellAt m.name c.name = some c' ∧
      c'.name = c.name ∧ c'.type = c.type ∧ c'.parameters = c.parameters ∧
      KeySorted c'.connections_ ∧
      (∀ x, x ∈ c'.connections_ ↔ ∃ i, 1 ≤ i ∧ i ≤ k ∧ x = (p i, s i)) by
    obtain ⟨c', h1, h2, h3, h4, h5, h6⟩ := hmain
    refine ⟨c', h1, h2, h3, h4, h5, h6, ?_⟩
    intro i _ _ hne sig hmem
    obtain ⟨j, hj1, hj2, hx⟩ := (h6 _).1 hmem
    exact hne j hj1 hj2 (congrArg Prod.fst hx).symm
  have hcell := remap_positionals_cellAt design hwf m hm c hc
  obtain ⟨hTmem, hTname⟩ := find_some_mem hT
  by_cases hk : k = 0
  · -- no connection at all: the cell is not touched
    have hnil : c.connections_ = [] := by
      apply List.eq_nil_iff_forall_not_mem.2
      intro conn hconn
      obtain ⟨i, h1, h2, _⟩ := (hconns conn).1 hconn
      omega
    have hnp : has_positional design c = false := by
      simp [has_positional, hnil]
    rw [hnp] at hcell
    refine ⟨c, hcell, rfl, rfl, rfl, by rw [hnil]; exact List.Pairwise.nil, ?_⟩
    intro x
    rw [hnil]
    constructor
    · intro h; simp at h
    · rintro ⟨i, h1, h2, _⟩; omega
  · have hk1 : 1 ≤ k := Nat.one_le_iff_ne_zero.2 hk
    have hp : has_positional design c = true := by
      unfold has_positional
      rw [Bool.and_eq_true, List.any_eq_true]
      refine ⟨by simp [Design.count, hT], (posKey 1, s 1), (hconns _).2 ⟨1, le_refl _, hk1, rfl⟩, ?_⟩
      exact posKey_positional 1
    rw [hp] at hcell
    refine ⟨_, hcell, rfl, rfl, rfl,
      remap_connections_sorted _ _ _ _ List.Pairwise.nil, ?_⟩
    -- the table maps position `i` to `p i`
    have hat : ∀ i, 1 ≤ i → i ≤ k →
        new_key (build_pos_map design) c.type (posKey i) = p i := by
      intro i h1 h2
      have hi : i < 2147483648 := by
        obtain ⟨w, hw, _, hwid⟩ := hports i h1 h2
        have := (hwf.2.2 T hTmem w hw).2
        rw [hwid] at this
        exact_mod_cast this
      unfold new_key
      rw [if_pos (posKey_positional i), (posKey_spec i hi).2, ← hTname,
        build_pos_map_at design hwf.1 T hTmem
          ⟨(m.name, c), (mem_pos_work design _).2 ⟨m, hm, rfl, hc, hp⟩, hTname.symm⟩]
      obtain ⟨w, hw, _, hwid⟩ := hports i h1 h2
      rw [pos_lookup_unique T i (by exact_mod_cast h1) (p i) ⟨w, hw, hwid⟩
        (fun w' hw' hid => huniq w' hw' i h1 h2 hid)]
    have hpinj : ∀ i j, 1 ≤ i → i ≤ k → 1 ≤ j → j ≤ k → p i = p j → i = j := by
      intro i j hi1 hi2 hj1 hj2 hpij
      obtain ⟨wi, hwi, hni, hidi⟩ := hports i hi1 hi2
      obtain ⟨wj, hwj, hnj, hidj⟩ := hports j hj1 hj2
      have : wi = wj := nodup_name_eq (fun w : Wire => w.name) (hwf.2.1 T hTmem).2 hwi hwj
        (show wi.name = wj.name by rw [hni, hnj, hpij])
      rw [this, hidj] at hidi
      exact_mod_cast hidi.symm
    intro x
    show x ∈ remap_connections (build_pos_map design) c.type c.connections_ [] ↔ _
    rw [remap_connections_mem]
    · constructor
      · rintro ⟨conn, hconn, hx⟩
        obtain ⟨i, h1, h2, rfl⟩ := (hconns conn).1 hconn
        exact ⟨i, h1, h2, by rw [hx, hat i h1 h2]⟩
      · rintro ⟨i, h1, h2, hx⟩
        exact ⟨(posKey i, s i), (hconns _).2 ⟨i, h1, h2, rfl⟩, by rw [hx, hat i h1 h2]⟩
    · intro a ha b hb hab
      obtain ⟨i, hi1, hi2, rfl⟩ := (hconns a).1 ha
      obtain ⟨j, hj1, hj2, rfl⟩ := (hconns b).1 hb
      rw [hat i hi1 hi2, hat j hj1 hj2] at hab
      rw [hpinj i j hi1 hi2 hj1 hj2 hab]

/-- The remapping scenario evaluated: the keys `$1`, `$2` become `clk`, `data`. -/
theorem remap_positionals_example :
    remap_positionals remapDesign =
      ⟨[remapSub, ⟨"\\top", [], [],
        [⟨"\\u", "\\sub", [], [("\\clk", [7]), ("\\data", [10, 11, 12])]⟩]⟩]⟩ := by
  decide

/-- Witness of `remap_positionals_named` on the remapping scenario. -/
theorem remap_positionals_named_witness :
    ∃ c', (remap_positionals remapDesign).cellAt "\\top" "\\u" = some c' ∧
      c'.name = "\\u" ∧ c'.type = "\\sub" ∧ c'.parameters = [] ∧
      KeySorted c'.connections_ ∧
      (∀ x, x ∈ c'.connections_ ↔ ∃ i, 1 ≤ i ∧ i ≤ 2 ∧ x = (remapPorts i, remapSigs i)) ∧
      ∀ i, 1 ≤ i → i ≤ 2 → (∀ j, 1 ≤ j → j ≤ 2 → remapPorts j ≠ posKey i) →
        ∀ sig, (posKey i, sig) ∉ c'.connections_ :=
  remap_positionals_named remapDesign
    (by unfold Design.WF; decide)
    ⟨"\\top", [], [], [remapInst]⟩ (by decide) remapInst (by decide) remapSub (by decide) 2
    remapPorts remapSigs
    (by intro i h1 h2; interval_cases i <;> decide)
    (by intro w hw i h1 h2; interval_cases i <;> revert w <;> decide)
    (by
      intro conn
      constructor
      · intro h
        simp only [remapInst, List.mem_cons, List.mem_singleton, List.not_mem_nil, or_false] at h
        rcases h with rfl | rfl
        · exact ⟨1, by decide, by decide, by decide⟩
        · exact ⟨2, by decide, by decide, by decide⟩
      · rintro ⟨i, h1, h2, rfl⟩
        interval_cases i <;> decide)

theorem new_key_eq_target_key (design : Design) (hwf : design.WF) (m : Module)
    (hm : m ∈ design.modules) (c : Cell) (hc : c ∈ m.cells)
    (hp : has_positional design c = true) (T : Module) (hT : design.find c.type = some T)
    (key : String) :
    new_key (build_pos_map design) c.type key = target_key T key := by
  obtain ⟨hTmem, hTname⟩ := find_some_mem hT
  unfold new_key target_key
  rw [← hTname, build_pos_map_at design hwf.1 T hTmem
    ⟨(m.name, c), (mem_pos_work design _).2 ⟨m, hm, rfl, hc, hp⟩, hTname.symm⟩]

theorem pos_lookup_none (T : Module) (id : Int)
    (h : ∀ w ∈ T.wires, w.port_id > 0 → w.port_id ≠ id) : pos_lookup T id = none := by
  unfold pos_lookup
  rw [Option.map_eq_none', List.find?_eq_none]
  intro w hw
  simp only [Bool.and_eq_true, decide_eq_true_eq, not_and]
  intro hid hpos
  exact h w (List.mem_reverse.1 hw) hpos hid

/-- Counterexample to claim C4 as stated.  In the first design the target has no wire
exported at position 1, the cell has the positional connection `$1 -> [7]`, and after
the remapping step the key `$1` carries the signal `[8]` of the connection `$2`, whose
port is named `$1`.  In the second design the cell has the positional connection
`$4294967297 -> [9]` and the target has no wire exported at position 4294967297; the
number read from the key into an `int` is 1, and after the remapping step the cell has
no connection under the key `$4294967297`: the signal is stored under the port `clk`
at position 1. -/
theorem remap_positionals_overwrites_unmapped :
    clashDesign.WF ∧ clashTop ∈ clashDesign.modules ∧ clashInst ∈ clashTop.cells ∧
    clashDesign.find clashInst.type = some clashSub ∧
    ("$1", [7]) ∈ clashInst.connections_ ∧ is_positional "$1" = true ∧
    positional_id "$1" = 1 ∧ (∀ w ∈ clashSub.wires, w.port_id > 0 → w.port_id ≠ 1) ∧
    (remap_positionals clashDesign).cellAt "\\top" "\\u" =
      some ⟨"\\u", "\\sub", [], [("$1", [8])]⟩ ∧
    lookup "$1" [("$1", ([8] : SigSpec))] ≠ some [7] ∧
    wideOnlyDesign.WF ∧ wideOnlyDesign.find wideOnlyInst.type = some remapSub ∧
    ("$4294967297", [9]) ∈ wideOnlyInst.connections_ ∧ is_positional "$4294967297" = true ∧
    (∀ w ∈ remapSub.wires, w.port_id > 0 → w.port_id ≠ 4294967297) ∧
    positional_id "$4294967297" = 1 ∧
    (remap_positionals wideOnlyDesign).cellAt "\\top" "\\u" =
      some ⟨"\\u", "\\sub", [], [("\\clk", [9])]⟩ ∧
    lookup "$4294967297" [("\\clk", ([9] : SigSpec))] = none := by
  refine ⟨by unfold Design.WF; decide, by decide, by decide, by decide, by decide, by decide,
    by decide, by decide, by decide, by decide, by unfold Design.WF; decide, by decide,
    by decide, by decide, by decide, by decide, by decide, by decide⟩

/-- Claim C4 (amended).  In a design with well-formed maps, let a cell `c` name a module
`T` of the design and have a positional connection `conn` whose position, the `int`
that `atoi` reads from the key, is not the `port_id` of any exported wire of `T`, and
let no connection that follows `conn` in the connection map be stored under the key of
`conn`.  The remapping step is total, and
afterwards the cell has the key of `conn` with the signal of `conn`; moreover the new
key of every connection of the cell is present, with the signal of a connection that
is stored under that key. -/
theorem remap_positionals_keeps_unmapped (design : Design) (hwf : design.WF) (m : Module)
    (hm : m ∈ design.modules) (c : Cell) (hc : c ∈ m.cells) (T : Module)
    (hT : design.find c.type = some T) (pre post : List (String × SigSpec))
    (conn : String × SigSpec) (hconns : c.connections_ = pre ++ conn :: post)
    (hpos : is_positional conn.1 = true)
    (hnone : ∀ w ∈ T.wires, w.port_id > 0 → w.port_id ≠ positional_id conn.1)
    (hlater : ∀ b ∈ post, target_key T b.1 ≠ conn.1) :
    ∃ c', (remap_positionals design).cellAt m.name c.name = some c' ∧
      c'.name = c.name ∧ c'.type = c.type ∧ c'.parameters = c.parameters ∧
      lookup conn.1 c'.connections_ = some conn.2 ∧
      ∀ b ∈ c.connections_, ∃ b' ∈ c.connections_,
        target_key T b'.1 = target_key T b.1 ∧
        lookup (target_key T b.1) c'.connections_ = some b'.2 := by
  have hcell := remap_positionals_cellAt design hwf m hm c hc
  have hp : has_positional design c = true := by
    unfold has_positional
    rw [Bool.and_eq_true, List.any_eq_true]
    exact ⟨by simp [Design.count, hT], conn, by rw [hconns]; simp, hpos⟩
  rw [hp] at hcell
  have hkey := new_key_eq_target_key design hwf m hm c hc hp T hT
  have hself : target_key T conn.1 = conn.1 := by
    unfold target_key
    rw [if_pos hpos, pos_lookup_none T _ hnone]
  refine ⟨_, hcell, rfl, rfl, rfl, ?_, ?_⟩
  · show lookup conn.1 (remap_connections (build_pos_map design) c.type c.connections_ []) = _
    rw [remap_connections_lookup, hconns, List.reverse_append, List.reverse_cons,
      List.append_assoc, List.find?_append]
    have hpost : post.reverse.find?
        (fun b => decide (new_key (build_pos_map design) c.type b.1 = conn.1)) = none := by
      rw [List.find?_eq_none]
      intro b hb
      simp only [decide_eq_true_eq, hkey]
      exact hlater b (List.mem_reverse.1 hb)
    rw [hpost]
    simp [hkey, hself]
  · intro b hb
    show ∃ b' ∈ c.connections_, _ ∧
      lookup _ (remap_connections (build_pos_map design) c.type c.connections_ []) = _
    rw [remap_connections_lookup]
    cases hf : c.connections_.reverse.find?
        (fun x => decide (new_key (build_pos_map design) c.type x.1 = target_key T b.1)) with
    | none =>
      have := List.find?_eq_none.1 hf b (List.mem_reverse.2 hb)
      simp only [decide_eq_true_eq, hkey] at this
      exact absurd trivial this
    | some b' =>
      have h1 := List.find?_some hf
      simp only [decide_eq_true_eq, hkey] at h1
      exact ⟨b', List.mem_reverse.1 (List.mem_of_find?_eq_some hf), h1, rfl⟩

/-- Witness of `remap_positionals_keeps_unmapped`: the target has one port `a` at
position 1 and none at position 2; the connection `$2 -> [8]` is kept under its key and
`$1 -> [7]` is stored under `a`. -/
theorem remap_positionals_keeps_unmapped_witness :
    ∃ c', (remap_positionals
        ⟨[⟨"\\sub", [], [⟨"\\a", 1, 1, true, false⟩], []⟩,
          ⟨"\\top", [], [], [⟨"\\u", "\\sub", [], [("$1", [7]), ("$2", [8])]⟩]⟩]⟩).cellAt
          "\\top" "\\u" = some c' ∧
      c'.name = "\\u" ∧ c'.type = "\\sub" ∧ c'.parameters = [] ∧
      lookup "$2" c'.connections_ = some [8] ∧
      ∀ b ∈ [("$1", ([7] : SigSpec)), ("$2", [8])], ∃ b' ∈ [("$1", ([7] : SigSpec)), ("$2", [8])],
        target_key ⟨"\\sub", [], [⟨"\\a", 1, 1, true, false⟩], []⟩ b'.1 =
          target_key ⟨"\\sub", [], [⟨"\\a", 1, 1, true, false⟩], []⟩ b.1 ∧
        lookup (target_key ⟨"\\sub", [], [⟨"\\a", 1, 1, true, false⟩], []⟩ b.1) c'.connections_ =
          some b'.2 :=
  remap_positionals_keeps_unmapped
    ⟨[⟨"\\sub", [], [⟨"\\a", 1, 1, true, false⟩], []⟩,
      ⟨"\\top", [], [], [⟨"\\u", "\\sub", [], [("$1", [7]), ("$2", [8])]⟩]⟩]⟩
    (by unfold Design.WF; decide)
    ⟨"\\top", [], [], [⟨"\\u", "\\sub", [], [("$1", [7]), ("$2", [8])]⟩]⟩ (by decide)
    ⟨"\\u", "\\sub", [], [("$1", [7]), ("$2", [8])]⟩ (by decide)
    ⟨"\\sub", [], [⟨"\\a", 1, 1, true, false⟩], []⟩ (by decide)
    [("$1", [7])] [] ("$2", [8]) rfl (by decide) (by decide) (by decide)

/-! ## Port inference: sets -/

theorem mem_setInsert_imp (s x : String) :
    ∀ l : List String, x ∈ setInsert s l → x = s ∨ x ∈ l
  | [] => by simp [setInsert]
  | a :: rest => by
    simp only [setInsert]
    by_cases h1 : a = s
    · rw [if_pos h1]; exact Or.inr
    · rw [if_neg h1]
      by_cases h2 : strLt s a = true
      · rw [if_pos h2]
        intro h
        rcases List.mem_cons.1 h with h | h
        · exact Or.inl h
        · exact Or.inr h
      · rw [if_neg h2]
        intro h
        rcases List.mem_cons.1 h with h | h
        · exact Or.inr (h ▸ List.mem_cons_self _ _)
        · rcases mem_setInsert_imp s x rest h with h | h
          · exact Or.inl h
          · exact Or.inr (List.mem_cons_of_mem _ h)

theorem setInsert_sorted (s : String) :
    ∀ l : List String, l.Pairwise (fun a b => strLt a b = true) →
      (setInsert s l).Pairwise (fun a b => strLt a b = true)
  | [], _ => by simp [setInsert]
  | a :: rest, hs => by
    rw [List.pairwise_cons] at hs
    simp only [setInsert]
    by_cases h1 : a = s
    · rw [if_pos h1]
      exact List.pairwise_cons.2 hs
    · rw [if_neg h1]
      by_cases h2 : strLt s a = true
      · rw [if_pos h2]
        refine List.pairwise_cons.2 ⟨?_, List.pairwise_cons.2 hs⟩
        intro y hy
        rcases List.mem_cons.1 hy with rfl | hy
        · exact h2
        · exact strLt_trans h2 (hs.1 y hy)
      · rw [if_neg h2]
        have hak : strLt a s = true := strLt_total (fun e => h1 e.symm) (by simpa using h2)
        refine List.pairwise_cons.2 ⟨?_, setInsert_sorted s rest hs.2⟩
        intro y hy
        rcases mem_setInsert_imp s y rest hy with rfl | hy
        · exact hak
        · exact hs.1 y hy

theorem observe_conns_sorted (conns : List (String × SigSpec)) :
    ∀ obs : Observed, obs.portnames.Pairwise (fun a b => strLt a b = true) →
      (observe_conns obs conns).portnames.Pairwise (fun a b => strLt a b = true) := by
  unfold observe_conns
  induction conns with
  | nil => intro obs h; exact h
  | cons conn rest ih =>
    intro obs h
    rw [List.foldl_cons]
    apply ih
    simp only
    split
    · exact h
    · exact setInsert_sorted _ _ h

theorem observe_sorted (design : Design) (celltype : String) :
    (observe design celltype).portnames.Pairwise (fun a b => strLt a b = true) := by
  unfold observe
  generalize design.allCells = cells
  have : ∀ (cells : List Cell) (obs : Observed),
      obs.portnames.Pairwise (fun a b => strLt a b = true) →
      (cells.foldl
        (fun obs cell =>
          if cell.type = celltype then
            let obs1 := observe_conns obs cell.connections_
            { obs1 with
              parameters :=
                cell.parameters.foldl (fun ps para => setInsert para.1 ps) obs1.parameters }
          else obs) obs).portnames.Pairwise (fun a b => strLt a b = true) := by
    intro cells
    induction cells with
    | nil => intro obs h; exact h
    | cons c rest ih =>
      intro obs h
      rw [List.foldl_cons]
      apply ih
      split
      · exact observe_conns_sorted _ _ h
      · exact h
  exact this cells _ List.Pairwise.nil

theorem all_portnames_sorted (design : Design) (portdecls : List generate_port_decl_t)
    (celltype : String) :
    (all_portnames design portdecls celltype).Pairwise (fun a b => strLt a b = true) := by
  unfold all_portnames add_positional_names
  have : ∀ (ds : List generate_port_decl_t) (names : List String),
      names.Pairwise (fun a b => strLt a b = true) →
      (ds.foldl (fun names decl => if decl.index > 0 then setInsert decl.portname names else names)
        names).Pairwise (fun a b => strLt a b = true) := by
    intro ds
    induction ds with
    | nil => intro names h; exact h
    | cons d rest ih =>
      intro names h
      rw [List.foldl_cons]
      apply ih
      split
      · exact setInsert_sorted _ _ h
      · exact h
  exact this portdecls _ (observe_sorted design celltype)

theorem all_indices_inv (n : Nat) :
    (all_indices n).Pairwise (fun a b => a < b) ∧
      ∀ i ∈ all_indices n, 1 ≤ i ∧ i ≤ (n : Int) := by
  unfold all_indices
  constructor
  · rw [List.pairwise_map]
    exact (List.pairwise_lt_range n).imp (fun h => by omega)
  · intro i hi
    rw [List.mem_map] at hi
    obtain ⟨k, hk, rfl⟩ := hi
    rw [List.mem_range] at hk
    omega

/-! ## Port inference: the two placement loops -/

theorem place_positional_ok (st st' : GenState) (decl : generate_port_decl_t)
    (h : place_positional st decl = .ok st') :
    (decl.index > 0 → decl.index ∈ st.indices ∧
      st' = ⟨st.portnames.filter (fun n => n ≠ decl.portname),
        st.indices.filter (fun i => i ≠ decl.index),
        st.ports.set (decl.index - 1).toNat decl, st'.portwidths⟩) ∧
    (¬ decl.index > 0 → st' = st) := by
  unfold place_positional at h
  by_cases hpos : decl.index > 0
  · rw [if_pos hpos] at h
    refine ⟨fun _ => ?_, fun hn => absurd hpos hn⟩
    simp only at h
    by_cases hc : (if decl.index ∈ st.indices then 1 else 0) > st.ports.length
    · rw [if_pos hc] at h
      exact Except.noConfusion h
    · rw [if_neg hc] at h
      by_cases hmem : decl.index ∈ st.indices
      · rw [if_neg (not_not.2 hmem)] at h
        refine ⟨hmem, ?_⟩
        rw [← Except.ok.inj h]
      · rw [if_pos hmem] at h
        exact Except.noConfusion h
  · rw [if_neg hpos] at h
    exact ⟨fun hp => absurd hp hpos, fun _ => (Except.ok.inj h).symm⟩

theorem positional_names_cons (d : generate_port_decl_t) (rest : List generate_port_decl_t) :
    positional_names (d :: rest) =
      if d.index > 0 then d.portname :: positional_names rest else positional_names rest := by
  unfold positional_names
  by_cases h : d.index > 0
  · rw [List.filter_cons_of_pos (by simpa using h), if_pos h, List.map_cons]
  · rw [List.filter_cons_of_neg (by simpa using h), if_neg h]

theorem positional_indices_cons (d : generate_port_decl_t) (rest : List generate_port_decl_t) :
    positional_indices (d :: rest) =
      if d.index > 0 then d.index :: positional_indices rest else positional_indices rest := by
  unfold positional_indices
  by_cases h : d.index > 0
  · rw [List.filter_cons_of_pos (by simpa using h), if_pos h, List.map_cons]
  · rw [List.filter_cons_of_neg (by simpa using h), if_neg h]

theorem set_index_ne (ports : List generate_port_decl_t) (d : generate_port_decl_t) (i k : Int)
    (hi : 1 ≤ i) (hk : 1 ≤ k) (hne : k ≠ i) :
    (ports.set (i - 1).toNat d)[(k - 1).toNat]? = ports[(k - 1).toNat]? := by
  rw [List.getElem?_set_ne]
  omega

theorem set_index_eq (ports : List generate_port_decl_t) (d : generate_port_decl_t) (i : Int)
    (hi : 1 ≤ i) (hlen : i ≤ (ports.length : Int)) :
    (ports.set (i - 1).toNat d)[(i - 1).toNat]? = some d := by
  rw [List.getElem?_set_self]
  omega

theorem place_positional_inv (st st' : GenState) (decl : generate_port_decl_t)
    (h : place_positional st decl = .ok st') (hinv : st.Inv) :
    st'.Inv ∧ st'.ports.length = st.ports.length ∧ (∀ k ∈ st'.indices, k ∈ st.indices) ∧
      (∀ k : Int, 1 ≤ k → k ∉ st.indices → st'.ports[(k - 1).toNat]? = st.ports[(k - 1).toNat]?) := by
  obtain ⟨h1, h2⟩ := place_positional_ok st st' decl h
  by_cases hpos : decl.index > 0
  · obtain ⟨hmem, hst⟩ := h1 hpos
    have hports : st'.ports = st.ports.set (decl.index - 1).toNat decl := by rw [hst]
    have hidx : st'.indices = st.indices.filter (fun i => i ≠ decl.index) := by rw [hst]
    have hlen : st'.ports.length = st.ports.length := by rw [hports, List.length_set]
    refine ⟨⟨?_, ?_⟩, hlen, ?_, ?_⟩
    · rw [hidx]; exact hinv.1.filter _
    · intro i hi
      rw [hidx] at hi
      rw [hlen]
      exact hinv.2 i (List.mem_of_mem_filter hi)
    · intro k hk
      rw [hidx] at hk
      exact List.mem_of_mem_filter hk
    · intro k hk hnot
      rw [hports]
      exact set_index_ne _ _ _ _ (hinv.2 _ hmem).1 hk (fun e => hnot (e ▸ hmem))
  · rw [h2 hpos]
    exact ⟨hinv, rfl, fun _ h => h, fun _ _ _ => rfl⟩

theorem place_positionals_inv :
    ∀ (decls : List generate_port_decl_t) (st st' : GenState),
      place_positionals decls st = .ok st' → st.Inv →
      st'.Inv ∧ st'.ports.length = st.ports.length ∧ (∀ k ∈ st'.indices, k ∈ st.indices) ∧
      (∀ k : Int, 1 ≤ k → k ∉ st.indices →
        st'.ports[(k - 1).toNat]? = st.ports[(k - 1).toNat]?) := by
  intro decls
  induction decls with
  | nil =>
    intro st st' h hinv
    rw [place_positionals] at h
    rw [← Except.ok.inj h]
    exact ⟨hinv, rfl, fun _ h => h, fun _ _ _ => rfl⟩
  | cons d rest ih =>
    intro st st' h hinv
    rw [place_positionals] at h
    cases h1 : place_positional st d with
    | error e => rw [h1] at h; exact Except.noConfusion h
    | ok st1 =>
      rw [h1] at h
      simp only at h
      obtain ⟨i1, l1, s1, f1⟩ := place_positional_inv st st1 d h1 hinv
      obtain ⟨i2, l2, s2, f2⟩ := ih st1 st' h i1
      refine ⟨i2, l2.trans l1, fun k hk => s1 k (s2 k hk), ?_⟩
      intro k hk hnot
      rw [f2 k hk (fun hmem => hnot (s1 k hmem)), f1 k hk hnot]

/-- After the loop over the declarations, every declaration with a position is the
element of `ports` at its position, and the pending names and free positions are the
initial ones without those of the declarations. -/
theorem place_positionals_ok :
    ∀ (decls : List generate_port_decl_t) (st st' : GenState),
      place_positionals decls st = .ok st' → st.Inv →
      (∀ decl ∈ decls, decl.index > 0 → st'.ports[(decl.index - 1).toNat]? = some decl) ∧
      st'.portnames = st.portnames.filter (fun n => decide (n ∉ positional_names decls)) ∧
      st'.indices = st.indices.filter (fun i => decide (i ∉ positional_indices decls)) := by
  intro decls
  induction decls with
  | nil =>
    intro st st' h _
    rw [place_positionals] at h
    rw [← Except.ok.inj h]
    simp [positional_names, positional_indices]
  | cons d rest ih =>
    intro st st' h hinv
    rw [place_positionals] at h
    cases h1 : place_positional st d with
    | error e => rw [h1] at h; exact Except.noConfusion h
    | ok st1 =>
      rw [h1] at h
      simp only at h
      obtain ⟨i1, l1, _, _⟩ := place_positional_inv st st1 d h1 hinv
      obtain ⟨p2, n2, x2⟩ := ih st1 st' h i1
      obtain ⟨_, _, s3, f3⟩ := place_positionals_inv rest st1 st' h i1
      obtain ⟨ha, hb⟩ := place_positional_ok st st1 d h1
      by_cases hpos : d.index > 0
      · obtain ⟨hmem, hst⟩ := ha hpos
        have hports : st1.ports = st.ports.set (d.index - 1).toNat d := by rw [hst]
        have hidx : st1.indices = st.indices.filter (fun i => i ≠ d.index) := by rw [hst]
        have hnames : st1.portnames = st.portnames.filter (fun n => n ≠ d.portname) := by rw [hst]
        refine ⟨?_, ?_, ?_⟩
        · intro decl hdecl hdpos
          rcases List.mem_cons.1 hdecl with rfl | hrest
          · rw [f3 _ (hinv.2 _ hmem).1 (by rw [hidx]; simp), hports]
            exact set_index_eq _ _ _ (hinv.2 _ hmem).1 (hinv.2 _ hmem).2
          · exact p2 decl hrest hdpos
        · rw [n2, hnames, List.filter_filter, positional_names_cons, if_pos hpos]
          apply List.filter_congr
          intro n _
          by_cases e1 : n = d.portname <;> by_cases e2 : n ∈ positional_names rest <;>
            simp [e1, e2]
        · rw [x2, hidx, List.filter_filter, positional_indices_cons, if_pos hpos]
          apply List.filter_congr
          intro n _
          by_cases e1 : n = d.index <;> by_cases e2 : n ∈ positional_indices rest <;>
            simp [e1, e2]
      · rw [hb hpos] at n2 x2
        refine ⟨?_, ?_, ?_⟩
        · intro decl hdecl hdpos
          rcases List.mem_cons.1 hdecl with rfl | hrest
          · exact absurd hdpos hpos
          · exact p2 decl hrest hdpos
        · rw [n2, positional_names_cons, if_neg hpos]
        · rw [x2, positional_indices_cons, if_neg hpos]

/-- The loop over the pending names gives the `j`-th name the `j`-th free position, with
the direction of the first matching declaration, and touches no other position. -/
theorem place_wildcards_ok (env : GenEnv) (decls : List generate_port_decl_t) :
    ∀ (names : List String) (st st' : GenState),
      place_wildcards env decls names st = .ok st' → st.Inv →
      st'.Inv ∧ st'.ports.length = st.ports.length ∧
      names.length ≤ st.indices.length ∧ st'.indices = st.indices.drop names.length ∧
      (∀ k : Int, 1 ≤ k → k ∉ st.indices →
        st'.ports[(k - 1).toNat]? = st.ports[(k - 1).toNat]?) ∧
      (∀ j, j < names.length → ∃ name pos decl, names[j]? = some name ∧
        st.indices[j]? = some pos ∧ matching_decl env decls name = some decl ∧
        st'.ports[(pos - 1).toNat]? = some { decl with portname := name, index := pos }) := by
  intro names
  induction names with
  | nil =>
    intro st st' h hinv
    rw [place_wildcards] at h
    rw [← Except.ok.inj h]
    exact ⟨hinv, rfl, Nat.zero_le _, rfl, fun _ _ _ => rfl, fun j hj => absurd hj (Nat.not_lt_zero _)⟩
  | cons nm rest ih =>
    intro st st' h hinv
    rw [place_wildcards] at h
    cases hm : matching_decl env decls nm with
    | none => rw [hm] at h; exact Except.noConfusion h
    | some decl =>
      rw [hm] at h
      simp only at h
      cases hidx : st.indices with
      | nil => rw [hidx] at h; exact Except.noConfusion h
      | cons index tl =>
        rw [hidx] at h
        simp only at h
        have hpw := hinv.1
        rw [hidx, List.pairwise_cons] at hpw
        have hb := hinv.2 index (by rw [hidx]; exact List.mem_cons_self _ _)
        have hnotin : index ∉ tl := fun hmem => lt_irrefl _ (hpw.1 index hmem)
        have hfilter : tl.filter (fun i => decide (i ≠ index)) = tl := by
          rw [List.filter_eq_self]
          intro a ha
          simp only [ne_eq, decide_not, Bool.not_eq_true', decide_eq_false_iff_not]
          exact fun e => hnotin (e ▸ ha)
        rw [hfilter] at h
        have hinv1 : GenState.Inv ⟨rest, tl,
            st.ports.set (index - 1).toNat { decl with portname := nm, index := index },
            widthMax st.portwidths nm 1⟩ := by
          refine ⟨hpw.2, ?_⟩
          intro i hi
          simp only [List.length_set]
          exact hinv.2 i (by rw [hidx]; exact List.mem_cons_of_mem _ hi)
        obtain ⟨i2, l2, n2, x2, f2, w2⟩ := ih _ st' h hinv1
        simp only [List.length_set] at l2
        simp only at n2 x2 f2 w2
        refine ⟨i2, l2, ?_, ?_, ?_, ?_⟩
        · simp only [List.length_cons]; omega
        · rw [x2]; rfl
        · intro k hk hnot
          rw [List.mem_cons, not_or] at hnot
          rw [f2 k hk hnot.2]
          exact set_index_ne _ _ _ _ hb.1 hk hnot.1
        · intro j hj
          cases j with
          | zero =>
            refine ⟨nm, index, decl, by simp, by simp, hm, ?_⟩
            rw [f2 index hb.1 hnotin]
            exact set_index_eq _ _ _ hb.1 hb.2
          | succ j =>
            obtain ⟨name, pos, decl', h1, h2, h3, h4⟩ :=
              w2 j (by simp only [List.length_cons] at hj; omega)
            exact ⟨name, pos, decl', by simpa using h1, by simpa using h2, h3, h4⟩

/-! ## Port inference: placement -/

/-- The inference scenario evaluated: `Y` is pinned to position 3, and `A`, `B` receive
the positions 1 and 2 with the direction of `i:A`, `i:B`. -/
theorem generate_ports_example :
    generate_ports genEnv muxDesign muxDecls "\\MUX2" = .ok muxState := by
  rfl

/-- Claim C6 (failing input).  With the declarations `i@1:\A`, `i@2:\A`, `i:*` and one
observed port `B`, the cell type has the two ports `A`, `B`; both positions are within
`1..2`, they differ, and the pending name `B` matches the declaration `i:*`.  None of
the three error conditions holds, and yet `generate` does not complete: both positions
are used up by the declarations of `A`, and the loop over the pending names stops at
the failed assertion `!indices.empty()`. -/
theorem generate_duplicate_name_aborts :
    found_celltypes genEnv dupDesign ["MUX*"] = ["\\MUX2"] ∧
    all_portnames dupDesign dupDecls "\\MUX2" = ["\\A", "\\B"] ∧
    (∀ i ∈ positional_indices dupDecls, i ≤ ((all_portnames dupDesign dupDecls "\\MUX2").length : Int)) ∧
    (positional_indices dupDecls).Nodup ∧
    (∀ name ∈ pending_names dupDesign dupDecls "\\MUX2",
      (matching_decl genEnv dupDecls name).isSome = true) ∧
    generate_ports genEnv dupDesign dupDecls "\\MUX2" = .error (.assertFailed "!indices.empty()") ∧
    generate genEnv dupDesign ["MUX*"] dupDecls = .error (.assertFailed "!indices.empty()") := by
  refine ⟨by decide, by decide, by decide, by decide, by decide, by rfl, by rfl⟩

/-! ## The module map under updates -/

theorem count_iff (d : Design) (n : String) :
    d.count n = true ↔ ∃ x ∈ d.modules, x.name = n := by
  unfold Design.count Design.find
  rw [List.find?_isSome]
  simp

theorem count_false_iff (d : Design) (n : String) :
    d.count n = false ↔ d.find n = none := by
  unfold Design.count
  cases d.find n <;> simp

theorem find_setCell (d : Design) (modname : String) (c : Cell) (n : String) :
    (d.setCell modname c).find n =
      (d.find n).map (fun m => if m.name = modname then m.setCell c else m) := by
  unfold Design.find Design.setCell
  have h := find?_map_name (fun m : Module => m.name)
    (fun m => if m.name = modname then m.setCell c else m)
    (fun m => by
      show (if m.name = modname then m.setCell c else m).name = m.name
      split <;> rfl) n d.modules
  simp only at h
  exact h

theorem count_setCell (d : Design) (modname : String) (c : Cell) (n : String) :
    (d.setCell modname c).count n = d.count n := by
  unfold Design.count
  rw [find_setCell]
  cases d.find n <;> rfl

theorem face_setCell (d : Design) (modname : String) (c : Cell) (n : String) :
    (d.setCell modname c).face n = d.face n := by
  unfold Design.face
  rw [find_setCell]
  cases d.find n with
  | none => rfl
  | some m =>
    simp only [Option.map_some']
    split <;> rfl

theorem mem_insertModule (m x : Module) :
    ∀ l : List Module, x ∈ insertModule m l → x = m ∨ x ∈ l
  | [] => by simp [insertModule]
  | a :: rest => by
    simp only [insertModule]
    by_cases h1 : a.name = m.name
    · rw [if_pos h1]
      intro h
      rcases List.mem_cons.1 h with h | h
      · exact Or.inl h
      · exact Or.inr (List.mem_cons_of_mem _ h)
    · rw [if_neg h1]
      by_cases h2 : strLt m.name a.name = true
      · rw [if_pos h2]
        intro h
        rcases List.mem_cons.1 h with h | h
        · exact Or.inl h
        · exact Or.inr h
      · rw [if_neg h2]
        intro h
        rcases List.mem_cons.1 h with h | h
        · exact Or.inr (h ▸ List.mem_cons_self _ _)
        · rcases mem_insertModule m x rest h with h | h
          · exact Or.inl h
          · exact Or.inr (List.mem_cons_of_mem _ h)

theorem mem_insertModule_self (m : Module) : ∀ l : List Module, m ∈ insertModule m l
  | [] => by simp [insertModule]
  | a :: rest => by
    simp only [insertModule]
    split
    · exact List.mem_cons_self _ _
    · split
      · exact List.mem_cons_self _ _
      · exact List.mem_cons_of_mem _ (mem_insertModule_self m rest)

theorem mem_insertModule_of_mem (m x : Module) (hne : x.name ≠ m.name) :
    ∀ l : List Module, x ∈ l → x ∈ insertModule m l
  | [], h => by simp at h
  | a :: rest, h => by
    simp only [insertModule]
    by_cases h1 : a.name = m.name
    · rw [if_pos h1]
      rcases List.mem_cons.1 h with rfl | h
      · exact absurd h1 hne
      · exact List.mem_cons_of_mem _ h
    · rw [if_neg h1]
      by_cases h2 : strLt m.name a.name = true
      · rw [if_pos h2]
        exact List.mem_cons_of_mem _ h
      · rw [if_neg h2]
        rcases List.mem_cons.1 h with rfl | h
        · exact List.mem_cons_self _ _
        · exact List.mem_cons_of_mem _ (mem_insertModule_of_mem m x hne rest h)

theorem count_insertModule (m : Module) (d : Design) (n : String) :
    (Design.mk (insertModule m d.modules)).count n = true ↔ n = m.name ∨ d.count n = true := by
  rw [count_iff, count_iff]
  constructor
  · rintro ⟨x, hx, hn⟩
    rcases mem_insertModule m x _ hx with rfl | hx
    · exact Or.inl hn.symm
    · exact Or.inr ⟨x, hx, hn⟩
  · rintro (h | ⟨x, hx, hn⟩)
    · exact ⟨m, mem_insertModule_self m _, h.symm⟩
    · by_cases hne : x.name = m.name
      · exact ⟨m, mem_insertModule_self m _, by rw [← hne, hn]⟩
      · exact ⟨x, mem_insertModule_of_mem m x hne _ hx, hn⟩

theorem derive_fst (env : Env) (d : Design) (tmpl : Module) (params : List (String × Const)) :
    (derive_result env d tmpl params).1 = env.derive_name tmpl params := by
  unfold derive_result
  simp only
  split <;> rfl

/-! ## Strict checking -/

theorem startsWith_append (p s : String) : startsWith p (p ++ s) = true := by
  unfold startsWith
  rw [List.isPrefixOf_iff_prefix, String.data_append]
  exact List.prefix_append _ _

theorem count_of_find {d : Design} {n : String} {m : Module} (h : d.find n = some m) :
    d.count m.name = true := by
  rw [count_iff]
  exact ⟨m, (find_some_mem h).1, rfl⟩

theorem strip_array_none (type : String) (h : startsWith "$array:" type = false) :
    strip_array type = (type, none) := by
  unfold strip_array
  rw [if_neg]
  intro hc
  have : startsWith "$array:" type = true := by
    unfold startsWith
    rw [List.isPrefixOf_iff_prefix, List.prefix_iff_eq_take]
    have := congrArg String.data hc
    simp only [substr, List.drop_zero] at this
    exact this.symm
  rw [h] at this
  exact Bool.noConfusion this

theorem expand_cell_skip (env : Env) (modname : String) (libdirs : List String)
    (st : ExpandState) (cell : Cell)
    (harr : startsWith "$array:" cell.type = false)
    (hcount : st.design.count cell.type = false)
    (htmpl : st.design.find ("$abstract" ++ cell.type) = none)
    (hskip : firstIsDollar cell.type = true ∨ find_libfile env cell.type libdirs = none) :
    expand_cell env modname false libdirs st cell = .ok st := by
  unfold expand_cell
  simp only [strip_array_none cell.type harr]
  rw [if_pos hcount, htmpl]
  simp only
  rcases hskip with hd | hlib
  · rw [if_pos hd]
    rfl
  · simp only [hlib, Bool.false_and, Bool.false_eq_true, if_false]
    split <;> rfl

/-- With strict checking off, a module all of whose cells are unresolved and not array
cells is left as it is by `expand_module`, which reports no change. -/
theorem expand_module_unresolved (env : Env) (design : Design) (module : Module)
    (libdirs : List String)
    (h : ∀ cell ∈ module.cells, startsWith "$array:" cell.type = false ∧
      design.count cell.type = false ∧ design.count ("$abstract" ++ cell.type) = false ∧
      find_libfile env cell.type libdirs = none) :
    expand_module env design module false libdirs = .ok (design, false) := by
  have hcells : ∀ cells : List Cell, (∀ cell ∈ cells, cell ∈ module.cells) →
      expand_cells env module.name false libdirs cells ⟨design, false, []⟩ =
        .ok ⟨design, false, []⟩ := by
    intro cells
    induction cells with
    | nil => intro _; rfl
    | cons c rest ih =>
      intro hsub
      obtain ⟨h1, h2, h3, h4⟩ := h c (hsub c (List.mem_cons_self _ _))
      rw [expand_cells, expand_cell_skip env module.name libdirs _ c h1 h2
        ((count_false_iff _ _).1 h3) (Or.inr h4)]
      exact ih (fun x hx => hsub x (List.mem_cons_of_mem _ hx))
  unfold expand_module
  rw [hcells module.cells (fun _ h => h)]
  rfl

/-! ## A call of `expand_module` that reports no change -/

theorem strip_array_cases (type : String) :
    (startsWith "$array:" type = false ∧ strip_array type = (type, none)) ∨
    (startsWith "$array:" type = true ∧ ∃ T idx num, strip_array type = (T, some (idx, num))) := by
  by_cases h : startsWith "$array:" type = true
  · right
    refine ⟨h, ?_⟩
    unfold strip_array
    rw [if_pos]
    · exact ⟨_, _, _, rfl⟩
    · unfold startsWith at h
      rw [List.isPrefixOf_iff_prefix, List.prefix_iff_eq_take] at h
      unfold substr
      apply String.ext
      simp only [List.drop_zero]
      exact h.symm
  · left
    rw [Bool.not_eq_true] at h
    exact ⟨h, strip_array_none type h⟩

theorem count_eq_face (d : Design) (n : String) : d.count n = (d.face n).isSome := by
  unfold Design.count Design.face
  cases d.find n <;> rfl

theorem blackbox_eq_face (d : Design) (n : String) :
    d.blackbox n = match d.face n with
      | some f => (match lookup "\\blackbox" f.1 with
        | none => false
        | some c => c.as_bool)
      | none => false := by
  unfold Design.blackbox Design.face
  cases d.find n <;> rfl

theorem find_none_iff_face (d : Design) (n : String) : d.find n = none ↔ d.face n = none := by
  unfold Design.face
  cases d.find n <;> simp

theorem calm_of_face {env : Env} {flag_check : Bool} {libdirs : List String} {d d' : Design}
    (hf : ∀ n, d'.face n = d.face n) {c c' : Cell} (ht : c'.type = c.type)
    (hp : c'.parameters = c.parameters) (h : Calm env flag_check libdirs d c) :
    Calm env flag_check libdirs d' c' := by
  unfold Calm at h ⊢
  rw [ht, hp, count_eq_face, blackbox_eq_face, find_none_iff_face, hf, hf,
    ← count_eq_face, ← blackbox_eq_face, ← find_none_iff_face]
  exact h

theorem settled_of_face {env : Env} {flag_check : Bool} {libdirs : List String} {d d' : Design}
    (hf : ∀ n, d'.face n = d.face n) {c : Cell} (h : Settled env flag_check libdirs d c) :
    Settled env flag_check libdirs d' c := by
  refine ⟨?_, calm_of_face hf rfl rfl h.2⟩
  rw [count_eq_face, hf, ← count_eq_face]
  exact h.1

theorem derive_resolved_did (env : Env) (modname : String) (st : ExpandState) (cell : Cell)
    (arr : Option (Int × Int))
    (h : (derive_resolved_ok env modname st cell arr).did_something = false) :
    st.did_something = false ∧
      (cell.parameters.length = 0 ∨ st.design.blackbox cell.type = true ∨
        st.design.find cell.type = none) ∧
      derive_resolved_ok env modname st cell arr =
        ⟨st.design, st.did_something, record_array st.array_cells arr cell⟩ := by
  unfold derive_resolved_ok at h ⊢
  by_cases hp : cell.parameters.length = 0
  · rw [if_pos hp] at h ⊢
    exact ⟨h, Or.inl hp, rfl⟩
  · rw [if_neg hp] at h ⊢
    cases hfind : st.design.find cell.type with
    | none =>
      rw [hfind] at h
      exact ⟨h, Or.inr (Or.inr rfl), rfl⟩
    | some mod =>
      rw [hfind] at h
      simp only at h ⊢
      by_cases hb : mod.get_bool_attribute "\\blackbox" = true
      · rw [if_pos hb] at h ⊢
        refine ⟨h, Or.inr (Or.inl ?_), rfl⟩
        unfold Design.blackbox
        rw [hfind]
        exact hb
      · rw [if_neg hb] at h
        exact Bool.noConfusion h

/-- The outcome of lines 197-206: the fatal error of the deriver when the call on line
204 is reached and fails, otherwise the state `derive_resolved_ok`. -/
theorem derive_resolved_eq (env : Env) (modname : String) (st : ExpandState) (cell : Cell)
    (arr : Option (Int × Int)) :
    derive_resolved env modname st cell arr =
      if derive_resolved_fails env st.design cell then .error (.deriveFailed cell.type)
      else .ok (derive_resolved_ok env modname st cell arr) := by
  unfold derive_resolved derive_resolved_ok derive_resolved_fails derive
  by_cases hp : cell.parameters.length = 0
  · simp [hp]
  · cases hf : st.design.find cell.type with
    | none => simp [hp]
    | some mod =>
      have hname := (find_some_mem hf).2
      by_cases hb : mod.get_bool_attribute "\\blackbox" = true
      · simp [hp, hb]
      · by_cases hfail : env.derive_fails mod cell.parameters = true
        · simp [hp, hb, hfail, hname]
        · simp [hp, hb, hfail]

theorem derive_match (b : Bool) (e : Err) (r : String × Design)
    (f : String × Design → Except Err ExpandState) :
    (match (if b = true then Except.error e else Except.ok r : Except Err (String × Design)) with
      | .error e => .error e
      | .ok r => f r) = if b = true then .error e else f r := by
  cases b <;> rfl

/-- No derivation fails for a cell without parameters or with a blackbox target. -/
theorem derive_resolved_fails_of (env : Env) (design : Design) (cell : Cell)
    (h : cell.parameters.length = 0 ∨ design.blackbox cell.type = true) :
    derive_resolved_fails env design cell = false := by
  unfold derive_resolved_fails
  rcases h with hp | hb
  · simp [hp]
  · unfold Design.blackbox at hb
    cases hfind : design.find cell.type with
    | none => simp
    | some mod =>
      rw [hfind] at hb
      simp only at hb
      simp [hb]

theorem expand_cell_eq (env : Env) (modname : String) (flag_check : Bool)
    (libdirs : List String) (st : ExpandState) (c : Cell) (design : Design)
    (hdesign : design = match (strip_array c.type).2 with
      | some _ => st.design.setCell modname (stripped c)
      | none => st.design) :
    expand_cell env modname flag_check libdirs st c =
      if design.count (stripped c).type = false then
        match design.find ("$abstract" ++ (stripped c).type) with
        | some tmpl =>
          if env.derive_fails tmpl (stripped c).parameters then .error (.deriveFailed tmpl.name)
          else
          .ok ⟨(derive_result env design tmpl (stripped c).parameters).2.setCell modname
              { stripped c with type := (derive_result env design tmpl (stripped c).parameters).1,
                                parameters := [] }, true,
            record_array st.array_cells (strip_array c.type).2
              { stripped c with type := (derive_result env design tmpl (stripped c).parameters).1,
                                parameters := [] }⟩
        | none =>
          if firstIsDollar (stripped c).type then
            .ok ⟨design, st.did_something,
              record_array st.array_cells (strip_array c.type).2 (stripped c)⟩
          else
            match find_libfile env (stripped c).type libdirs with
            | some (filename, format) =>
              if (frontend_call env design filename format).count (stripped c).type = false then
                .error (.libdirNoModule filename (stripped c).type)
              else if derive_resolved_fails env (frontend_call env design filename format)
                  (stripped c) then .error (.deriveFailed (stripped c).type)
              else
                .ok (derive_resolved_ok env modname
                  ⟨frontend_call env design filename format, true, st.array_cells⟩ (stripped c)
                  (strip_array c.type).2)
            | none =>
              if flag_check && !firstIsDollar (stripped c).type then
                .error (.notPartOfDesign (stripped c).type modname (stripped c).name)
              else
                .ok ⟨design, st.did_something,
                  record_array st.array_cells (strip_array c.type).2 (stripped c)⟩
      else if derive_resolved_fails env design (stripped c) then
        .error (.deriveFailed (stripped c).type)
      else
        .ok (derive_resolved_ok env modname ⟨design, st.did_something, st.array_cells⟩ (stripped c)
          (strip_array c.type).2) := by
  subst hdesign
  unfold expand_cell
  simp only [derive_resolved_eq, derive, derive_match]
  rfl

/-- A step of the first loop that leaves `did_something` false: the cell is calm, and
the only effect is the stripping of the array descriptor and the entry in `array_cells`. -/
theorem expand_cell_quiet (env : Env) (modname : String) (flag_check : Bool)
    (libdirs : List String) (st st' : ExpandState) (c : Cell)
    (h : expand_cell env modname flag_check libdirs st c = .ok st')
    (hdid : st'.did_something = false) :
    st.did_something = false ∧ Calm env flag_check libdirs st.design (stripped c) ∧
    st' = ⟨match (strip_array c.type).2 with
        | some _ => st.design.setCell modname (stripped c)
        | none => st.design,
      false, record_array st.array_cells (strip_array c.type).2 (stripped c)⟩ := by
  have hface : ∀ n, st.design.face n = (match (strip_array c.type).2 with
      | some _ => st.design.setCell modname (stripped c)
      | none => st.design).face n := by
    intro n
    split
    · rw [face_setCell]
    · rfl
  rw [expand_cell_eq env modname flag_check libdirs st c _ rfl] at h
  generalize (match (strip_array c.type).2 with
      | some _ => st.design.setCell modname (stripped c)
      | none => st.design) = design at h hface ⊢
  by_cases hcount : design.count (stripped c).type = false
  · rw [if_pos hcount] at h
    cases hfind : design.find ("$abstract" ++ (stripped c).type) with
    | some tmpl =>
      rw [hfind] at h
      simp only at h
      split at h
      · exact Except.noConfusion h
      · rw [← Except.ok.inj h] at hdid
        exact Bool.noConfusion hdid
    | none =>
      rw [hfind] at h
      simp only at h
      by_cases hdollar : firstIsDollar (stripped c).type = true
      · rw [if_pos hdollar] at h
        have hst := Except.ok.inj h
        rw [← hst] at hdid
        simp only at hdid
        refine ⟨hdid, calm_of_face hface rfl rfl ⟨fun hc => ?_, fun _ => ⟨hfind, Or.inl hdollar⟩⟩, ?_⟩
        · rw [hcount] at hc; exact Bool.noConfusion hc
        · rw [← hst, hdid]
      · rw [if_neg hdollar] at h
        cases hlib : find_libfile env (stripped c).type libdirs with
        | some r =>
          rw [hlib] at h
          simp only at h
          split at h
          · exact Except.noConfusion h
          · split at h
            · exact Except.noConfusion h
            · rw [← Except.ok.inj h] at hdid
              have := (derive_resolved_did _ _ _ _ _ hdid).1
              exact Bool.noConfusion this
        | none =>
          rw [hlib] at h
          simp only at h
          split at h
          · exact Except.noConfusion h
          · rename_i hflag
            have hst := Except.ok.inj h
            rw [← hst] at hdid
            simp only at hdid
            have hfc : flag_check = false := by
              cases flag_check
              · rfl
              · exfalso
                apply hflag
                simp only [Bool.not_eq_true] at hdollar
                simp [hdollar]
            refine ⟨hdid, calm_of_face hface rfl rfl
              ⟨fun hc => ?_, fun _ => ⟨hfind, Or.inr ⟨hlib, hfc⟩⟩⟩, ?_⟩
            · rw [hcount] at hc; exact Bool.noConfusion hc
            · rw [← hst, hdid]
  · rw [if_neg hcount] at h
    by_cases hfail : derive_resolved_fails env design (stripped c) = true
    · rw [if_pos hfail] at h
      exact Except.noConfusion h
    rw [if_neg hfail] at h
    have hst := Except.ok.inj h
    rw [← hst] at hdid
    obtain ⟨h1, h2, h3⟩ := derive_resolved_did _ _ _ _ _ hdid
    simp only at h1 h2 h3
    rw [Bool.not_eq_false] at hcount
    refine ⟨h1, calm_of_face hface rfl rfl ⟨fun _ => ?_, fun hc => ?_⟩, ?_⟩
    · rcases h2 with h2 | h2 | h2
      · exact Or.inl h2
      · exact Or.inr h2
      · rw [← count_false_iff, hcount] at h2
        exact Bool.noConfusion h2
    · rw [hcount] at hc; exact Bool.noConfusion hc
    · rw [← hst, h3, h1]

theorem face_foldl_setCell (modname : String) :
    ∀ (W : List Cell) (d : Design) (n : String),
      (W.foldl (fun d x => d.setCell modname x) d).face n = d.face n := by
  intro W
  induction W with
  | nil => intro d n; rfl
  | cons w rest ih =>
    intro d n
    rw [List.foldl_cons, ih, face_setCell]

/-- The cells of a module after a list of in-place updates: a cell is one of the written
cells, or an old cell whose name no update addresses. -/
theorem find_foldl_setCell (modname : String) :
    ∀ (W : List Cell) (d : Design) (n : String) (m1 : Module),
      (W.foldl (fun d x => d.setCell modname x) d).find n = some m1 →
      ∃ m0, d.find n = some m0 ∧ (n ≠ modname → m1 = m0) ∧
        (n = modname → ∀ x ∈ m1.cells, x ∈ W ∨ (x ∈ m0.cells ∧ ∀ w ∈ W, w.name ≠ x.name)) := by
  intro W
  induction W with
  | nil =>
    intro d n m1 h
    exact ⟨m1, h, fun _ => rfl, fun _ x hx => Or.inr ⟨hx, fun w hw => by simp at hw⟩⟩
  | cons w rest ih =>
    intro d n m1 h
    rw [List.foldl_cons] at h
    obtain ⟨m0', hm0', hne, hcells⟩ := ih _ n m1 h
    rw [find_setCell] at hm0'
    cases hfind : d.find n with
    | none => rw [hfind] at hm0'; exact Option.noConfusion hm0'
    | some m0 =>
      rw [hfind] at hm0'
      have hm0eq : m0' = if m0.name = modname then m0.setCell w else m0 :=
        (Option.some.inj hm0').symm
      have hname : m0.name = n := (find_some_mem hfind).2
      refine ⟨m0, rfl, ?_, ?_⟩
      · intro hn
        rw [hne hn, hm0eq, if_neg (by rw [hname]; exact hn)]
      · intro hn
        intro x hx
        rcases hcells hn x hx with hx' | ⟨hx', hno⟩
        · exact Or.inl (List.mem_cons_of_mem _ hx')
        · rw [hm0eq, if_pos (by rw [hname]; exact hn)] at hx'
          unfold Module.setCell at hx'
          simp only [List.mem_map] at hx'
          obtain ⟨y, hy, hyx⟩ := hx'
          by_cases hyw : y.name = w.name
          · rw [if_pos hyw] at hyx
            exact Or.inl (hyx ▸ List.mem_cons_self _ _)
          · rw [if_neg hyw] at hyx
            subst hyx
            refine Or.inr ⟨hy, ?_⟩
            intro w' hw'
            rcases List.mem_cons.1 hw' with rfl | hw'
            · exact fun e => hyw e.symm
            · exact hno w' hw'

/-- The first loop of `expand_module` when it ends with `did_something` false. -/
theorem expand_cells_quiet (env : Env) (modname : String) (flag_check : Bool)
    (libdirs : List String) :
    ∀ (cells : List Cell) (st st' : ExpandState),
      expand_cells env modname flag_check libdirs cells st = .ok st' →
      st'.did_something = false →
      st.did_something = false ∧
      (∀ c ∈ cells, Calm env flag_check libdirs st.design (stripped c)) ∧
      ∃ E : List (Cell × Int × Int),
        st'.array_cells = st.array_cells ++ E ∧
        st'.design = (E.map (·.1)).foldl (fun d x => d.setCell modname x) st.design ∧
        (∀ e ∈ E, ∃ c ∈ cells, e.1 = stripped c) ∧
        (∀ c ∈ cells, startsWith "$array:" c.type = true → ∃ e ∈ E, e.1 = stripped c) := by
  intro cells
  induction cells with
  | nil =>
    intro st st' h hdid
    rw [expand_cells] at h
    rw [← Except.ok.inj h] at hdid ⊢
    exact ⟨hdid, fun c hc => by simp at hc, [], by simp, rfl, fun e he => by simp at he,
      fun c hc => by simp at hc⟩
  | cons c rest ih =>
    intro st st' h hdid
    rw [expand_cells] at h
    cases h1 : expand_cell env modname flag_check libdirs st c with
    | error e => rw [h1] at h; exact Except.noConfusion h
    | ok st1 =>
      rw [h1] at h
      simp only at h
      obtain ⟨hdid1, hcalm2, E2, harr2, hdes2, hE2, hA2⟩ := ih st1 st' h hdid
      obtain ⟨hdid0, hcalm0, hst1⟩ := expand_cell_quiet env modname flag_check libdirs st st1 c h1 hdid1
      rcases strip_array_cases c.type with ⟨hpre, hs⟩ | ⟨hpre, T, idx, num, hs⟩
      · -- not an array cell
        have hd1 : st1.design = st.design := by rw [hst1, hs]
        have ha1 : st1.array_cells = st.array_cells := by rw [hst1, hs]; rfl
        refine ⟨hdid0, ?_, E2, by rw [harr2, ha1], by rw [hdes2, hd1], ?_, ?_⟩
        · intro c' hc'
          rcases List.mem_cons.1 hc' with rfl | hmem
          · exact hcalm0
          · rw [← hd1]; exact hcalm2 c' hmem
        · intro e he
          obtain ⟨c', hc', hec⟩ := hE2 e he
          exact ⟨c', List.mem_cons_of_mem _ hc', hec⟩
        · intro c' hc' hp
          rcases List.mem_cons.1 hc' with rfl | hmem
          · rw [hpre] at hp; exact Bool.noConfusion hp
          · exact hA2 c' hmem hp
      · -- an array cell
        have hd1 : st1.design = st.design.setCell modname (stripped c) := by rw [hst1, hs]
        have ha1 : st1.array_cells = st.array_cells ++ [(stripped c, idx, num)] := by
          rw [hst1, hs]; rfl
        refine ⟨hdid0, ?_, (stripped c, idx, num) :: E2, ?_, ?_, ?_, ?_⟩
        · intro c' hc'
          rcases List.mem_cons.1 hc' with rfl | hmem
          · exact hcalm0
          · have := hcalm2 c' hmem
            rw [hd1] at this
            exact calm_of_face (fun n => (face_setCell _ _ _ n).symm) rfl rfl this
        · rw [harr2, ha1, List.append_assoc]; rfl
        · rw [hdes2, hd1]; rfl
        · intro e he
          rcases List.mem_cons.1 he with rfl | he
          · exact ⟨c, List.mem_cons_self _ _, rfl⟩
          · obtain ⟨c', hc', hec⟩ := hE2 e he
            exact ⟨c', List.mem_cons_of_mem _ hc', hec⟩
        · intro c' hc' hp
          rcases List.mem_cons.1 hc' with rfl | hmem
          · exact ⟨_, List.mem_cons_self _ _, rfl⟩
          · obtain ⟨e, he, hec⟩ := hA2 c' hmem hp
            exact ⟨e, List.mem_cons_of_mem _ he, hec⟩

/-- The array pass when it ends without error: every recorded cell is of a resolved
type, and is written back with new connections only. -/
theorem array_pass_ok (modname : String) :
    ∀ (entries : List (Cell × Int × Int)) (d d1 : Design),
      array_pass modname entries d = .ok d1 →
      (∀ e ∈ entries, d.count e.1.type = true) ∧
      ∃ B : List Cell, d1 = B.foldl (fun d x => d.setCell modname x) d ∧
        (∀ b ∈ B, ∃ e ∈ entries, b.name = e.1.name ∧ b.type = e.1.type ∧
          b.parameters = e.1.parameters) ∧
        (∀ e ∈ entries, ∃ b ∈ B, b.name = e.1.name) := by
  intro entries
  induction entries with
  | nil =>
    intro d d1 h
    rw [array_pass] at h
    exact ⟨fun e he => by simp at he, [], (Except.ok.inj h).symm, fun b hb => by simp at hb,
      fun e he => by simp at he⟩
  | cons entry rest ih =>
    intro d d1 h
    rw [array_pass] at h
    cases h1 : array_cell modname d entry with
    | error e => rw [h1] at h; exact Except.noConfusion h
    | ok d' =>
      rw [h1] at h
      simp only at h
      unfold array_cell at h1
      cases hfind : d.find entry.1.type with
      | none => rw [hfind] at h1; exact Except.noConfusion h1
      | some mod =>
        rw [hfind] at h1
        simp only at h1
        cases hconns : array_conns modname entry.1.name mod entry.2.1 entry.2.2
            entry.1.connections_ with
        | error e => rw [hconns] at h1; exact Except.noConfusion h1
        | ok conns =>
          rw [hconns] at h1
          have hd' : d' = d.setCell modname { entry.1 with connections_ := conns } :=
            (Except.ok.inj h1).symm
          obtain ⟨hcount, B, hB, hBe, heB⟩ := ih d' d1 h
          refine ⟨?_, { entry.1 with connections_ := conns } :: B, ?_, ?_, ?_⟩
          · intro e he
            rcases List.mem_cons.1 he with rfl | he
            · unfold Design.count; rw [hfind]; rfl
            · have := hcount e he
              rw [hd', count_setCell] at this
              exact this
          · rw [hB, hd']; rfl
          · intro b hb
            rcases List.mem_cons.1 hb with rfl | hb
            · exact ⟨entry, List.mem_cons_self _ _, rfl, rfl, rfl⟩
            · obtain ⟨e, he, hx⟩ := hBe b hb
              exact ⟨e, List.mem_cons_of_mem _ he, hx⟩
          · intro e he
            rcases List.mem_cons.1 he with rfl | he
            · exact ⟨_, List.mem_cons_self _ _, rfl⟩
            · obtain ⟨b, hb, hx⟩ := heB e he
              exact ⟨b, List.mem_cons_of_mem _ hb, hx⟩

theorem stripped_of_not_array (c : Cell) (h : startsWith "$array:" c.type = false) :
    stripped c = c := by
  unfold stripped
  rw [strip_array_none c.type h]

/-- A call of `expand_module` that returns false changes only the module it is called
for, keeps the attributes and wires of every module, and leaves every cell of that
module settled. -/
theorem expand_module_quiet (env : Env) (d : Design) (m : Module) (flag_check : Bool)
    (libdirs : List String) (d1 : Design)
    (h : expand_module env d m flag_check libdirs = .ok (d1, false))
    (hfind : d.find m.name = some m) :
    (∀ n, d1.face n = d.face n) ∧
    ∀ n m1, d1.find n = some m1 →
      (n ≠ m.name → d.find n = some m1) ∧
      (n = m.name → ∀ x ∈ m1.cells, Settled env flag_check libdirs d x) := by
  unfold expand_module at h
  cases hc : expand_cells env m.name flag_check libdirs m.cells ⟨d, false, []⟩ with
  | error e => rw [hc] at h; exact Except.noConfusion h
  | ok st =>
    rw [hc] at h
    simp only at h
    cases ha : array_pass m.name st.array_cells st.design with
    | error e => rw [ha] at h; exact Except.noConfusion h
    | ok d' =>
      rw [ha] at h
      have hpair := Except.ok.inj h
      have hd' : d' = d1 := congrArg Prod.fst hpair
      have hdid : st.did_something = false := congrArg Prod.snd hpair
      subst hd'
      obtain ⟨_, hcalm, E, harr, hdes, hE, hA⟩ :=
        expand_cells_quiet env m.name flag_check libdirs m.cells _ st hc hdid
      simp only [List.nil_append] at harr hdes hcalm
      obtain ⟨hcount, B, hB, hBe, heB⟩ := array_pass_ok m.name st.array_cells st.design d' ha
      have hface1 : ∀ n, st.design.face n = d.face n := by
        intro n; rw [hdes, face_foldl_setCell]
      have hface2 : ∀ n, d'.face n = d.face n := by
        intro n; rw [hB, face_foldl_setCell, hface1]
      refine ⟨hface2, ?_⟩
      intro n m1 hm1
      rw [hB] at hm1
      obtain ⟨mmid, hmid, hne2, hcells2⟩ := find_foldl_setCell m.name B st.design n m1 hm1
      rw [hdes] at hmid
      obtain ⟨m0, hm0, hne1, hcells1⟩ := find_foldl_setCell m.name _ d n mmid hmid
      refine ⟨fun hn => ?_, fun hn => ?_⟩
      · rw [hne2 hn, hne1 hn]; exact hm0
      · have hm0m : m0 = m := by
          rw [hn, hfind] at hm0
          exact (Option.some.inj hm0).symm
        intro x hx
        rcases hcells2 hn x hx with hxB | ⟨hxmid, hnoB⟩
        · obtain ⟨e, he, _, hty, hpar⟩ := hBe x hxB
          have heE : e ∈ E := by rw [harr] at he; exact he
          obtain ⟨c, hcm, hec⟩ := hE e heE
          have hcnt : d.count e.1.type = true := by
            have := hcount e he
            rw [count_eq_face, hface1, ← count_eq_face] at this
            exact this
          refine ⟨fun _ => by rw [hty]; exact hcnt, ?_⟩
          have hcalmc := hcalm c hcm
          rw [← hec] at hcalmc
          exact calm_of_face (fun _ => rfl) hty hpar hcalmc
        · rcases hcells1 hn x hxmid with hxA | ⟨hxm, hnoA⟩
          · exfalso
            rw [List.mem_map] at hxA
            obtain ⟨e, heE, hex⟩ := hxA
            obtain ⟨b, hb, hbn⟩ := heB e (by rw [harr]; exact heE)
            exact hnoB b hb (by rw [hbn, hex])
          · rw [hm0m] at hxm
            have hpre : startsWith "$array:" x.type = false := by
              by_contra hp
              rw [Bool.not_eq_false] at hp
              obtain ⟨e, he, hex⟩ := hA x hxm hp
              exact hnoA e.1 (List.mem_map_of_mem _ he) (by rw [hex]; rfl)
            have hcx := hcalm x hxm
            rw [stripped_of_not_array x hpre] at hcx
            exact ⟨fun hp => by rw [hpre] at hp; exact Bool.noConfusion hp, hcx⟩

/-- A sweep that reports no change leaves every module it went through settled, keeps
the attributes and wires of all modules, and does not touch the other modules. -/
theorem expand_sweep_quiet (env : Env) (flag_check : Bool) (libdirs : List String) :
    ∀ (names : List String) (d : Design) (did0 : Bool) (d' : Design),
      expand_sweep env flag_check libdirs names d did0 = .ok (d', false) →
      did0 = false ∧ (∀ n, d'.face n = d.face n) ∧
      ∀ n m1, d'.find n = some m1 →
        (n ∈ names → ∀ x ∈ m1.cells, Settled env flag_check libdirs d' x) ∧
        (n ∉ names → d.find n = some m1) := by
  intro names
  induction names with
  | nil =>
    intro d did0 d' h
    rw [expand_sweep] at h
    have hp := Except.ok.inj h
    have h1 : d = d' := congrArg Prod.fst hp
    have h2 : did0 = false := congrArg Prod.snd hp
    subst h1
    exact ⟨h2, fun _ => rfl, fun n m1 hm1 => ⟨fun hn => by simp at hn, fun _ => hm1⟩⟩
  | cons n0 rest ih =>
    intro d did0 d' h
    rw [expand_sweep] at h
    cases hfind : d.find n0 with
    | none =>
      rw [hfind] at h
      simp only at h
      obtain ⟨hdid, hface, hf⟩ := ih d did0 d' h
      refine ⟨hdid, hface, fun n m1 hm1 => ⟨fun hn => ?_, fun hn => ?_⟩⟩
      · by_cases hr : n ∈ rest
        · exact (hf n m1 hm1).1 hr
        · have hn0 : n = n0 := by
            rcases List.mem_cons.1 hn with h' | h'
            · exact h'
            · exact absurd h' hr
          have := (hf n m1 hm1).2 hr
          rw [hn0, hfind] at this
          exact Option.noConfusion this
      · exact (hf n m1 hm1).2 (fun hr => hn (List.mem_cons_of_mem _ hr))
    | some m =>
      rw [hfind] at h
      simp only at h
      cases hmod : expand_module env d m flag_check libdirs with
      | error e => rw [hmod] at h; exact Except.noConfusion h
      | ok r =>
        obtain ⟨d1, did1⟩ := r
        rw [hmod] at h
        simp only at h
        obtain ⟨hdid, hface, hf⟩ := ih d1 (did0 || did1) d' h
        rw [Bool.or_eq_false_iff] at hdid
        rw [hdid.2] at hmod
        have hname : m.name = n0 := (find_some_mem hfind).2
        obtain ⟨hface1, hm⟩ := expand_module_quiet env d m flag_check libdirs d1 hmod
          (by rw [hname]; exact hfind)
        have hface' : ∀ n, d'.face n = d.face n := fun n => by rw [hface, hface1]
        refine ⟨hdid.1, hface', fun n m1 hm1 => ⟨fun hn => ?_, fun hn => ?_⟩⟩
        · by_cases hr : n ∈ rest
          · exact (hf n m1 hm1).1 hr
          · have hn0 : n = n0 := by
              rcases List.mem_cons.1 hn with h' | h'
              · exact h'
              · exact absurd h' hr
            have h1 := (hf n m1 hm1).2 hr
            intro x hx
            exact settled_of_face hface' ((hm n m1 h1).2 (by rw [hn0, hname]) x hx)
        · have hr : n ∉ rest := fun hr => hn (List.mem_cons_of_mem _ hr)
          have h1 := (hf n m1 hm1).2 hr
          have hne : n ≠ m.name := by
            rw [hname]
            exact fun e => hn (e ▸ List.mem_cons_self _ _)
          exact (hm n m1 h1).1 hne

/-- The last sweep of a run of the expander loop that ends without error. -/
theorem expand_loop_last_sweep (env : Env) (flag_check : Bool) (libdirs : List String) :
    ∀ (fuel : Nat) (d d' : Design),
      expand_loop env flag_check libdirs fuel d = some (.ok d') →
      ∃ dk, expand_sweep env flag_check libdirs (dk.modules.map (·.name)) dk false =
        .ok (d', false) := by
  intro fuel
  induction fuel with
  | zero => intro d d' h; rw [expand_loop] at h; exact Option.noConfusion h
  | succ fuel ih =>
    intro d d' h
    rw [expand_loop] at h
    cases hs : expand_sweep env flag_check libdirs (d.modules.map (·.name)) d false with
    | error e =>
      rw [hs] at h
      exact Except.noConfusion (Option.some.inj h)
    | ok r =>
      obtain ⟨d1, did⟩ := r
      rw [hs] at h
      cases did with
      | true => exact ih d1 d' h
      | false =>
        simp only at h
        have : d1 = d' := Except.ok.inj (Option.some.inj h)
        subst this
        exact ⟨d, hs⟩

/-- After a run of the expander loop that ends without error, every cell of every
module that can be looked up in the design is settled. -/
theorem expand_loop_settled (env : Env) (flag_check : Bool) (libdirs : List String)
    (fuel : Nat) (d d' : Design)
    (h : expand_loop env flag_check libdirs fuel d = some (.ok d')) :
    ∀ n m1, d'.find n = some m1 → ∀ x ∈ m1.cells, Settled env flag_check libdirs d' x := by
  obtain ⟨dk, hs⟩ := expand_loop_last_sweep env flag_check libdirs fuel d d' h
  obtain ⟨_, hface, hf⟩ := expand_sweep_quiet env flag_check libdirs _ dk false d' hs
  intro n m1 hm1
  apply (hf n m1 hm1).1
  have hcount : dk.count n = true := by
    rw [count_eq_face, ← hface, ← count_eq_face]
    unfold Design.count
    rw [hm1]
    rfl
  obtain ⟨x, hx, hxn⟩ := (count_iff dk n).1 hcount
  exact List.mem_map.2 ⟨x, hx, hxn⟩

/-! ## Fixed point of the expander loop -/

/-- A settled cell without array descriptor is passed over by the first loop. -/
theorem expand_cell_settled (env : Env) (modname : String) (flag_check : Bool)
    (libdirs : List String) (st : ExpandState) (c : Cell)
    (hs : Settled env flag_check libdirs st.design c)
    (hpre : startsWith "$array:" c.type = false) :
    expand_cell env modname flag_check libdirs st c = .ok st := by
  have hstrip := strip_array_none c.type hpre
  have hsc : stripped c = c := stripped_of_not_array c hpre
  rw [expand_cell_eq env modname flag_check libdirs st c st.design (by rw [hstrip]), hsc, hstrip]
  obtain ⟨_, hc1, hc2⟩ := hs
  by_cases hcount : st.design.count c.type = false
  · rw [if_pos hcount]
    obtain ⟨hfind, hrest⟩ := hc2 hcount
    rw [hfind]
    simp only
    rcases hrest with hd | ⟨hlib, hflag⟩
    · rw [if_pos hd]; rfl
    · by_cases hd : firstIsDollar c.type = true
      · rw [if_pos hd]; rfl
      · rw [if_neg hd, hlib, hflag]
        rfl
  · rw [if_neg hcount]
    rw [Bool.not_eq_false] at hcount
    rw [derive_resolved_fails_of env st.design c (hc1 hcount), if_neg Bool.false_ne_true]
    unfold derive_resolved_ok
    rcases hc1 hcount with hp | hb
    · rw [if_pos hp]; rfl
    · by_cases hp : c.parameters.length = 0
      · rw [if_pos hp]; rfl
      · rw [if_neg hp]
        unfold Design.blackbox at hb
        cases hfind : st.design.find c.type with
        | none => rfl
        | some mod =>
          rw [hfind] at hb
          simp only at hb ⊢
          rw [if_pos hb]
          rfl

theorem expand_module_settled (env : Env) (d : Design) (m : Module) (flag_check : Bool)
    (libdirs : List String)
    (h : ∀ x ∈ m.cells, Settled env flag_check libdirs d x ∧ startsWith "$array:" x.type = false) :
    expand_module env d m flag_check libdirs = .ok (d, false) := by
  have hcells : ∀ cells : List Cell, (∀ x ∈ cells, x ∈ m.cells) →
      expand_cells env m.name flag_check libdirs cells ⟨d, false, []⟩ = .ok ⟨d, false, []⟩ := by
    intro cells
    induction cells with
    | nil => intro _; rfl
    | cons c rest ih =>
      intro hsub
      obtain ⟨h1, h2⟩ := h c (hsub c (List.mem_cons_self _ _))
      rw [expand_cells, expand_cell_settled env m.name flag_check libdirs ⟨d, false, []⟩ c h1 h2]
      exact ih (fun x hx => hsub x (List.mem_cons_of_mem _ hx))
  unfold expand_module
  rw [hcells m.cells (fun _ hx => hx)]
  rfl

theorem expand_sweep_settled (env : Env) (flag_check : Bool) (libdirs : List String)
    (d : Design)
    (h : ∀ n m, d.find n = some m → ∀ x ∈ m.cells,
      Settled env flag_check libdirs d x ∧ startsWith "$array:" x.type = false) :
    ∀ names : List String, expand_sweep env flag_check libdirs names d false = .ok (d, false) := by
  intro names
  induction names with
  | nil => rfl
  | cons n rest ih =>
    rw [expand_sweep]
    cases hfind : d.find n with
    | none => exact ih
    | some m =>
      simp only
      rw [expand_module_settled env d m flag_check libdirs (h n m hfind)]
      exact ih

/-- Counterexample to claim C9 as stated: on the nested scenario the expander loop ends
without error in one sweep; run again on the result it strips a second array descriptor
and changes the type of the cell. -/
theorem expand_loop_not_idempotent :
    expand_loop noEnv false [] 1 nestedDesign = some (.ok nestedOnce) ∧
    expand_loop noEnv false [] 1 nestedOnce = some (.ok nestedTwice) ∧
    nestedTwice ≠ nestedOnce ∧
    nestedOnce.cellAt "\\top" "\\u" = some (plainCell "\\u" "$array:0:1:\\sub") ∧
    nestedTwice.cellAt "\\top" "\\u" = some (plainCell "\\u" "\\sub") := by
  refine ⟨by rfl, by rfl, by decide, by decide, by decide⟩

/-- Claim C9 (amended).  If the expander loop ends without fatal error on a design and no
module of the resulting design has a name that begins with `$array:`, then the same
loop, run again on the resulting design with the same flags, deriver and libraries,
ends after its first sweep: that sweep reports no change and returns the design as it
is, with every module, cell type, parameter set and connection unchanged. -/
theorem expand_loop_idempotent (env : Env) (flag_check : Bool) (libdirs : List String)
    (fuel : Nat) (d d' : Design)
    (h : expand_loop env flag_check libdirs fuel d = some (.ok d'))
    (hnames : ∀ m ∈ d'.modules, startsWith "$array:" m.name = false) :
    expand_sweep env flag_check libdirs (d'.modules.map (·.name)) d' false = .ok (d', false) ∧
    expand_loop env flag_check libdirs 1 d' = some (.ok d') := by
  have hset := expand_loop_settled env flag_check libdirs fuel d d' h
  have hall : ∀ n m, d'.find n = some m → ∀ x ∈ m.cells,
      Settled env flag_check libdirs d' x ∧ startsWith "$array:" x.type = false := by
    intro n m hm x hx
    have hs := hset n m hm x hx
    refine ⟨hs, ?_⟩
    by_contra hp
    rw [Bool.not_eq_false] at hp
    obtain ⟨y, hy, hyn⟩ := (count_iff d' x.type).1 (hs.1 hp)
    have := hnames y hy
    rw [hyn, hp] at this
    exact Bool.noConfusion this
  have hsweep := expand_sweep_settled env flag_check libdirs d' hall (d'.modules.map (·.name))
  refine ⟨hsweep, ?_⟩
  rw [expand_loop, hsweep]

/-- Witness of `expand_loop_idempotent` on the array scenario. -/
theorem expand_loop_idempotent_witness :
    expand_loop noEnv false [] 1 arrayDesign = some (.ok arrayDesignDone) ∧
    expand_sweep noEnv false [] (arrayDesignDone.modules.map (·.name)) arrayDesignDone false =
      .ok (arrayDesignDone, false) ∧
    expand_loop noEnv false [] 1 arrayDesignDone = some (.ok arrayDesignDone) :=
  ⟨by rfl, expand_loop_idempotent noEnv false [] 1 arrayDesign arrayDesignDone (by rfl)
    (by decide)⟩

/-! ## Cell types after the expander loop -/

/-- Counterexample to claim C10 as stated: under strict checking the expander loop ends
without error on the nested scenario, and the cell of `top` keeps a type that begins
with `$array:` (the name of a module of the design). -/
theorem expand_loop_keeps_array_descriptor :
    expand_loop noEnv true [] 1 nestedDesign = some (.ok nestedOnce) ∧
    (⟨"\\top", [], [], [plainCell "\\u" "$array:0:1:\\sub"]⟩ : Module) ∈ nestedOnce.modules ∧
    startsWith "$array:" (plainCell "\\u" "$array:0:1:\\sub").type = true := by
  refine ⟨by rfl, by decide, by decide⟩

/-- Claim C10 (amended).  When the expander loop ends without fatal error under strict
checking, in a design whose module names are pairwise distinct, every cell of every
module has a type that is the name of a module of the design or begins with `$`; a
cell keeps a type that begins with `$array:` only if that type is itself the name of a
module of the design, so no cell keeps an array descriptor when no module is named
that way. -/
theorem expand_loop_resolved (env : Env) (libdirs : List String) (fuel : Nat) (d d' : Design)
    (h : expand_loop env true libdirs fuel d = some (.ok d'))
    (hnodup : (d'.modules.map (·.name)).Nodup) :
    ∀ m ∈ d'.modules, ∀ c ∈ m.cells,
      (d'.count c.type = true ∨ firstIsDollar c.type = true) ∧
      (startsWith "$array:" c.type = true → d'.count c.type = true) ∧
      ((∀ m' ∈ d'.modules, startsWith "$array:" m'.name = false) →
        startsWith "$array:" c.type = false) := by
  intro m hm c hc
  have hs := expand_loop_settled env true libdirs fuel d d' h m.name m
    (find_of_mem_nodup hnodup hm) c hc
  refine ⟨?_, hs.1, ?_⟩
  · by_cases hcount : d'.count c.type = true
    · exact Or.inl hcount
    · rw [Bool.not_eq_true] at hcount
      rcases (hs.2.2 hcount).2 with hd | ⟨_, hflag⟩
      · exact Or.inr hd
      · exact Bool.noConfusion hflag
  · intro hnames
    by_contra hp
    rw [Bool.not_eq_false] at hp
    obtain ⟨y, hy, hyn⟩ := (count_iff d' c.type).1 (hs.1 hp)
    have := hnames y hy
    rw [hyn, hp] at this
    exact Bool.noConfusion this

/-- Witness of `expand_loop_resolved` on the array scenario. -/
theorem expand_loop_resolved_witness :
    expand_loop noEnv true [] 1 arrayDesign = some (.ok arrayDesignDone) ∧
    ∀ m ∈ arrayDesignDone.modules, ∀ c ∈ m.cells,
      (arrayDesignDone.count c.type = true ∨ firstIsDollar c.type = true) ∧
      (startsWith "$array:" c.type = true → arrayDesignDone.count c.type = true) ∧
      ((∀ m' ∈ arrayDesignDone.modules, startsWith "$array:" m'.name = false) →
        startsWith "$array:" c.type = false) :=
  ⟨by rfl, expand_loop_resolved noEnv [] 1 arrayDesign arrayDesignDone (by rfl) (by decide)⟩

/-! ## Port inference: the fatal errors -/

theorem filter_not_mem_length {α : Type} [DecidableEq α] (S L : List α) (hS : S.Nodup)
    (hL : L.Nodup) (hsub : ∀ x ∈ L, x ∈ S) :
    (S.filter (fun x => decide (x ∉ L))).length + L.length = S.length := by
  have h1 := List.length_eq_length_filter_add (l := S) (fun x => decide (x ∈ L))
  have h2 : (S.filter (fun x => decide (x ∈ L))).length = L.length := by
    apply List.Perm.length_eq
    rw [List.perm_ext_iff_of_nodup (hS.filter _) hL]
    intro a
    simp only [List.mem_filter, decide_eq_true_eq]
    exact ⟨fun h => h.2, fun h => ⟨hsub a h, h⟩⟩
  have h3 : S.filter (fun x => !decide (x ∈ L)) = S.filter (fun x => decide (x ∉ L)) := by
    apply List.filter_congr
    intro x _
    simp
  rw [h3] at h1
  omega

theorem mem_setInsert_self (s : String) : ∀ l : List String, s ∈ setInsert s l
  | [] => by simp [setInsert]
  | a :: rest => by
    simp only [setInsert]
    by_cases h1 : a = s
    · rw [if_pos h1, h1]; exact List.mem_cons_self _ _
    · rw [if_neg h1]
      split
      · exact List.mem_cons_self _ _
      · exact List.mem_cons_of_mem _ (mem_setInsert_self s rest)

theorem mem_setInsert_of_mem (s x : String) : ∀ l : List String, x ∈ l → x ∈ setInsert s l
  | [], h => by simp at h
  | a :: rest, h => by
    simp only [setInsert]
    by_cases h1 : a = s
    · rw [if_pos h1]; exact h
    · rw [if_neg h1]
      split
      · exact List.mem_cons_of_mem _ h
      · rcases List.mem_cons.1 h with rfl | h
        · exact List.mem_cons_self _ _
        · exact List.mem_cons_of_mem _ (mem_setInsert_of_mem s x rest h)

theorem positional_names_mem (decls : List generate_port_decl_t) :
    ∀ names : List String,
      (∀ x ∈ names, x ∈ add_positional_names decls names) ∧
      ∀ x ∈ positional_names decls, x ∈ add_positional_names decls names := by
  unfold add_positional_names
  induction decls with
  | nil => intro names; exact ⟨fun x h => h, fun x h => by simp [positional_names] at h⟩
  | cons d rest ih =>
    intro names
    rw [List.foldl_cons, positional_names_cons]
    by_cases hpos : d.index > 0
    · rw [if_pos hpos, if_pos hpos]
      obtain ⟨i1, i2⟩ := ih (setInsert d.portname names)
      refine ⟨fun x hx => i1 x (mem_setInsert_of_mem _ _ _ hx), fun x hx => ?_⟩
      rcases List.mem_cons.1 hx with rfl | hx
      · exact i1 _ (mem_setInsert_self _ _)
      · exact i2 x hx
    · rw [if_neg hpos, if_neg hpos]
      exact ih names

theorem mem_all_indices (n : Nat) (i : Int) : i ∈ all_indices n ↔ 1 ≤ i ∧ i ≤ (n : Int) := by
  constructor
  · exact (all_indices_inv n).2 i
  · rintro ⟨h1, h2⟩
    unfold all_indices
    rw [List.mem_map]
    refine ⟨(i - 1).toNat, List.mem_range.2 (by omega), by omega⟩

theorem positional_indices_pos (decls : List generate_port_decl_t) :
    ∀ i ∈ positional_indices decls, 0 < i := by
  intro i hi
  unfold positional_indices at hi
  rw [List.mem_map] at hi
  obtain ⟨d, hd, rfl⟩ := hi
  simpa using (List.mem_filter.1 hd).2

theorem place_positional_mem (st : GenState) (decl : generate_port_decl_t) (hinv : st.Inv)
    (hpos : decl.index > 0) (hmem : decl.index ∈ st.indices) :
    ∃ st1, place_positional st decl = .ok st1 ∧
      st1.indices = st.indices.filter (fun i => decide (i ≠ decl.index)) := by
  unfold place_positional
  rw [if_pos hpos]
  simp only
  have hlen := (hinv.2 _ hmem)
  rw [if_neg (by rw [if_pos hmem]; omega), if_neg (not_not.2 hmem)]
  exact ⟨_, rfl, rfl⟩

theorem place_positional_not_mem (st : GenState) (decl : generate_port_decl_t)
    (hpos : decl.index > 0) (hmem : decl.index ∉ st.indices) :
    place_positional st decl = .error (.portConflict decl.index) := by
  unfold place_positional
  rw [if_pos hpos]
  simp only
  rw [if_neg (by rw [if_neg hmem]; omega), if_pos hmem]

/-- The loop over the declarations fails exactly when a declared position is not in the
set `indices` or is declared twice, and then with the conflict error. -/
theorem place_positionals_error :
    ∀ (decls : List generate_port_decl_t) (st : GenState), st.Inv →
      (∀ e, place_positionals decls st = .error e → ∃ i, e = .portConflict i) ∧
      ((∃ e, place_positionals decls st = .error e) ↔
        ¬ ((∀ i ∈ positional_indices decls, i ∈ st.indices) ∧
          (positional_indices decls).Nodup)) := by
  intro decls
  induction decls with
  | nil =>
    intro st _
    rw [place_positionals]
    refine ⟨fun e h => Except.noConfusion h, ⟨fun ⟨e, h⟩ => Except.noConfusion h, fun h => ?_⟩⟩
    exact absurd ⟨fun i hi => by simp [positional_indices] at hi,
      by simp [positional_indices]⟩ h
  | cons d rest ih =>
    intro st hinv
    rw [place_positionals, positional_indices_cons]
    by_cases hpos : d.index > 0
    · rw [if_pos hpos]
      by_cases hmem : d.index ∈ st.indices
      · obtain ⟨st1, h1, hidx⟩ := place_positional_mem st d hinv hpos hmem
        rw [h1]
        simp only
        obtain ⟨ih1, ih2⟩ := ih st1 (place_positional_inv st st1 d h1 hinv).1
        refine ⟨ih1, ?_⟩
        rw [ih2, hidx]
        apply not_congr
        simp only [List.mem_cons, forall_eq_or_imp, List.nodup_cons, List.mem_filter,
          decide_eq_true_eq]
        constructor
        · rintro ⟨h3, h4⟩
          exact ⟨⟨hmem, fun i hi => (h3 i hi).1⟩, fun hc => (h3 _ hc).2 rfl, h4⟩
        · rintro ⟨⟨_, h3⟩, h4, h5⟩
          exact ⟨fun i hi => ⟨h3 i hi, fun e => h4 (e ▸ hi)⟩, h5⟩
      · rw [place_positional_not_mem st d hpos hmem]
        refine ⟨fun e h => ⟨_, (Except.error.inj h).symm⟩, ⟨fun _ => ?_, fun _ => ⟨_, rfl⟩⟩⟩
        rintro ⟨h3, _⟩
        exact hmem (h3 _ (List.mem_cons_self _ _))
    · rw [if_neg hpos]
      have h1 : place_positional st d = .ok st := by
        unfold place_positional
        rw [if_neg hpos]
      rw [h1]
      exact ih st hinv

/-- The loop over the pending names, started with at least as many free positions as
names, fails exactly when a name matches no declaration, and then with the error
"Can't match port". -/
theorem place_wildcards_error (env : GenEnv) (decls : List generate_port_decl_t) :
    ∀ (names : List String) (st : GenState), st.Inv → names.length ≤ st.indices.length →
      (∀ e, place_wildcards env decls names st = .error e → ∃ p, e = .cantMatch p) ∧
      ((∃ e, place_wildcards env decls names st = .error e) ↔
        ∃ name ∈ names, matching_decl env decls name = none) := by
  intro names
  induction names with
  | nil =>
    intro st _ _
    rw [place_wildcards]
    exact ⟨fun e h => Except.noConfusion h,
      ⟨fun ⟨e, h⟩ => Except.noConfusion h, fun ⟨n, hn, _⟩ => by simp at hn⟩⟩
  | cons nm rest ih =>
    intro st hinv hlen
    rw [place_wildcards]
    cases hm : matching_decl env decls nm with
    | none =>
      simp only
      exact ⟨fun e h => ⟨_, (Except.error.inj h).symm⟩,
        ⟨fun _ => ⟨nm, List.mem_cons_self _ _, hm⟩, fun _ => ⟨_, rfl⟩⟩⟩
    | some decl =>
      simp only
      cases hidx : st.indices with
      | nil => rw [hidx] at hlen; simp at hlen
      | cons index tl =>
        simp only
        have hpw := hinv.1
        rw [hidx, List.pairwise_cons] at hpw
        have hnotin : index ∉ tl := fun hmem => lt_irrefl _ (hpw.1 index hmem)
        have hfilter : tl.filter (fun i => decide (i ≠ index)) = tl := by
          rw [List.filter_eq_self]
          intro a ha
          simp only [ne_eq, decide_not, Bool.not_eq_true', decide_eq_false_iff_not]
          exact fun e => hnotin (e ▸ ha)
        rw [hfilter]
        have hinv1 : GenState.Inv ⟨rest, tl,
            st.ports.set (index - 1).toNat { decl with portname := nm, index := index },
            widthMax st.portwidths nm 1⟩ := by
          refine ⟨hpw.2, ?_⟩
          intro i hi
          simp only [List.length_set]
          exact hinv.2 i (by rw [hidx]; exact List.mem_cons_of_mem _ hi)
        obtain ⟨ih1, ih2⟩ := ih _ hinv1 (by
          rw [hidx] at hlen
          simp only [List.length_cons] at hlen ⊢
          omega)
        refine ⟨ih1, ?_⟩
        rw [ih2]
        constructor
        · rintro ⟨n, hn, h⟩
          exact ⟨n, List.mem_cons_of_mem _ hn, h⟩
        · rintro ⟨n, hn, h⟩
          rcases List.mem_cons.1 hn with rfl | hn
          · rw [hm] at h; exact Option.noConfusion h
          · exact ⟨n, hn, h⟩

theorem pairwise_strLt_nodup (l : List String) (h : l.Pairwise (fun a b => strLt a b = true)) :
    l.Nodup := by
  unfold List.Nodup
  exact h.imp (fun hab => strLt_ne hab)

theorem pairwise_lt_nodup (l : List Int) (h : l.Pairwise (fun a b => a < b)) : l.Nodup := by
  unfold List.Nodup
  exact h.imp (fun hab => ne_of_lt hab)

/-- When the declarations with a position name pairwise different ports, the port
placement of `generate` ends with a fatal error if and only if a declared position
exceeds the number of ports, or a position is declared twice, or a pending port name
matches no declaration without a position; the error is then one of the `log_error`
calls, and no assertion fails. -/
theorem generate_ports_errors (env : GenEnv) (design : Design)
    (portdecls : List generate_port_decl_t) (celltype : String)
    (hnames : (positional_names portdecls).Nodup) :
    ((∃ e, generate_ports env design portdecls celltype = .error e) ↔
      (index_exceeds design portdecls celltype ∨ index_conflict portdecls ∨
        unmatched_port env design portdecls celltype)) ∧
    ∀ e, generate_ports env design portdecls celltype = .error e →
      (∃ i, e = .portConflict i) ∨ (∃ p, e = .cantMatch p) := by
  have hinv0 : GenState.Inv ⟨all_portnames design portdecls celltype,
      all_indices (all_portnames design portdecls celltype).length,
      List.replicate (all_portnames design portdecls celltype).length
        generate_port_decl_t.default, (observe design celltype).portwidths⟩ := by
    refine ⟨(all_indices_inv _).1, ?_⟩
    intro i hi
    simp only [List.length_replicate]
    exact (all_indices_inv _).2 i hi
  obtain ⟨pe1, pe2⟩ := place_positionals_error portdecls _ hinv0
  simp only at pe2
  have hab : ¬ ((∀ i ∈ positional_indices portdecls,
        i ∈ all_indices (all_portnames design portdecls celltype).length) ∧
        (positional_indices portdecls).Nodup) ↔
      (index_exceeds design portdecls celltype ∨ index_conflict portdecls) := by
    unfold index_exceeds index_conflict
    constructor
    · intro h
      by_cases hn : (positional_indices portdecls).Nodup
      · left
        by_contra hex
        apply h
        refine ⟨fun i hi => ?_, hn⟩
        rw [mem_all_indices]
        have := positional_indices_pos portdecls i hi
        refine ⟨by omega, ?_⟩
        by_contra hgt
        exact hex ⟨i, hi, by omega⟩
      · exact Or.inr hn
    · rintro (⟨i, hi, hgt⟩ | hn) ⟨h1, h2⟩
      · have := (mem_all_indices _ i).1 (h1 i hi)
        omega
      · exact hn h2
  have hunfold : generate_ports env design portdecls celltype =
      match place_positionals portdecls ⟨all_portnames design portdecls celltype,
        all_indices (all_portnames design portdecls celltype).length,
        List.replicate (all_portnames design portdecls celltype).length
          generate_port_decl_t.default, (observe design celltype).portwidths⟩ with
      | .error e => .error e
      | .ok st1 =>
        match place_wildcards env portdecls st1.portnames st1 with
        | .error e => .error e
        | .ok st2 =>
          if st2.indices = [] then .ok st2 else .error (.assertFailed "indices.empty()") := rfl
  rw [hunfold]
  cases h1 : place_positionals portdecls ⟨all_portnames design portdecls celltype,
      all_indices (all_portnames design portdecls celltype).length,
      List.replicate (all_portnames design portdecls celltype).length
        generate_port_decl_t.default, (observe design celltype).portwidths⟩ with
  | error e =>
    simp only
    have hcond := (pe2.1 ⟨e, h1⟩)
    rw [hab] at hcond
    refine ⟨⟨fun _ => ?_, fun _ => ⟨e, rfl⟩⟩, fun e' he' => Or.inl ?_⟩
    · rcases hcond with h | h
      · exact Or.inl h
      · exact Or.inr (Or.inl h)
    · rw [← Except.error.inj he']
      exact pe1 e h1
  | ok st1 =>
    simp only
    have hnab : ¬ (index_exceeds design portdecls celltype ∨ index_conflict portdecls) := by
      rw [← hab, ← pe2]
      rintro ⟨e, he⟩
      rw [h1] at he
      exact Except.noConfusion he
    have hgood : (∀ i ∈ positional_indices portdecls,
        i ∈ all_indices (all_portnames design portdecls celltype).length) ∧
        (positional_indices portdecls).Nodup := by
      by_contra hc
      exact hnab (hab.1 hc)
    obtain ⟨_, hpn, hpi⟩ := place_positionals_ok portdecls _ st1 h1 hinv0
    obtain ⟨i1, _, _, _⟩ := place_positionals_inv portdecls _ st1 h1 hinv0
    simp only at hpn hpi
    have hpend : st1.portnames = pending_names design portdecls celltype := hpn
    -- as many pending names as free positions
    have hlen : st1.portnames.length = st1.indices.length := by
      have c1 := filter_not_mem_length (all_portnames design portdecls celltype)
        (positional_names portdecls)
        (pairwise_strLt_nodup _ (all_portnames_sorted design portdecls celltype)) hnames
        (fun x hx => (positional_names_mem portdecls _).2 x hx)
      have c2 := filter_not_mem_length
        (all_indices (all_portnames design portdecls celltype).length)
        (positional_indices portdecls)
        (pairwise_lt_nodup _ (all_indices_inv _).1) hgood.2 hgood.1
      have l1 : (positional_names portdecls).length = (positional_indices portdecls).length := by
        unfold positional_names positional_indices
        rw [List.length_map, List.length_map]
      have l2 : (all_indices (all_portnames design portdecls celltype).length).length =
          (all_portnames design portdecls celltype).length := by
        unfold all_indices
        rw [List.length_map, List.length_range]
      rw [hpn, hpi]
      omega
    obtain ⟨we1, we2⟩ := place_wildcards_error env portdecls st1.portnames st1 i1 (le_of_eq hlen)
    cases h2 : place_wildcards env portdecls st1.portnames st1 with
    | error e =>
      simp only
      have hc : unmatched_port env design portdecls celltype := by
        unfold unmatched_port
        rw [← hpend]
        exact we2.1 ⟨e, h2⟩
      refine ⟨⟨fun _ => Or.inr (Or.inr hc), fun _ => ⟨e, rfl⟩⟩, fun e' he' => Or.inr ?_⟩
      rw [← Except.error.inj he']
      exact we1 e h2
    | ok st2 =>
      simp only
      obtain ⟨_, _, _, hdrop, _, _⟩ := place_wildcards_ok env portdecls _ st1 st2 h2 i1
      have hempty : st2.indices = [] := by
        rw [hdrop, hlen]
        exact List.drop_length _
      rw [if_pos hempty]
      refine ⟨⟨fun ⟨e, he⟩ => Except.noConfusion he, fun h => ?_⟩,
        fun e he => Except.noConfusion he⟩
      rcases h with h | h | h
      · exact absurd (Or.inl h) hnab
      · exact absurd (Or.inr h) hnab
      · exfalso
        unfold unmatched_port at h
        rw [← hpend] at h
        obtain ⟨e, he⟩ := we2.2 h
        rw [h2] at he
        exact Except.noConfusion he

/-! ## Propagation of the array errors -/

/-- The pruner always returns: the walk ends within its depth bound, and the result is
the design without the unused modules that are not retained. -/
theorem hierarchy_unfold (design : Design) (top : Module) (purge_lib first_pass : Bool)
    (htop : design.find top.name = some top) :
    ∃ U : List String, (∀ x, x ∈ U ↔ Reach design top.name x) ∧
      hierarchy design top purge_lib first_pass =
        some (hierarchy_delete purge_lib first_pass
          (design.modules.filter (fun m => decide (m.name ∉ U))) design) := by
  obtain ⟨U, hU, hreach⟩ := worker_top design top htop
  exact ⟨U, hreach, by simp only [hierarchy, hU]⟩

/-- Counterexample to claim C11 as stated: the unused blackbox module `lib` is kept
(`purge_lib` off) while `helper`, the type of its cell, is deleted. -/
theorem hierarchy_retained_names_deleted :
    hierarchy libDesign libTop false false = some ⟨[libCell, libTop]⟩ ∧
    libCell ∈ (Design.mk [libCell, libTop]).modules ∧
    plainCell "\\h" "\\helper" ∈ libCell.cells ∧
    libHelper ∈ libDesign.modules ∧ libHelper.name = (plainCell "\\h" "\\helper").type ∧
    libHelper ∉ (Design.mk [libCell, libTop]).modules := by
  refine ⟨by decide, by decide, by decide, by decide, by decide, by decide⟩

/-- Claim C11 (amended).  For every design with pairwise distinct module names, every
top module in it and all flag values, after `hierarchy(design, top, purge_lib,
first_pass)` no cell of a remaining module that is reachable from `top` has a type
naming a module that this call deleted: every module of the design named by such a
cell is still in the design. -/
theorem hierarchy_used_cells_kept (design : Design) (top : Module) (purge_lib first_pass : Bool)
    (hnodup : (design.modules.map (·.name)).Nodup) (htop : top ∈ design.modules) :
    ∃ d', hierarchy design top purge_lib first_pass = some d' ∧
      ∀ M ∈ d'.modules, Reach design top.name M.name →
        ∀ c ∈ M.cells, ∀ X ∈ design.modules, X.name = c.type → X ∈ d'.modules := by
  obtain ⟨U, hreach, hU⟩ := hierarchy_unfold design top purge_lib first_pass
    (find_of_mem_nodup hnodup htop)
  refine ⟨_, hU, ?_⟩
  intro M hM hMreach c hc X hX hXc
  rw [hierarchy_delete_mem] at hM ⊢
  refine ⟨hX, ?_⟩
  intro x hx _ hname
  simp only [List.mem_filter, decide_eq_true_eq] at hx
  apply hx.2
  rw [hname, hXc, hreach]
  refine Relation.ReflTransGen.tail hMreach ?_
  exact ⟨M, find_of_mem_nodup hnodup hM.1, c, hc, rfl, (count_iff design c.type).2 ⟨X, hX, hXc⟩⟩

/-- Witness of `hierarchy_used_cells_kept` on the pruning scenario. -/
theorem hierarchy_used_cells_kept_witness :
    (pruneDesign.modules.map (·.name)).Nodup ∧ pruneTop ∈ pruneDesign.modules ∧
    ∃ d', hierarchy pruneDesign pruneTop false false = some d' ∧
      ∀ M ∈ d'.modules, Reach pruneDesign pruneTop.name M.name →
        ∀ c ∈ M.cells, ∀ X ∈ pruneDesign.modules, X.name = c.type → X ∈ d'.modules :=
  ⟨by decide, by decide,
    hierarchy_used_cells_kept pruneDesign pruneTop false false (by decide) (by decide)⟩

/-- Counterexample to claim C15 as stated: `inner` is instantiated only from inside the
blackbox module `bb`, and the walk from `top` marks it used; the pruner keeps it even
with `purge_lib` on. -/
theorem hierarchy_worker_enters_blackbox :
    bbBox.get_bool_attribute "\\blackbox" = true ∧
    (∀ m ∈ bbDesign.modules, ∀ c ∈ m.cells, c.type = "\\inner" → m = bbBox) ∧
    hierarchy_worker bbDesign 4 [] bbTop = some ["\\inner", "\\bb", "\\top"] ∧
    hierarchy bbDesign bbTop true false = some bbDesign := by
  refine ⟨by decide, by decide, by decide, by decide⟩

/-- Claim C15 (amended).  The reachability walk makes no difference between blackbox
modules and other modules: when a module `B` flagged blackbox is reachable from `top`,
every module of the design that a cell of `B` names is marked used by
`hierarchy_worker`. -/
theorem hierarchy_worker_follows_blackbox (design : Design) (top : Module)
    (htop : design.find top.name = some top) (B : Module)
    (hB : design.find B.name = some B)
    (_hbb : B.get_bool_attribute "\\blackbox" = true)
    (hreach : Reach design top.name B.name) (c : Cell) (hc : c ∈ B.cells)
    (hcount : design.count c.type = true) :
    ∃ U, hierarchy_worker design (design.modules.length + 1) [] top = some U ∧
      B.name ∈ U ∧ c.type ∈ U := by
  obtain ⟨U, hU, hUreach⟩ := worker_top design top htop
  refine ⟨U, hU, (hUreach _).2 hreach, (hUreach _).2 ?_⟩
  exact Relation.ReflTransGen.tail hreach ⟨B, hB, c, hc, rfl, hcount⟩

/-- Witness of `hierarchy_worker_follows_blackbox` on the blackbox scenario. -/
theorem hierarchy_worker_follows_blackbox_witness :
    ∃ U, hierarchy_worker bbDesign (bbDesign.modules.length + 1) [] bbTop = some U ∧
      bbBox.name ∈ U ∧ (plainCell "\\i" "\\inner").type ∈ U :=
  hierarchy_worker_follows_blackbox bbDesign bbTop (by decide) bbBox (by decide) (by decide)
    (Relation.ReflTransGen.single ⟨bbTop, by decide, plainCell "\\u" "\\bb", by decide, rfl,
      by decide⟩)
    (plainCell "\\i" "\\inner") (by decide) (by decide)

/-! ## Termination of the walk -/

theorem worker_fold_nodup (d : Design) (fuel : Nat)
    (ih : ∀ used mod U, hierarchy_worker d fuel used mod = some U → used.Nodup → U.Nodup) :
    ∀ (cs : List Cell) (u U : List String),
      cs.foldlM (worker_step d fuel) u = some U → u.Nodup → U.Nodup := by
  intro cs
  induction cs with
  | nil =>
    intro u U h hu
    simp only [List.foldlM_nil, Option.pure_def, Option.some.injEq] at h
    exact h ▸ hu
  | cons c rest ihr =>
    intro u U h hu
    simp only [List.foldlM_cons, Option.bind_eq_bind] at h
    cases hstep : worker_step d fuel u c with
    | none => rw [hstep] at h; exact Option.noConfusion h
    | some u1 =>
      rw [hstep] at h
      simp only [Option.some_bind] at h
      refine ihr u1 U h ?_
      unfold worker_step at hstep
      cases hf : d.find c.type with
      | none =>
        rw [hf] at hstep
        exact (Option.some.inj hstep) ▸ hu
      | some m =>
        rw [hf] at hstep
        exact ih u m u1 hstep hu

/-- The walk enters every module at most once: no name is put twice into `used`. -/
theorem worker_nodup (d : Design) :
    ∀ (fuel : Nat) (used : List String) (mod : Module) (U : List String),
      hierarchy_worker d fuel used mod = some U → used.Nodup → U.Nodup := by
  intro fuel
  induction fuel with
  | zero =>
    intro used mod U h _
    rw [hierarchy_worker] at h
    exact Option.noConfusion h
  | succ fuel ih =>
    intro used mod U h hu
    rw [hierarchy_worker_succ] at h
    by_cases hin : mod.name ∈ used
    · rw [if_pos hin] at h
      exact (Option.some.inj h) ▸ hu
    · rw [if_neg hin] at h
      exact worker_fold_nodup d fuel ih mod.cells _ U h (List.nodup_cons.2 ⟨hin, hu⟩)

/-- Claim C16 (termination of the walk).  On every design, for every start module of
the design and every depth bound above the number of modules, `hierarchy_worker`
returns, also when modules instantiate themselves or each other in a cycle: no module
is entered twice (the set `used` has no repetition), and the set `used` is exactly the
set of the modules reachable from the start module. -/
theorem hierarchy_worker_terminates (design : Design) (start : Module)
    (hstart : design.find start.name = some start) (fuel : Nat)
    (hfuel : design.modules.length < fuel) :
    ∃ U, hierarchy_worker design fuel [] start = some U ∧ U.Nodup ∧
      ∀ x, x ∈ U ↔ Reach design start.name x := by
  have hun : unvisited design [] < fuel := by
    unfold unvisited
    exact lt_of_le_of_lt (List.length_filter_le _ _) hfuel
  obtain ⟨U, hU, hmem, hpost⟩ := worker_spec design fuel [] start hstart hun
  refine ⟨U, hU, worker_nodup design fuel [] start U hU List.nodup_nil, fun x => ⟨?_, ?_⟩⟩
  · intro hx
    obtain ⟨r, hr, hreach⟩ := hpost.reach x hx (by simp)
    exact hr ▸ hreach
  · intro hx
    induction hx with
    | refl => exact hmem
    | tail _ hbc ihb => exact hpost.closed _ ihb (by simp) _ hbc

/-- The walk on the design with a self-instantiation and a cycle, evaluated. -/
theorem hierarchy_worker_cycle_example :
    hierarchy_worker cycDesign 4 [] cycA = some ["\\b", "\\a"] := by
  decide

/-- Witness of `hierarchy_worker_terminates` on the design with a self-instantiation
and a cycle. -/
theorem hierarchy_worker_terminates_witness :
    ∃ U, hierarchy_worker cycDesign 4 [] cycA = some U ∧ U.Nodup ∧
      ∀ x, x ∈ U ↔ Reach cycDesign cycA.name x :=
  hierarchy_worker_terminates cycDesign cycA (by decide) 4 (by decide)

/-! ## Numbered keys in the array pass -/

theorem posKey_array_id (n : Nat) (hn : n < 2147483648) :
    substr (posKey n) 0 1 = "$" ∧ atoi (substrFrom (posKey n) 1).data = (n : Int) := by
  refine ⟨rfl, ?_⟩
  have := (posKey_spec n hn).2
  unfold positional_id at this
  exact this

/-- The check of one connection (lines 220-237) with a key `$N`, `1 ≤ N < 2^31`, against
a target with pairwise distinct wire names: when the target has a wire with
`port_id = N`, the connection is width-checked against the first such wire and against
no other wire, so the wire chosen has port position `N ≥ 1`; when the target has no wire
with `port_id = N` and no wire that is itself named `$N`, the check is the error
"connects to unkown port". -/
theorem array_conn_position (modname cellname : String) (mod : Module) (idx num : Int)
    (hwn : (mod.wires.map (·.name)).Nodup) (n : Nat) (hn : 1 ≤ n) (hlt : n < 2147483648)
    (sig : SigSpec) :
    (∀ w, mod.wires.find? (fun w => decide (w.port_id = (n : Int))) = some w →
      mod.findWire (array_portname mod (posKey n)) = some w ∧ w.port_id = (n : Int) ∧
      1 ≤ w.port_id ∧
      array_conn modname cellname mod idx num (posKey n, sig) =
        if (sig.length : Int) = w.width then .ok (posKey n, sig)
        else if (sig.length : Int) ≠ w.width * num then
          .error (.arrayInvalidSize modname cellname (posKey n))
        else .ok (posKey n, extract sig (w.width * idx) w.width)) ∧
    ((∀ w ∈ mod.wires, w.port_id ≠ (n : Int)) → mod.findWire (posKey n) = none →
      array_conn modname cellname mod idx num (posKey n, sig) =
        .error (.arrayUnknownPort modname cellname (posKey n))) := by
  obtain ⟨hk1, hk2⟩ := posKey_array_id n hlt
  constructor
  · intro w hw
    have hwmem : w ∈ mod.wires := List.mem_of_find?_eq_some hw
    have hwid : w.port_id = (n : Int) := by simpa using List.find?_some hw
    have hname : array_portname mod (posKey n) = w.name := by
      unfold array_portname
      rw [if_pos hk1]
      simp only [hk2, hw]
    have hfind : mod.findWire (array_portname mod (posKey n)) = some w := by
      rw [hname]
      unfold Module.findWire
      exact find?_of_mem_nodup (fun w : Wire => w.name) mod.wires hwn w hwmem
    refine ⟨hfind, hwid, by rw [hwid]; exact_mod_cast hn, ?_⟩
    unfold array_conn
    simp only [hfind]
  · intro hnone hnamed
    have hname : array_portname mod (posKey n) = posKey n := by
      unfold array_portname
      rw [if_pos hk1]
      simp only [hk2]
      have : mod.wires.find? (fun w => decide (w.port_id = (n : Int))) = none := by
        rw [List.find?_eq_none]
        intro w hw
        simpa using hnone w hw
      rw [this]
    unfold array_conn
    simp only [hname, hnamed]

/-- The key `$1` on the target of the array scenario is checked against the wire `d` at
position 1. -/
theorem array_conn_position_example :
    (∀ w, arraySub.wires.find? (fun w => decide (w.port_id = ((1 : Nat) : Int))) = some w →
      arraySub.findWire (array_portname arraySub (posKey 1)) = some w ∧
      w.port_id = ((1 : Nat) : Int) ∧ 1 ≤ w.port_id ∧
      array_conn "\\top" "\\u" arraySub 2 4 (posKey 1, arrayBus) =
        if (arrayBus.length : Int) = w.width then .ok (posKey 1, arrayBus)
        else if (arrayBus.length : Int) ≠ w.width * 4 then
          .error (.arrayInvalidSize "\\top" "\\u" (posKey 1))
        else .ok (posKey 1, extract arrayBus (w.width * 2) w.width)) ∧
    ((∀ w ∈ arraySub.wires, w.port_id ≠ ((1 : Nat) : Int)) →
      arraySub.findWire (posKey 1) = none →
      array_conn "\\top" "\\u" arraySub 2 4 (posKey 1, arrayBus) =
        .error (.arrayUnknownPort "\\top" "\\u" (posKey 1))) :=
  array_conn_position "\\top" "\\u" arraySub 2 4 (by decide) 1 (by decide) (by decide) arrayBus

/-! ## Connections kept by the remapper -/

theorem keySorted_nodup {β : Type} (l : List (String × β)) (h : KeySorted l) : l.Nodup := by
  unfold List.Nodup
  exact h.imp (fun hab e => strLt_ne hab (congrArg Prod.fst e))

/-- Counterexample to claim C20 as stated: the cell connects the port `clk` by the
position `$1` and by its name; both connections are stored under the key `clk`, so
the cell has one connection after the step and the signal `[7]` is gone.  The same
happens to the cell that connects by the keys `$1` and `$4294967297`, which both have
the position 1 as an `int`. -/
theorem remap_positionals_drops_connection :
    mixedDesign.WF ∧ has_positional mixedDesign mixedInst = true ∧
    mixedInst.connections_.length = 2 ∧ KeySorted mixedInst.connections_ ∧
    (remap_positionals mixedDesign).cellAt "\\top" "\\u" =
      some ⟨"\\u", "\\sub", [], [("\\clk", [9])]⟩ ∧
    (∀ x ∈ [("\\clk", ([9] : SigSpec))], x.2 ≠ [7]) ∧
    wideDesign.WF ∧ has_positional wideDesign wideInst = true ∧
    wideInst.connections_.length = 2 ∧ KeySorted wideInst.connections_ ∧
    (remap_positionals wideDesign).cellAt "\\top" "\\u" =
      some ⟨"\\u", "\\sub", [], [("\\clk", [9])]⟩ := by
  refine ⟨by unfold Design.WF; decide, by decide, by decide, by unfold KeySorted; decide,
    by decide, by decide, by unfold Design.WF; decide, by decide, by decide,
    by unfold KeySorted; decide, by decide⟩

/-- Claim C20 (amended).  In a design with well-formed maps, for every cell whose type
is a module `T` of the design and whose connections are stored by the remapper under
pairwise different keys (no port is connected twice, by two positions or by a position
and its name, the position of a key being the `int` that `atoi` reads from it): after
the remapping step the cell has as many connections as before, and every connection is
present with its signal under its new key. -/
theorem remap_positionals_keeps_all (design : Design) (hwf : design.WF) (m : Module)
    (hm : m ∈ design.modules) (c : Cell) (hc : c ∈ m.cells) (T : Module)
    (hT : design.find c.type = some T) (hsorted : KeySorted c.connections_)
    (hinj : ∀ a ∈ c.connections_, ∀ b ∈ c.connections_,
      target_key T a.1 = target_key T b.1 → a = b) :
    ∃ c', (remap_positionals design).cellAt m.name c.name = some c' ∧
      c'.connections_.length = c.connections_.length ∧
      ∀ conn ∈ c.connections_, (target_key T conn.1, conn.2) ∈ c'.connections_ := by
  have hcell := remap_positionals_cellAt design hwf m hm c hc
  by_cases hp : has_positional design c = true
  · rw [if_pos hp] at hcell
    have hkey := new_key_eq_target_key design hwf m hm c hc hp T hT
    have hmem : ∀ x, x ∈ remap_connections (build_pos_map design) c.type c.connections_ [] ↔
        ∃ conn ∈ c.connections_, x = (target_key T conn.1, conn.2) := by
      intro x
      rw [remap_connections_mem (build_pos_map design) c.type c.connections_
        (fun a ha b hb hab => hinj a ha b hb (by rw [← hkey, ← hkey]; exact hab)) x]
      simp only [hkey]
    refine ⟨_, hcell, ?_, fun conn hconn => (hmem _).2 ⟨conn, hconn, rfl⟩⟩
    show (remap_connections (build_pos_map design) c.type c.connections_ []).length = _
    have hnd1 := keySorted_nodup _
      (remap_connections_sorted (build_pos_map design) c.type c.connections_ [] List.Pairwise.nil)
    have hnd2 : (c.connections_.map (fun conn => (target_key T conn.1, conn.2))).Nodup := by
      apply List.Nodup.map_on _ (keySorted_nodup _ hsorted)
      intro a ha b hb hab
      exact hinj a ha b hb (congrArg Prod.fst hab)
    have hperm := (List.perm_ext_iff_of_nodup hnd1 hnd2).2 (fun x => by
      rw [hmem, List.mem_map]
      constructor
      · rintro ⟨conn, h1, h2⟩; exact ⟨conn, h1, h2.symm⟩
      · rintro ⟨conn, h1, h2⟩; exact ⟨conn, h1, h2.symm⟩)
    rw [hperm.length_eq, List.length_map]
  · rw [if_neg hp] at hcell
    refine ⟨c, hcell, rfl, ?_⟩
    intro conn hconn
    have hnp : is_positional conn.1 = false := by
      by_contra hcon
      rw [Bool.not_eq_false] at hcon
      apply hp
      unfold has_positional
      rw [Bool.and_eq_true, List.any_eq_true]
      exact ⟨by simp [Design.count, hT], conn, hconn, hcon⟩
    unfold target_key
    rw [hnp]
    exact hconn

/-- Witness of `remap_positionals_keeps_all` on the remapping scenario. -/
theorem remap_positionals_keeps_all_witness :
    ∃ c', (remap_positionals remapDesign).cellAt "\\top" "\\u" = some c' ∧
      c'.connections_.length = remapInst.connections_.length ∧
      ∀ conn ∈ remapInst.connections_, (target_key remapSub conn.1, conn.2) ∈ c'.connections_ :=
  remap_positionals_keeps_all remapDesign (by unfold Design.WF; decide)
    ⟨"\\top", [], [], [remapInst]⟩ (by decide) remapInst (by decide) remapSub (by decide)
    (by unfold KeySorted; decide) (by decide)

/-! ## The assertions of the generator -/

/-- Claim C19 (failing input).  With the declarations `i@1:\A`, `i@2:\A`, `i:*` and the
observed ports `B`, `C`, the loop over the declarations ends without error and leaves
one unused position for two pending port names; `B` receives it, and when `C` is about
to receive a position the set of unused positions is empty: the assertion
`!indices.empty()` fails, although no fatal error is reported. -/
theorem generate_assertion_fails :
    all_portnames dup2Design dupDecls "\\MUX2" = ["\\A", "\\B", "\\C"] ∧
    pending_names dup2Design dupDecls "\\MUX2" = ["\\B", "\\C"] ∧
    free_indices dup2Design dupDecls "\\MUX2" = [3] ∧
    (∀ name ∈ pending_names dup2Design dupDecls "\\MUX2",
      (matching_decl genEnv dupDecls name).isSome = true) ∧
    (∃ st, place_positionals dupDecls
        ⟨all_portnames dup2Design dupDecls "\\MUX2", all_indices 3,
          List.replicate 3 generate_port_decl_t.default,
          (observe dup2Design "\\MUX2").portwidths⟩ = .ok st ∧
      st.portnames = ["\\B", "\\C"] ∧ st.indices = [3]) ∧
    generate_ports genEnv dup2Design dupDecls "\\MUX2" =
      .error (.assertFailed "!indices.empty()") := by
  refine ⟨by decide, by decide, by decide, by decide, ⟨_, rfl, by decide, by decide⟩, by rfl⟩

/-! ## Port inference: the synthesized module -/

theorem generate_init_inv (design : Design) (portdecls : List generate_port_decl_t)
    (celltype : String) :
    GenState.Inv ⟨all_portnames design portdecls celltype,
      all_indices (all_portnames design portdecls celltype).length,
      List.replicate (all_portnames design portdecls celltype).length
        generate_port_decl_t.default, (observe design celltype).portwidths⟩ := by
  refine ⟨(all_indices_inv _).1, ?_⟩
  intro i hi
  simp only [List.length_replicate]
  exact (all_indices_inv _).2 i hi

/-- A completed port placement went through both loops and ended with the set `indices`
empty. -/
theorem generate_ports_unfold (env : GenEnv) (design : Design)
    (portdecls : List generate_port_decl_t) (celltype : String) (st : GenState)
    (h : generate_ports env design portdecls celltype = .ok st) :
    ∃ st1, place_positionals portdecls
        ⟨all_portnames design portdecls celltype,
          all_indices (all_portnames design portdecls celltype).length,
          List.replicate (all_portnames design portdecls celltype).length
            generate_port_decl_t.default, (observe design celltype).portwidths⟩ = .ok st1 ∧
      place_wildcards env portdecls st1.portnames st1 = .ok st ∧ st.indices = [] := by
  unfold generate_ports at h
  simp only at h
  cases h1 : place_positionals portdecls
      ⟨all_portnames design portdecls celltype,
        all_indices (all_portnames design portdecls celltype).length,
        List.replicate (all_portnames design portdecls celltype).length
          generate_port_decl_t.default, (observe design celltype).portwidths⟩ with
  | error e =>
    unfold all_portnames at h1
    rw [h1] at h
    exact Except.noConfusion h
  | ok st1 =>
    have h1c := h1
    unfold all_portnames at h1c
    rw [h1c] at h
    simp only at h
    cases h2 : place_wildcards env portdecls st1.portnames st1 with
    | error e => rw [h2] at h; exact Except.noConfusion h
    | ok st2 =>
      rw [h2] at h
      simp only at h
      by_cases hempty : st2.indices = []
      · rw [if_pos hempty] at h
        have hst : st2 = st := Except.ok.inj h
        subst hst
        exact ⟨st1, rfl, h2, hempty⟩
      · rw [if_neg hempty] at h
        exact Except.noConfusion h

/-- After a completed port placement the vector `ports` has one element per port name;
every declaration with a position, every pending name and every free position occurs
in it. -/
theorem generate_ports_slots (env : GenEnv) (design : Design)
    (portdecls : List generate_port_decl_t) (celltype : String) (st : GenState)
    (h : generate_ports env design portdecls celltype = .ok st) :
    st.ports.length = (all_portnames design portdecls celltype).length ∧
    (∀ decl ∈ portdecls, decl.index > 0 → st.ports[(decl.index - 1).toNat]? = some decl) ∧
    (∀ name ∈ pending_names design portdecls celltype,
      ∃ p ∈ st.ports, p.portname = name) ∧
    (∀ i ∈ free_indices design portdecls celltype, ∃ p ∈ st.ports, p.index = i) := by
  obtain ⟨st1, h1, h2, hempty⟩ := generate_ports_unfold env design portdecls celltype st h
  have hinv0 := generate_init_inv design portdecls celltype
  obtain ⟨hp, hnames, hidx⟩ := place_positionals_ok portdecls _ st1 h1 hinv0
  obtain ⟨i1, l1, s1, _⟩ := place_positionals_inv portdecls _ st1 h1 hinv0
  obtain ⟨_, l2, hle, hdrop, hframe, hw⟩ := place_wildcards_ok env portdecls _ st1 st h2 i1
  simp only at hnames hidx l1
  rw [List.length_replicate] at l1
  have hpn : pending_names design portdecls celltype = st1.portnames := by
    rw [hnames]; rfl
  have hfi : free_indices design portdecls celltype = st1.indices := by
    rw [hidx]; rfl
  have hlen : st1.indices.length = st1.portnames.length := by
    have := congrArg List.length hdrop
    rw [hempty, List.length_drop, List.length_nil] at this
    omega
  refine ⟨l2.trans l1, ?_, ?_, ?_⟩
  · intro decl hdecl hpos
    rw [hframe _ ?_ ?_]
    · exact hp decl hdecl hpos
    · omega
    · rw [hidx, List.mem_filter]
      rintro ⟨_, hnot⟩
      simp only [decide_eq_true_eq] at hnot
      apply hnot
      unfold positional_indices
      exact List.mem_map_of_mem _ (List.mem_filter.2 ⟨hdecl, by simpa using hpos⟩)
  · intro name hname
    rw [hpn] at hname
    obtain ⟨j, hj⟩ := List.mem_iff_getElem?.1 hname
    have hjlt : j < st1.portnames.length := by
      by_contra hge
      rw [List.getElem?_eq_none (by omega)] at hj
      exact Option.noConfusion hj
    obtain ⟨name', pos, decl, e1, _, _, e4⟩ := hw j hjlt
    rw [hj] at e1
    have : name' = name := (Option.some.inj e1).symm
    subst this
    exact ⟨_, List.mem_iff_getElem?.2 ⟨_, e4⟩, rfl⟩
  · intro i hi
    rw [hfi] at hi
    obtain ⟨j, hj⟩ := List.mem_iff_getElem?.1 hi
    have hjlt : j < st1.portnames.length := by
      by_contra hge
      rw [List.getElem?_eq_none (by omega)] at hj
      exact Option.noConfusion hj
    obtain ⟨name', pos, decl, _, e2, _, e4⟩ := hw j hjlt
    rw [hj] at e2
    have : pos = i := (Option.some.inj e2).symm
    subst this
    exact ⟨_, List.mem_iff_getElem?.2 ⟨_, e4⟩, rfl⟩

/-- After a completed port placement the port names of the vector `ports` are the port
names of the cell type, each once, and the positions are `1, ..., n`, each once. -/
theorem generate_ports_cover (env : GenEnv) (design : Design)
    (portdecls : List generate_port_decl_t) (celltype : String) (st : GenState)
    (h : generate_ports env design portdecls celltype = .ok st) :
    (st.ports.map (fun p => p.portname)).Perm (all_portnames design portdecls celltype) ∧
    (st.ports.map (fun p => p.index)).Perm (all_indices st.ports.length) := by
  obtain ⟨hlen, hdecl, hpend, hfree⟩ := generate_ports_slots env design portdecls celltype st h
  constructor
  · apply List.Perm.symm
    apply List.Subperm.perm_of_length_le
    · apply List.subperm_of_subset (pairwise_strLt_nodup _ (all_portnames_sorted _ _ _))
      intro name hname
      by_cases hpos : name ∈ positional_names portdecls
      · unfold positional_names at hpos
        rw [List.mem_map] at hpos
        obtain ⟨d, hd, rfl⟩ := hpos
        rw [List.mem_filter] at hd
        exact List.mem_map_of_mem _
          (List.mem_iff_getElem?.2 ⟨_, hdecl d hd.1 (by simpa using hd.2)⟩)
      · obtain ⟨p, hp, rfl⟩ := hpend name (by
          unfold pending_names
          exact List.mem_filter.2 ⟨hname, by simpa using hpos⟩)
        exact List.mem_map_of_mem _ hp
    · rw [List.length_map, hlen]
  · rw [hlen]
    apply List.Perm.symm
    apply List.Subperm.perm_of_length_le
    · apply List.subperm_of_subset (pairwise_lt_nodup _ (all_indices_inv _).1)
      intro i hi
      by_cases hpos : i ∈ positional_indices portdecls
      · unfold positional_indices at hpos
        rw [List.mem_map] at hpos
        obtain ⟨d, hd, rfl⟩ := hpos
        rw [List.mem_filter] at hd
        exact List.mem_map_of_mem _
          (List.mem_iff_getElem?.2 ⟨_, hdecl d hd.1 (by simpa using hd.2)⟩)
      · obtain ⟨p, hp, rfl⟩ := hfree i (by
          unfold free_indices
          exact List.mem_filter.2 ⟨hi, by simpa using hpos⟩)
        exact List.mem_map_of_mem _ hp
    · rw [List.length_map, hlen]
      unfold all_indices
      rw [List.length_map, List.length_range]

theorem insertWire_perm (w : Wire) :
    ∀ wires : List Wire, w.name ∉ wires.map (fun x => x.name) →
      (insertWire w wires).Perm (w :: wires)
  | [], _ => by simp [insertWire]
  | x :: rest, h => by
    simp only [List.map_cons, List.mem_cons, not_or] at h
    simp only [insertWire]
    rw [if_neg (fun e => h.1 e.symm)]
    by_cases h2 : strLt w.name x.name = true
    · rw [if_pos h2]
    · rw [if_neg h2]
      exact ((insertWire_perm w rest h.2).cons x).trans (List.Perm.swap w x rest)

/-- When the elements of `ports` have pairwise different names, none of them the name of
a wire already present, the loop of lines 120-125 adds one wire per element, with the
width stored for the name. -/
theorem generate_wires_perm (portwidths : List (String × Int)) :
    ∀ (ports : List generate_port_decl_t) (acc wires : List Wire),
      generate_wires portwidths ports acc = .ok wires →
      (ports.map (fun p => p.portname)).Nodup →
      (∀ p ∈ ports, p.portname ∉ acc.map (fun x => x.name)) →
      wires.Perm (ports.map (fun p =>
        (⟨p.portname, widthOf portwidths p.portname, p.index, p.input, p.output⟩ : Wire)) ++ acc) := by
  intro ports
  induction ports with
  | nil =>
    intro acc wires h _ _
    rw [generate_wires] at h
    rw [← Except.ok.inj h]
    exact List.Perm.refl _
  | cons d rest ih =>
    intro acc wires h hnd hacc
    rw [generate_wires] at h
    cases hl : lookup d.portname portwidths with
    | none => rw [hl] at h; exact Except.noConfusion h
    | some width =>
      rw [hl] at h
      simp only at h
      rw [List.map_cons, List.nodup_cons] at hnd
      have hw : widthOf portwidths d.portname = width := by
        unfold widthOf
        rw [hl]
        rfl
      have hperm := insertWire_perm ⟨d.portname, width, d.index, d.input, d.output⟩ acc
        (hacc d (List.mem_cons_self _ _))
      have hrest : ∀ p ∈ rest, p.portname ∉
          (insertWire ⟨d.portname, width, d.index, d.input, d.output⟩ acc).map (fun x => x.name) := by
        intro p hp hmem
        have hmem2 := (hperm.map (fun x => x.name)).subset hmem
        rw [List.map_cons, List.mem_cons] at hmem2
        rcases hmem2 with e | hm
        · have e2 : p.portname = d.portname := e
          exact hnd.1 (by rw [← e2]; exact List.mem_map_of_mem (fun p => p.portname) hp)
        · exact hacc p (List.mem_cons_of_mem _ hp) hm
      have h3 := ih _ wires h hnd.2 hrest
      rw [List.map_cons, hw]
      refine h3.trans ?_
      refine (List.Perm.append_left _ hperm).trans ?_
      exact List.perm_middle

/-- The module synthesized for one cell type: its name, its only attribute, and one wire
per element of the vector `ports` of the completed port placement. -/
theorem generate_module_wires (env : GenEnv) (design : Design)
    (portdecls : List generate_port_decl_t) (celltype : String) (mod : Module)
    (h : generate_module env design portdecls celltype = .ok mod) :
    ∃ st, generate_ports env design portdecls celltype = .ok st ∧
      mod.name = celltype ∧ mod.attributes = [("\\blackbox", Const.one)] ∧ mod.cells = [] ∧
      mod.wires.Perm (st.ports.map (fun p =>
        (⟨p.portname, widthOf st.portwidths p.portname, p.index, p.input, p.output⟩ : Wire))) := by
  unfold generate_module at h
  cases h1 : generate_ports env design portdecls celltype with
  | error e => rw [h1] at h; exact Except.noConfusion h
  | ok st =>
    rw [h1] at h
    simp only at h
    cases h2 : generate_wires st.portwidths st.ports [] with
    | error e => rw [h2] at h; exact Except.noConfusion h
    | ok wires =>
      rw [h2] at h
      simp only at h
      have hm := Except.ok.inj h
      subst hm
      refine ⟨st, rfl, rfl, rfl, rfl, ?_⟩
      have hnd : (st.ports.map (fun p => p.portname)).Nodup :=
        (generate_ports_cover env design portdecls celltype st h1).1.nodup_iff.2
          (pairwise_strLt_nodup _ (all_portnames_sorted _ _ _))
      have := generate_wires_perm st.portwidths st.ports [] wires h2 hnd (fun _ _ hm => by simp at hm)
      rw [List.append_nil] at this
      exact this

/-- The module synthesized for one cell type is flagged as blackbox, and the port
positions of its wires are pairwise different and are exactly `1, ..., k` for the
number `k` of its wires. -/
theorem generate_module_port_ids (env : GenEnv) (design : Design)
    (portdecls : List generate_port_decl_t) (celltype : String) (mod : Module)
    (h : generate_module env design portdecls celltype = .ok mod) :
    mod.name = celltype ∧ mod.get_bool_attribute "\\blackbox" = true ∧
    (mod.wires.map (fun w => w.port_id)).Nodup ∧
    ∀ i : Int, i ∈ mod.wires.map (fun w => w.port_id) ↔ 1 ≤ i ∧ i ≤ (mod.wires.length : Int) := by
  obtain ⟨st, h1, hname, hattr, _, hperm⟩ :=
    generate_module_wires env design portdecls celltype mod h
  have hcover := (generate_ports_cover env design portdecls celltype st h1).2
  have hids : (mod.wires.map (fun w => w.port_id)).Perm (all_indices st.ports.length) := by
    refine (hperm.map (fun w => w.port_id)).trans ?_
    rw [List.map_map]
    exact hcover
  have hlen : mod.wires.length = st.ports.length := by
    rw [hperm.length_eq, List.length_map]
  refine ⟨hname, ?_, ?_, ?_⟩
  · unfold Module.get_bool_attribute
    rw [hattr]
    rfl
  · exact hids.nodup_iff.2 (pairwise_lt_nodup _ (all_indices_inv _).1)
  · intro i
    rw [hids.mem_iff, mem_all_indices, hlen]

/-! ## Port inference: the loop over the found cell types -/

theorem find_insertModule_self (m : Module) :
    ∀ l : List Module, (Design.mk (insertModule m l)).find m.name = some m
  | [] => by simp [insertModule, Design.find]
  | a :: rest => by
    have ih := find_insertModule_self m rest
    unfold Design.find at ih ⊢
    simp only [insertModule]
    by_cases h1 : a.name = m.name
    · rw [if_pos h1]
      simp
    · rw [if_neg h1]
      by_cases h2 : strLt m.name a.name = true
      · rw [if_pos h2]
        simp
      · rw [if_neg h2, List.find?_cons_of_neg _ (by simpa using h1)]
        exact ih

theorem find_insertModule_ne (m : Module) (n : String) (hne : n ≠ m.name) :
    ∀ l : List Module, (Design.mk (insertModule m l)).find n = (Design.mk l).find n
  | [] => by
    unfold Design.find
    simp only [insertModule]
    rw [List.find?_cons_of_neg _ (by simpa using fun e => hne e.symm)]
  | a :: rest => by
    have ih := find_insertModule_ne m n hne rest
    unfold Design.find at ih ⊢
    simp only [insertModule]
    by_cases h1 : a.name = m.name
    · rw [if_pos h1, List.find?_cons_of_neg _ (by simpa using fun e => hne e.symm),
        List.find?_cons_of_neg _ (by simpa using fun e => hne (h1 ▸ e.symm))]
    · rw [if_neg h1]
      by_cases h2 : strLt m.name a.name = true
      · rw [if_pos h2, List.find?_cons_of_neg _ (by simpa using fun e => hne e.symm)]
      · rw [if_neg h2]
        by_cases h3 : a.name = n
        · rw [List.find?_cons_of_pos _ (by simpa using h3),
            List.find?_cons_of_pos _ (by simpa using h3)]
        · rw [List.find?_cons_of_neg _ (by simpa using h3),
            List.find?_cons_of_neg _ (by simpa using h3)]
          exact ih

/-- A new module without cells leaves the cells of the design as they are. -/
theorem allCells_insertModule (m : Module) (hcells : m.cells = []) :
    ∀ l : List Module, (∀ x ∈ l, x.name ≠ m.name) →
      (Design.mk (insertModule m l)).allCells = (Design.mk l).allCells
  | [], _ => by simp [insertModule, Design.allCells, hcells]
  | a :: rest, h => by
    have ih := allCells_insertModule m hcells rest
      (fun x hx => h x (List.mem_cons_of_mem _ hx))
    unfold Design.allCells at ih ⊢
    simp only [insertModule]
    rw [if_neg (h a (List.mem_cons_self _ _))]
    by_cases h2 : strLt m.name a.name = true
    · rw [if_pos h2]
      simp [hcells]
    · rw [if_neg h2]
      simp only [List.flatMap_cons] at ih ⊢
      rw [ih]

/-- The module synthesized for a cell type depends on the design through its cells only. -/
theorem generate_module_congr (env : GenEnv) (d1 d2 : Design)
    (portdecls : List generate_port_decl_t) (celltype : String)
    (h : d1.allCells = d2.allCells) :
    generate_module env d1 portdecls celltype = generate_module env d2 portdecls celltype := by
  unfold generate_module generate_ports observe
  rw [h]

theorem found_celltypes_spec (env : GenEnv) (design : Design) (celltypes : List String) :
    (found_celltypes env design celltypes).Pairwise (fun a b => strLt a b = true) ∧
    ∀ ct ∈ found_celltypes env design celltypes, design.count ct = false := by
  unfold found_celltypes
  have inner : ∀ (t : String) (pats : List String) (found : List String),
      found.Pairwise (fun a b => strLt a b = true) → (∀ ct ∈ found, design.count ct = false) →
      design.count t = false →
      (pats.foldl (fun found pattern =>
          if env.fnmatch pattern (env.unescape_id t) then setInsert t found else found)
        found).Pairwise (fun a b => strLt a b = true) ∧
      ∀ ct ∈ pats.foldl (fun found pattern =>
          if env.fnmatch pattern (env.unescape_id t) then setInsert t found else found)
        found, design.count ct = false := by
    intro t pats
    induction pats with
    | nil => intro found h1 h2 _; exact ⟨h1, h2⟩
    | cons p rest ih =>
      intro found h1 h2 ht
      rw [List.foldl_cons]
      apply ih _ _ _ ht
      · split
        · exact setInsert_sorted _ _ h1
        · exact h1
      · intro ct hct
        split at hct
        · rcases mem_setInsert_imp _ _ _ hct with e | hm
          · rw [e]; exact ht
          · exact h2 ct hm
        · exact h2 ct hct
  have outer : ∀ (cells : List Cell) (found : List String),
      found.Pairwise (fun a b => strLt a b = true) → (∀ ct ∈ found, design.count ct = false) →
      (cells.foldl (fun found cell =>
          if firstIsDollar cell.type || design.count cell.type then found
          else celltypes.foldl (fun found pattern =>
            if env.fnmatch pattern (env.unescape_id cell.type) then setInsert cell.type found
            else found) found) found).Pairwise (fun a b => strLt a b = true) ∧
      ∀ ct ∈ cells.foldl (fun found cell =>
          if firstIsDollar cell.type || design.count cell.type then found
          else celltypes.foldl (fun found pattern =>
            if env.fnmatch pattern (env.unescape_id cell.type) then setInsert cell.type found
            else found) found) found, design.count ct = false := by
    intro cells
    induction cells with
    | nil => intro found h1 h2; exact ⟨h1, h2⟩
    | cons c rest ih =>
      intro found h1 h2
      rw [List.foldl_cons]
      by_cases hc : (firstIsDollar c.type || design.count c.type) = true
      · rw [if_pos hc]
        exact ih found h1 h2
      · rw [if_neg hc]
        have hcount : design.count c.type = false := by
          cases hcc : design.count c.type
          · rfl
          · rw [hcc, Bool.or_true] at hc
            exact absurd rfl hc
        obtain ⟨i1, i2⟩ := inner c.type celltypes found h1 h2 hcount
        exact ih _ i1 i2
  exact outer _ [] List.Pairwise.nil (fun _ h => by simp at h)

/-- The loop over the found cell types stores, for each of them, the module synthesized
from the cells of the design the loop started with. -/
theorem generate_loop_find (env : GenEnv) (portdecls : List generate_port_decl_t) :
    ∀ (cts : List String) (d d' : Design),
      generate_loop env portdecls cts d = .ok d' → cts.Nodup →
      (∀ ct ∈ cts, d.count ct = false) →
      d'.allCells = d.allCells ∧ (∀ n, n ∉ cts → d'.find n = d.find n) ∧
      ∀ ct ∈ cts, ∃ mod, generate_module env d portdecls ct = .ok mod ∧
        d'.find ct = some mod := by
  intro cts
  induction cts with
  | nil =>
    intro d d' h _ _
    rw [generate_loop] at h
    rw [← Except.ok.inj h]
    exact ⟨rfl, fun _ _ => rfl, fun _ h => by simp at h⟩
  | cons ct rest ih =>
    intro d d' h hnd hcount
    rw [generate_loop] at h
    rw [List.nodup_cons] at hnd
    cases hm : generate_module env d portdecls ct with
    | error e => rw [hm] at h; exact Except.noConfusion h
    | ok mod =>
      rw [hm] at h
      simp only at h
      obtain ⟨_, _, hname, _, hcells, _⟩ := generate_module_wires env d portdecls ct mod hm
      have hfresh : ∀ x ∈ d.modules, x.name ≠ mod.name := by
        intro x hx e
        have := (count_iff d ct).2 ⟨x, hx, e.trans hname⟩
        rw [hcount ct (List.mem_cons_self _ _)] at this
        exact Bool.noConfusion this
      have hall : (Design.mk (insertModule mod d.modules)).allCells = d.allCells :=
        allCells_insertModule mod hcells d.modules hfresh
      have hcount1 : ∀ c ∈ rest, (Design.mk (insertModule mod d.modules)).count c = false := by
        intro c hc
        cases hcc : (Design.mk (insertModule mod d.modules)).count c
        · rfl
        · rcases (count_insertModule mod d c).1 hcc with e | e
          · rw [e, hname] at hc
            exact absurd hc hnd.1
          · rw [hcount c (List.mem_cons_of_mem _ hc)] at e
            exact Bool.noConfusion e
      obtain ⟨i1, i2, i3⟩ := ih _ d' h hnd.2 hcount1
      refine ⟨i1.trans hall, ?_, ?_⟩
      · intro n hn
        rw [List.mem_cons, not_or] at hn
        rw [i2 n hn.2]
        exact find_insertModule_ne mod n (by rw [hname]; exact hn.1) d.modules
      · intro c hc
        rcases List.mem_cons.1 hc with rfl | hc
        · refine ⟨mod, hm, ?_⟩
          rw [i2 c hnd.1, ← hname]
          exact find_insertModule_self mod d.modules
        · obtain ⟨mod2, g1, g2⟩ := i3 c hc
          refine ⟨mod2, ?_, g2⟩
          rw [← g1]
          exact (generate_module_congr env _ _ portdecls c hall).symm

/-- When `generate` completes, every found cell type is stored in the design with the
module synthesized for it from the cells of the initial design. -/
theorem generate_find (env : GenEnv) (design design' : Design) (celltypes : List String)
    (portdecls : List generate_port_decl_t)
    (h : generate env design celltypes portdecls = .ok design') :
    ∀ ct ∈ found_celltypes env design celltypes,
      ∃ mod, generate_module env design portdecls ct = .ok mod ∧ design'.find ct = some mod := by
  obtain ⟨hs, hc⟩ := found_celltypes_spec env design celltypes
  exact (generate_loop_find env portdecls _ design design' h (pairwise_strLt_nodup _ hs) hc).2.2

/-- Claim C13 (ports of a synthesized module).  When `generate` completes, every found
cell type is stored in the design with a module of that name whose attribute
`blackbox` is true and whose wires carry port positions that are pairwise different
and are exactly the numbers `1, ..., k`, where `k` is the number of wires of the
module. -/
theorem generate_blackbox_ports (env : GenEnv) (design design' : Design)
    (celltypes : List String) (portdecls : List generate_port_decl_t)
    (h : generate env design celltypes portdecls = .ok design') :
    ∀ celltype ∈ found_celltypes env design celltypes,
      ∃ mod, design'.find celltype = some mod ∧ mod.name = celltype ∧
        mod.get_bool_attribute "\\blackbox" = true ∧
        (mod.wires.map (fun w => w.port_id)).Nodup ∧
        ∀ i : Int, i ∈ mod.wires.map (fun w => w.port_id) ↔
          1 ≤ i ∧ i ≤ (mod.wires.length : Int) := by
  intro celltype hct
  obtain ⟨mod, hm, hfind⟩ := generate_find env design design' celltypes portdecls h celltype hct
  exact ⟨mod, hfind, generate_module_port_ids env design portdecls celltype mod hm⟩

/-- Witness of `generate_blackbox_ports` on the inference scenario: `generate` completes
for the found cell type `MUX2`. -/
theorem generate_blackbox_ports_witness :
    generate genEnv muxDesign ["MUX*"] muxDecls = .ok muxGenerated ∧
    found_celltypes genEnv muxDesign ["MUX*"] = ["\\MUX2"] ∧
    ∀ celltype ∈ found_celltypes genEnv muxDesign ["MUX*"],
      ∃ mod, muxGenerated.find celltype = some mod ∧ mod.name = celltype ∧
        mod.get_bool_attribute "\\blackbox" = true ∧
        (mod.wires.map (fun w => w.port_id)).Nodup ∧
        ∀ i : Int, i ∈ mod.wires.map (fun w => w.port_id) ↔
          1 ≤ i ∧ i ≤ (mod.wires.length : Int) :=
  ⟨by rfl, by decide,
    generate_blackbox_ports genEnv muxDesign muxGenerated ["MUX*"] muxDecls (by rfl)⟩

/-! ## Port inference: the widths -/

theorem widthOf_widthMax (pw : List (String × Int)) (k : String) (v : Int) (key : String) :
    widthOf (widthMax pw k v) key =
      if k = key then max (widthOf pw key) v else widthOf pw key := by
  unfold widthMax
  unfold widthOf
  rw [lookup_mapInsert]
  by_cases h : k = key
  · subst h
    rw [if_pos rfl, if_pos rfl]
    rfl
  · rw [if_neg h, if_neg h]

theorem widthOf_widthTouch (pw : List (String × Int)) (k key : String) :
    widthOf (widthTouch pw k) key = widthOf pw key := by
  unfold widthTouch
  cases hl : lookup k pw with
  | some v => rfl
  | none =>
    simp only
    unfold widthOf
    rw [lookup_mapInsert]
    by_cases h : k = key
    · subst h
      rw [if_pos rfl, hl]
      rfl
    · rw [if_neg h]

theorem observe_conns_width (key : String) :
    ∀ (conns : List (String × SigSpec)) (obs : Observed),
      widthOf (observe_conns obs conns).portwidths key =
        (conns.filter (fun conn => conn.1 = key)).foldl
          (fun acc conn => max acc (conn.2.length : Int)) (widthOf obs.portwidths key)
  | [], obs => rfl
  | conn :: rest, obs => by
    have ih := observe_conns_width key rest
      { obs with
        portnames := if firstIsDollar conn.1 then obs.portnames else setInsert conn.1 obs.portnames
        portwidths := widthMax obs.portwidths conn.1 conn.2.length }
    unfold observe_conns at ih ⊢
    rw [List.foldl_cons, ih]
    simp only [widthOf_widthMax]
    by_cases h : conn.1 = key
    · rw [List.filter_cons_of_pos (by simpa using h), List.foldl_cons, if_pos h]
    · rw [List.filter_cons_of_neg (by simpa using h), if_neg h]

/-- The width collected by the scan of lines 58-68 under a key is the maximum bit width
observed for that key. -/
theorem observe_width (design : Design) (celltype key : String) :
    widthOf (observe design celltype).portwidths key = max_observed design celltype key := by
  unfold observe max_observed
  have : ∀ (cells : List Cell) (obs : Observed),
      widthOf (cells.foldl (fun obs cell =>
          if cell.type = celltype then
            let obs1 := observe_conns obs cell.connections_
            { obs1 with
              parameters := cell.parameters.foldl (fun ps para => setInsert para.1 ps)
                obs1.parameters }
          else obs) obs).portwidths key =
        (((cells.filter (fun c => c.type = celltype)).flatMap
          (fun c => c.connections_)).filter (fun conn => conn.1 = key)).foldl
          (fun acc conn => max acc (conn.2.length : Int)) (widthOf obs.portwidths key) := by
    intro cells
    induction cells with
    | nil => intro obs; rfl
    | cons c rest ih =>
      intro obs
      rw [List.foldl_cons, ih]
      by_cases h : c.type = celltype
      · rw [if_pos h, List.filter_cons_of_pos (by simpa using h), List.flatMap_cons,
          List.filter_append, List.foldl_append]
        simp only
        rw [observe_conns_width]
      · rw [if_neg h, List.filter_cons_of_neg (by simpa using h)]
  exact this _ _

theorem firstIsDollar_index_key (index : Int) : firstIsDollar (index_key index) = true := by
  simp [firstIsDollar, index_key]

/-- The widths after one declaration with a position whose port name does not begin
with `$` (lines 82-83). -/
theorem place_positional_width (st st' : GenState) (decl : generate_port_decl_t)
    (h : place_positional st decl = .ok st') (hpos : decl.index > 0)
    (hd : firstIsDollar decl.portname = false) (key : String) :
    widthOf st'.portwidths key =
      if decl.portname = key then
        max (max (widthOf st.portwidths key) 1) (widthOf st.portwidths (index_key decl.index))
      else widthOf st.portwidths key := by
  have hne : decl.portname ≠ index_key decl.index := by
    intro e
    rw [e, firstIsDollar_index_key] at hd
    exact Bool.noConfusion hd
  unfold place_positional at h
  rw [if_pos hpos] at h
  simp only at h
  by_cases hc : (if decl.index ∈ st.indices then 1 else 0) > st.ports.length
  · rw [if_pos hc] at h
    exact Except.noConfusion h
  · rw [if_neg hc] at h
    by_cases hmem : decl.index ∈ st.indices
    · rw [if_neg (not_not.2 hmem)] at h
      rw [← Except.ok.inj h]
      simp only [widthOf_widthMax, widthOf_widthTouch]
      have hk : (String.mk ('$' :: (toString decl.index).data)) = index_key decl.index := rfl
      rw [hk, if_neg hne]
      by_cases e : decl.portname = key
      · simp only [if_pos e]
      · simp only [if_neg e]
    · rw [if_pos hmem] at h
      exact Except.noConfusion h

/-- The widths after the loop over the declarations, when the declarations with a
position name pairwise different ports, none beginning with `$`. -/
theorem place_positionals_width :
    ∀ (decls : List generate_port_decl_t) (st st' : GenState),
      place_positionals decls st = .ok st' → (positional_names decls).Nodup →
      (∀ d ∈ decls, d.index > 0 → firstIsDollar d.portname = false) →
      ∀ key : String,
        (key ∉ positional_names decls → widthOf st'.portwidths key = widthOf st.portwidths key) ∧
        (firstIsDollar key = true → widthOf st'.portwidths key = widthOf st.portwidths key) ∧
        ∀ d ∈ decls, d.index > 0 → d.portname = key →
          widthOf st'.portwidths key =
            max (max (widthOf st.portwidths key) 1) (widthOf st.portwidths (index_key d.index)) := by
  intro decls
  induction decls with
  | nil =>
    intro st st' h _ _ key
    rw [place_positionals] at h
    rw [← Except.ok.inj h]
    exact ⟨fun _ => rfl, fun _ => rfl, fun d hd => by simp at hd⟩
  | cons d rest ih =>
    intro st st' h hnd hdollar key
    rw [place_positionals] at h
    cases h1 : place_positional st d with
    | error e => rw [h1] at h; exact Except.noConfusion h
    | ok st1 =>
      rw [h1] at h
      simp only at h
      rw [positional_names_cons] at hnd ⊢
      by_cases hpos : d.index > 0
      · rw [if_pos hpos] at hnd ⊢
        rw [List.nodup_cons] at hnd
        have hd := hdollar d (List.mem_cons_self _ _) hpos
        have hw := place_positional_width st st1 d h1 hpos hd
        obtain ⟨i1, i2, i3⟩ := ih st1 st' h hnd.2
          (fun x hx => hdollar x (List.mem_cons_of_mem _ hx)) key
        refine ⟨?_, ?_, ?_⟩
        · intro hk
          rw [List.mem_cons, not_or] at hk
          rw [i1 hk.2, hw key, if_neg (fun e => hk.1 e.symm)]
        · intro hk
          rw [i2 hk, hw key, if_neg (fun e => by rw [e, hk] at hd; exact Bool.noConfusion hd)]
        · intro x hx hxpos hxkey
          rcases List.mem_cons.1 hx with rfl | hx
          · rw [i1 (by rw [← hxkey]; exact hnd.1), hw key, if_pos hxkey]
          · have hne : d.portname ≠ key := by
              intro e
              apply hnd.1
              rw [e, ← hxkey]
              unfold positional_names
              exact List.mem_map_of_mem _ (List.mem_filter.2 ⟨hx, by simpa using hxpos⟩)
            rw [i3 x hx hxpos hxkey, hw key, if_neg hne, hw (index_key x.index),
              if_neg (fun e => by
                rw [e, firstIsDollar_index_key] at hd; exact Bool.noConfusion hd)]
      · rw [if_neg hpos] at hnd ⊢
        have hst : st1 = st := (place_positional_ok st st1 d h1).2 hpos
        rw [hst] at h
        obtain ⟨i1, i2, i3⟩ := ih st st' h hnd
          (fun x hx => hdollar x (List.mem_cons_of_mem _ hx)) key
        refine ⟨i1, i2, ?_⟩
        intro x hx hxpos hxkey
        rcases List.mem_cons.1 hx with rfl | hx
        · exact absurd hxpos hpos
        · exact i3 x hx hxpos hxkey

/-- The widths after the loop over the pending names (line 104). -/
theorem place_wildcards_width (env : GenEnv) (decls : List generate_port_decl_t) :
    ∀ (names : List String) (st st' : GenState),
      place_wildcards env decls names st = .ok st' →
      ∀ key : String, widthOf st'.portwidths key =
        if key ∈ names then max (widthOf st.portwidths key) 1 else widthOf st.portwidths key := by
  intro names
  induction names with
  | nil =>
    intro st st' h key
    rw [place_wildcards] at h
    rw [← Except.ok.inj h]
    simp
  | cons nm rest ih =>
    intro st st' h key
    rw [place_wildcards] at h
    cases hm : matching_decl env decls nm with
    | none => rw [hm] at h; exact Except.noConfusion h
    | some decl =>
      rw [hm] at h
      simp only at h
      cases hidx : st.indices with
      | nil => rw [hidx] at h; exact Except.noConfusion h
      | cons index tl =>
        rw [hidx] at h
        simp only at h
        rw [ih _ st' h key]
        simp only [widthOf_widthMax, List.mem_cons]
        by_cases e1 : nm = key
        · subst e1
          by_cases e2 : nm ∈ rest
          · simp [e2]
          · simp [e2]
        · have e1s : ¬ key = nm := fun e => e1 e.symm
          by_cases e2 : key ∈ rest
          · simp [e1, e1s, e2]
          · simp [e1, e1s, e2]

/-- In a completed port placement the declarations with a position name pairwise
different ports. -/
theorem generate_ports_positional_nodup (env : GenEnv) (design : Design)
    (portdecls : List generate_port_decl_t) (celltype : String) (st : GenState)
    (h : generate_ports env design portdecls celltype = .ok st) :
    (positional_names portdecls).Nodup := by
  obtain ⟨st1, h1, _, _⟩ := generate_ports_unfold env design portdecls celltype st h
  obtain ⟨_, hslot, _, _⟩ := generate_ports_slots env design portdecls celltype st h
  have hnames : (st.ports.map (fun p => p.portname)).Nodup :=
    (generate_ports_cover env design portdecls celltype st h).1.nodup_iff.2
      (pairwise_strLt_nodup _ (all_portnames_sorted _ _ _))
  have hidx : (positional_indices portdecls).Nodup := by
    by_contra hn
    obtain ⟨e, he⟩ := ((place_positionals_error portdecls _
      (generate_init_inv design portdecls celltype)).2).2 (fun hc => hn hc.2)
    rw [h1] at he
    exact Except.noConfusion he
  unfold positional_names
  unfold positional_indices at hidx
  refine List.Nodup.map_on ?_ (List.Nodup.of_map _ hidx)
  intro x hx y hy hxy
  rw [List.mem_filter] at hx hy
  have sx := hslot x hx.1 (by simpa using hx.2)
  have sy := hslot y hy.1 (by simpa using hy.2)
  have nx : (st.ports.map (fun p => p.portname))[(x.index - 1).toNat]? = some x.portname := by
    rw [List.getElem?_map, sx]; rfl
  have ny : (st.ports.map (fun p => p.portname))[(y.index - 1).toNat]? = some x.portname := by
    rw [List.getElem?_map, sy, hxy]; rfl
  have hlt : (x.index - 1).toNat < (st.ports.map (fun p => p.portname)).length := by
    by_contra hge
    rw [List.getElem?_eq_none (by omega)] at nx
    exact Option.noConfusion nx
  have hij := List.getElem?_inj hlt hnames (nx.trans ny.symm)
  rw [hij, sy] at sx
  exact (Option.some.inj sx).symm

/-- The widths of the wires of the module synthesized for one cell type, when no
declaration with a position has a port name beginning with `$`. -/
theorem generate_module_widths (env : GenEnv) (design : Design)
    (portdecls : List generate_port_decl_t) (celltype : String) (mod : Module)
    (h : generate_module env design portdecls celltype = .ok mod)
    (hdollar : ∀ d ∈ portdecls, d.index > 0 → firstIsDollar d.portname = false) :
    ∀ w ∈ mod.wires,
      (∀ d ∈ portdecls, d.index > 0 → d.portname = w.name →
        w.width = max (max (max_observed design celltype w.name) 1)
          (max_observed design celltype (index_key d.index))) ∧
      (w.name ∉ positional_names portdecls →
        w.width = max (max_observed design celltype w.name) 1) := by
  obtain ⟨st, hst, _, _, _, hperm⟩ := generate_module_wires env design portdecls celltype mod h
  obtain ⟨st1, h1, h2, _⟩ := generate_ports_unfold env design portdecls celltype st hst
  have hnd := generate_ports_positional_nodup env design portdecls celltype st hst
  have hcover := (generate_ports_cover env design portdecls celltype st hst).1
  obtain ⟨_, hnames, _⟩ := place_positionals_ok portdecls _ st1 h1
    (generate_init_inv design portdecls celltype)
  simp only at hnames
  intro w hw
  have hw2 := hperm.subset hw
  rw [List.mem_map] at hw2
  obtain ⟨p, hp, rfl⟩ := hw2
  simp only
  have hall : p.portname ∈ all_portnames design portdecls celltype :=
    hcover.subset (List.mem_map_of_mem (fun p => p.portname) hp)
  have hW := place_wildcards_width env portdecls _ st1 st h2 p.portname
  obtain ⟨q1, _, q3⟩ := place_positionals_width portdecls _ st1 h1 hnd hdollar p.portname
  simp only at q1 q3
  constructor
  · intro d hd hdpos hdname
    have hmem : p.portname ∈ positional_names portdecls := by
      rw [← hdname]
      unfold positional_names
      exact List.mem_map_of_mem _ (List.mem_filter.2 ⟨hd, by simpa using hdpos⟩)
    rw [hW, if_neg (by
      rw [hnames, List.mem_filter]
      rintro ⟨_, hnot⟩
      simp only [decide_eq_true_eq] at hnot
      exact hnot hmem), q3 d hd hdpos hdname, observe_width, observe_width]
  · intro hnot
    rw [hW, if_pos (by
      rw [hnames, List.mem_filter]
      exact ⟨hall, by simpa using hnot⟩), q1 hnot, observe_width]

/-- Counterexample to claim C14 as stated: two cells of the type `BUF`, one connecting
four bits by position and one connecting two bits to the port `A`, with the declaration
`i@1:\A`.  `generate` completes; the widest connection named `A` has two bits, but the
wire `A` of the synthesized module has the width 4 of the connection `$1`. -/
theorem generate_width_exceeds_observed :
    generate genEnv widthDesign ["BUF"] widthDecls = .ok widthGenerated ∧
    found_celltypes genEnv widthDesign ["BUF"] = ["\\BUF"] ∧
    widthGenerated.find "\\BUF" = some widthMod ∧
    widthMod.wires = [⟨"\\A", 4, 1, true, false⟩] ∧
    max_observed widthDesign "\\BUF" "\\A" = 2 ∧
    ∃ w ∈ widthMod.wires, w.width ≠ max_observed widthDesign "\\BUF" w.name := by
  refine ⟨by rfl, by decide, by decide, rfl, by decide, ⟨"\\A", 4, 1, true, false⟩, ?_, by decide⟩
  exact List.mem_cons_self _ _

/-- Claim C14 (widths of the synthesized ports), amended.  Let no declaration with a
position have a port name beginning with `$`.  When `generate` completes, every found
cell type is stored in the design with a module in which the width of each wire is:
for a port named by a declaration with the position `N`, the largest of 1, the maximum
bit width observed for the connection of that name, and the maximum bit width observed
for the connection `$N`; for every other port, the larger of 1 and the maximum bit
width observed for the connection of that name.  The observed widths are taken over
all cells of that type in the design. -/
theorem generate_port_widths (env : GenEnv) (design design' : Design)
    (celltypes : List String) (portdecls : List generate_port_decl_t)
    (h : generate env design celltypes portdecls = .ok design')
    (hdollar : ∀ d ∈ portdecls, d.index > 0 → firstIsDollar d.portname = false) :
    ∀ celltype ∈ found_celltypes env design celltypes,
      ∃ mod, design'.find celltype = some mod ∧ ∀ w ∈ mod.wires,
        (∀ d ∈ portdecls, d.index > 0 → d.portname = w.name →
          w.width = max (max (max_observed design celltype w.name) 1)
            (max_observed design celltype (index_key d.index))) ∧
        (w.name ∉ positional_names portdecls →
          w.width = max (max_observed design celltype w.name) 1) := by
  intro celltype hct
  obtain ⟨mod, hm, hfind⟩ := generate_find env design design' celltypes portdecls h celltype hct
  exact ⟨mod, hfind, generate_module_widths env design portdecls celltype mod hm hdollar⟩

/-- Witness of `generate_port_widths` on the design `widthDesign`. -/
theorem generate_port_widths_witness :
    generate genEnv widthDesign ["BUF"] widthDecls = .ok widthGenerated ∧
    (∀ d ∈ widthDecls, d.index > 0 → firstIsDollar d.portname = false) ∧
    ∀ celltype ∈ found_celltypes genEnv widthDesign ["BUF"],
      ∃ mod, widthGenerated.find celltype = some mod ∧ ∀ w ∈ mod.wires,
        (∀ d ∈ widthDecls, d.index > 0 → d.portname = w.name →
          w.width = max (max (max_observed widthDesign celltype w.name) 1)
            (max_observed widthDesign celltype (index_key d.index))) ∧
        (w.name ∉ positional_names widthDecls →
          w.width = max (max_observed widthDesign celltype w.name) 1) :=
  ⟨by rfl, by decide,
    generate_port_widths genEnv widthDesign widthGenerated ["BUF"] widthDecls (by rfl)
      (by decide)⟩

/-! ## The expander: a change needs a call of the deriver or of a front end -/

theorem calls_of_face {env : Env} {libdirs : List String} {d d' : Design}
    (hf : ∀ n, d'.face n = d.face n) (c : Cell) :
    calls_derive_or_load env libdirs d' c = calls_derive_or_load env libdirs d c := by
  unfold calls_derive_or_load
  rw [count_eq_face, count_eq_face d' ("$abstract" ++ c.type), blackbox_eq_face, hf, hf,
    ← count_eq_face, ← count_eq_face, ← blackbox_eq_face]

/-- A step of the first loop for a cell that needs neither the deriver nor a front end:
the only effect is the stripping of the array descriptor and the entry in `array_cells`. -/
theorem expand_cell_no_call (env : Env) (modname : String) (flag_check : Bool)
    (libdirs : List String) (st st' : ExpandState) (c : Cell)
    (h : expand_cell env modname flag_check libdirs st c = .ok st')
    (hno : calls_derive_or_load env libdirs st.design (stripped c) = false) :
    st' = ⟨match (strip_array c.type).2 with
        | some _ => st.design.setCell modname (stripped c)
        | none => st.design,
      st.did_something, record_array st.array_cells (strip_array c.type).2 (stripped c)⟩ := by
  have hface : ∀ n, (match (strip_array c.type).2 with
      | some _ => st.design.setCell modname (stripped c)
      | none => st.design).face n = st.design.face n := by
    intro n
    split
    · rw [face_setCell]
    · rfl
  rw [← calls_of_face hface] at hno
  rw [expand_cell_eq env modname flag_check libdirs st c _ rfl] at h
  generalize (match (strip_array c.type).2 with
      | some _ => st.design.setCell modname (stripped c)
      | none => st.design) = design at h hno hface ⊢
  unfold calls_derive_or_load at hno
  by_cases hcount : design.count (stripped c).type = false
  · rw [if_pos hcount] at h hno
    rw [Bool.or_eq_false_iff] at hno
    rw [(count_false_iff _ _).1 hno.1] at h
    simp only at h
    by_cases hdollar : firstIsDollar (stripped c).type = true
    · rw [if_pos hdollar] at h
      exact (Except.ok.inj h).symm
    · rw [if_neg hdollar] at h
      have hlib : find_libfile env (stripped c).type libdirs = none := by
        have h2 := hno.2
        rw [Bool.not_eq_true] at hdollar
        rw [hdollar] at h2
        cases hl : find_libfile env (stripped c).type libdirs with
        | none => rfl
        | some r =>
          rw [hl] at h2
          exact Bool.noConfusion h2
      rw [hlib] at h
      simp only at h
      split at h
      · exact Except.noConfusion h
      · exact (Except.ok.inj h).symm
  · rw [if_neg hcount] at h hno
    split at h
    · exact Except.noConfusion h
    rw [← Except.ok.inj h]
    unfold derive_resolved_ok
    by_cases hp : (stripped c).parameters.length = 0
    · rw [if_pos hp]
    · rw [if_neg hp]
      simp only
      cases hfind : design.find (stripped c).type with
      | none => rfl
      | some mod =>
        simp only
        have hb : mod.get_bool_attribute "\\blackbox" = true := by
          unfold Design.blackbox at hno
          rw [hfind] at hno
          simp only [ne_eq, hp, not_false_eq_true, decide_True, Bool.true_and,
            Bool.not_eq_false'] at hno
          exact hno
        rw [if_pos hb]

theorem expand_cells_no_call (env : Env) (modname : String) (flag_check : Bool)
    (libdirs : List String) :
    ∀ (cells : List Cell) (st st' : ExpandState),
      expand_cells env modname flag_check libdirs cells st = .ok st' →
      (∀ c ∈ cells, calls_derive_or_load env libdirs st.design (stripped c) = false) →
      st'.did_something = st.did_something ∧ ∀ n, st'.design.face n = st.design.face n := by
  intro cells
  induction cells with
  | nil =>
    intro st st' h _
    rw [expand_cells] at h
    rw [← Except.ok.inj h]
    exact ⟨rfl, fun _ => rfl⟩
  | cons c rest ih =>
    intro st st' h hno
    rw [expand_cells] at h
    cases h1 : expand_cell env modname flag_check libdirs st c with
    | error e => rw [h1] at h; exact Except.noConfusion h
    | ok st1 =>
      rw [h1] at h
      simp only at h
      have hst1 := expand_cell_no_call env modname flag_check libdirs st st1 c h1
        (hno c (List.mem_cons_self _ _))
      have hface : ∀ n, st1.design.face n = st.design.face n := by
        intro n
        rw [hst1]
        simp only
        split
        · rw [face_setCell]
        · rfl
      have hdid : st1.did_something = st.did_something := by rw [hst1]
      obtain ⟨i1, i2⟩ := ih st1 st' h (fun x hx => by
        rw [calls_of_face hface]
        exact hno x (List.mem_cons_of_mem _ hx))
      exact ⟨i1.trans hdid, fun n => (i2 n).trans (hface n)⟩

/-- A call of `expand_module` that returns true found a cell for which, in the design
the call started with, the deriver or a front end is to be called. -/
theorem expand_module_change (env : Env) (d : Design) (m : Module) (flag_check : Bool)
    (libdirs : List String) (d1 : Design)
    (h : expand_module env d m flag_check libdirs = .ok (d1, true)) :
    ∃ c ∈ m.cells, calls_derive_or_load env libdirs d (stripped c) = true := by
  unfold expand_module at h
  cases h1 : expand_cells env m.name flag_check libdirs m.cells ⟨d, false, []⟩ with
  | error e => rw [h1] at h; exact Except.noConfusion h
  | ok st =>
    rw [h1] at h
    simp only at h
    cases h2 : array_pass m.name st.array_cells st.design with
    | error e => rw [h2] at h; exact Except.noConfusion h
    | ok d2 =>
      rw [h2] at h
      simp only at h
      have hdid : st.did_something = true := congrArg Prod.snd (Except.ok.inj h)
      by_contra hall
      have hno : ∀ c ∈ m.cells, calls_derive_or_load env libdirs d (stripped c) = false := by
        intro c hc
        cases hcc : calls_derive_or_load env libdirs d (stripped c)
        · rfl
        · exact absurd ⟨c, hc, hcc⟩ hall
      have := (expand_cells_no_call env m.name flag_check libdirs m.cells _ st h1 hno).1
      rw [hdid] at this
      exact Bool.noConfusion this

theorem blackbox_count {d : Design} {n : String} (h : d.blackbox n = true) : d.count n = true := by
  unfold Design.blackbox at h
  unfold Design.count
  cases hf : d.find n with
  | none => rw [hf] at h; exact Bool.noConfusion h
  | some m => rfl

/-- Counterexample to claim C18 as stated: the only cell of `tmplDesign` is of the
primitive type `$gate`, for which the design holds the template `$abstract$gate`; the
first sweep derives the cell and reports a change, so the loop needs a second sweep.
And the only cell of `arrayMissingDesign` is unresolved (no module, no template, no
library file, no strict checking), but the first sweep ends with the fatal error of the
array pass. -/
theorem expand_loop_primitive_second_sweep :
    (∀ m ∈ tmplDesign.modules, ∀ c ∈ m.cells, firstIsDollar c.type = true) ∧
    expand_sweep paramodEnv false [] (tmplDesign.modules.map (·.name)) tmplDesign false =
      .ok (tmplDone, true) ∧
    expand_loop paramodEnv false [] 1 tmplDesign = none ∧
    expand_loop paramodEnv false [] 2 tmplDesign = some (.ok tmplDone) ∧
    (∀ m ∈ arrayMissingDesign.modules, ∀ c ∈ m.cells,
      arrayMissingDesign.count c.type = false ∧
      arrayMissingDesign.count ("$abstract" ++ c.type) = false ∧
      arrayMissingDesign.count (stripped c).type = false ∧
      arrayMissingDesign.count ("$abstract" ++ (stripped c).type) = false) ∧
    expand_loop noEnv false [] 1 arrayMissingDesign =
      some (.error (.arrayUnknownType "\\top" "\\u" "\\missing")) := by
  refine ⟨by decide, by rfl, by rfl, by rfl, by decide, by rfl⟩

/-- Claim C18 (an unresolved cell does not keep the loop running), amended.  A call of
`expand_module` returns true only if, for some cell of the module, the deriver or a
front end is to be called in the design the call started with.  And on a design in
which no cell type has an array descriptor and every cell is either unresolved (its
type is no module and has no template, strict checking is off, and no library file
exists), or primitive with a type that is no module and has no template, or an instance
of a blackbox module, or an instance without parameters of a module, the first sweep
reports no change and leaves the design as it is, so the loop performs exactly one
sweep and stops. -/
theorem expand_loop_single_sweep (env : Env) (flag_check : Bool) (libdirs : List String)
    (d : Design) :
    (∀ (m : Module) (d1 : Design), expand_module env d m flag_check libdirs = .ok (d1, true) →
      ∃ c ∈ m.cells, calls_derive_or_load env libdirs d (stripped c) = true) ∧
    ((∀ m ∈ d.modules, ∀ c ∈ m.cells, startsWith "$array:" c.type = false ∧
        ((d.count c.type = false ∧ d.count ("$abstract" ++ c.type) = false ∧
            flag_check = false ∧ find_libfile env c.type libdirs = none) ∨
          (d.count c.type = false ∧ d.count ("$abstract" ++ c.type) = false ∧
            firstIsDollar c.type = true) ∨
          d.blackbox c.type = true ∨
          (d.count c.type = true ∧ c.parameters.length = 0))) →
      expand_sweep env flag_check libdirs (d.modules.map (·.name)) d false = .ok (d, false) ∧
      ∀ fuel, expand_loop env flag_check libdirs (fuel + 1) d = some (.ok d)) := by
  refine ⟨fun m d1 h => expand_module_change env d m flag_check libdirs d1 h, ?_⟩
  intro hcells
  have hsettled : ∀ n m, d.find n = some m → ∀ x ∈ m.cells,
      Settled env flag_check libdirs d x ∧ startsWith "$array:" x.type = false := by
    intro n m hfind x hx
    obtain ⟨hpre, hkind⟩ := hcells m (find_some_mem hfind).1 x hx
    refine ⟨⟨fun hp => by rw [hpre] at hp; exact Bool.noConfusion hp, ?_, ?_⟩, hpre⟩
    · intro hc
      rcases hkind with ⟨h1, _⟩ | ⟨h1, _⟩ | hb | ⟨_, hp⟩
      · rw [h1] at hc; exact Bool.noConfusion hc
      · rw [h1] at hc; exact Bool.noConfusion hc
      · exact Or.inr hb
      · exact Or.inl hp
    · intro hc
      rcases hkind with ⟨_, h2, h3, h4⟩ | ⟨_, h2, h3⟩ | hb | ⟨h1, _⟩
      · exact ⟨(count_false_iff _ _).1 h2, Or.inr ⟨h4, h3⟩⟩
      · exact ⟨(count_false_iff _ _).1 h2, Or.inl h3⟩
      · rw [blackbox_count hb] at hc; exact Bool.noConfusion hc
      · rw [h1] at hc; exact Bool.noConfusion hc
  have hsweep := expand_sweep_settled env flag_check libdirs d hsettled (d.modules.map (·.name))
  refine ⟨hsweep, fun fuel => ?_⟩
  rw [expand_loop, hsweep]

/-- Witness of `expand_loop_single_sweep`: the call of `expand_module` for the module
`top` of `tmplDesign` returns true, and the cells of `idleDesign` are of the four
kinds. -/
theorem expand_loop_single_sweep_witness :
    expand_module paramodEnv tmplDesign tmplTop false [] = .ok (tmplDone, true) ∧
    (∃ c ∈ tmplTop.cells, calls_derive_or_load paramodEnv [] tmplDesign (stripped c) = true) ∧
    (expand_sweep noEnv false [] (idleDesign.modules.map (·.name)) idleDesign false =
        .ok (idleDesign, false) ∧
      ∀ fuel, expand_loop noEnv false [] (fuel + 1) idleDesign = some (.ok idleDesign)) :=
  ⟨by rfl,
    (expand_loop_single_sweep paramodEnv false [] tmplDesign).1 tmplTop tmplDone (by rfl),
    (expand_loop_single_sweep noEnv false [] idleDesign).2 (by decide)⟩

/-! ## The expander: the cells of the expanded module -/

theorem cellAt_name {d : Design} {modname x : String} {y : Cell}
    (h : d.cellAt modname x = some y) : y.name = x := by
  unfold Design.cellAt at h
  cases hf : d.find modname with
  | none => rw [hf] at h; exact Option.noConfusion h
  | some m =>
    rw [hf] at h
    simpa using List.find?_some h

theorem cellAt_setCell (d : Design) (modname : String) (c : Cell) (x : String) :
    (d.setCell modname c).cellAt modname x =
      (d.cellAt modname x).map (fun y => if y.name = c.name then c else y) := by
  unfold Design.cellAt
  rw [find_setCell]
  cases hf : d.find modname with
  | none => rfl
  | some m =>
    simp only [Option.map_some']
    rw [if_pos (find_some_mem hf).2]
    unfold Module.setCell
    simp only
    exact find?_map_name (fun (a : Cell) => a.name) (fun y => if y.name = c.name then c else y)
      (fun a => by
        simp only
        split
        · rename_i e; exact e.symm
        · rfl) x m.cells

theorem sigAt_setCell_self (d : Design) (modname : String) (c : Cell) :
    (d.setCell modname c).sigAt modname c.name =
      (d.sigAt modname c.name).map (fun _ => (c.type, c.parameters)) := by
  unfold Design.sigAt
  rw [cellAt_setCell]
  cases hc : d.cellAt modname c.name with
  | none => rfl
  | some y =>
    simp only [Option.map_some']
    rw [if_pos (cellAt_name hc)]

theorem sigAt_setCell_ne (d : Design) (modname : String) (c : Cell) (x : String)
    (hne : x ≠ c.name) :
    (d.setCell modname c).sigAt modname x = d.sigAt modname x := by
  unfold Design.sigAt
  rw [cellAt_setCell]
  cases hc : d.cellAt modname x with
  | none => rfl
  | some y =>
    simp only [Option.map_some']
    rw [if_neg (fun e => hne ((cellAt_name hc).symm.trans e))]

theorem extends_refl (d : Design) : d.Extends d := fun _ _ => rfl

theorem extends_count {d d2 : Design} (h : d.Extends d2) {n : String} (hn : d.count n = true) :
    d2.count n = true := by
  unfold Design.count at hn ⊢
  rw [h n hn]
  exact hn

theorem extends_trans {d d2 d3 : Design} (h1 : d.Extends d2) (h2 : d2.Extends d3) :
    d.Extends d3 := by
  intro n hn
  rw [h2 n (extends_count h1 hn), h1 n hn]

theorem extends_insertModule (m : Module) (d : Design) (hm : d.count m.name = false) :
    d.Extends ⟨insertModule m d.modules⟩ := by
  intro n hn
  exact find_insertModule_ne m n (fun e => by rw [e, hm] at hn; exact Bool.noConfusion hn)
    d.modules

theorem derive_extends (env : Env) (d : Design) (tmpl : Module)
    (params : List (String × Const)) : d.Extends (derive_result env d tmpl params).2 := by
  unfold derive_result
  simp only
  by_cases h : d.count (env.derive_name tmpl params) = true
  · rw [if_pos h]
    exact extends_refl d
  · rw [if_neg h]
    rw [Bool.not_eq_true] at h
    exact extends_insertModule _ d h

theorem frontend_extends (env : Env) (d : Design) (filename format : String) :
    d.Extends (frontend_call env d filename format) := by
  unfold frontend_call
  generalize env.frontend filename format = ms
  induction ms generalizing d with
  | nil => exact extends_refl d
  | cons m rest ih =>
    rw [List.foldl_cons]
    by_cases h : d.count m.name = true
    · rw [if_pos h]
      exact ih d
    · rw [if_neg h]
      rw [Bool.not_eq_true] at h
      exact extends_trans (extends_insertModule m d h) (ih _)

theorem grows_refl (d : Design) : d.Grows d := fun _ _ => rfl

theorem grows_count {d d2 : Design} (h : d.Grows d2) {n : String} (hn : d.count n = true) :
    d2.count n = true := by
  rw [count_eq_face] at hn ⊢
  rw [h n (by rw [count_eq_face]; exact hn)]
  exact hn

theorem grows_trans {d d2 d3 : Design} (h1 : d.Grows d2) (h2 : d2.Grows d3) : d.Grows d3 := by
  intro n hn
  rw [h2 n (grows_count h1 hn), h1 n hn]

theorem grows_of_extends {d d2 : Design} (h : d.Extends d2) : d.Grows d2 := by
  intro n hn
  unfold Design.face
  rw [h n hn]

theorem grows_of_face {d d2 : Design} (h : ∀ n, d2.face n = d.face n) : d.Grows d2 :=
  fun n _ => h n

theorem grows_blackbox {d d2 : Design} (h : d.Grows d2) {n : String}
    (hb : d.blackbox n = true) : d2.blackbox n = true := by
  rw [blackbox_eq_face, h n (blackbox_count hb), ← blackbox_eq_face]
  exact hb

theorem sigAt_extends {d d2 : Design} (h : d.Extends d2) {modname : String}
    (hm : d.count modname = true) (x : String) : d2.sigAt modname x = d.sigAt modname x := by
  unfold Design.sigAt Design.cellAt
  rw [h modname hm]

theorem face_insertModule (m : Module) (l : List Module) (n : String) :
    (Design.mk (insertModule m l)).face n =
      if n = m.name then some (m.attributes, m.wires) else (Design.mk l).face n := by
  unfold Design.face
  by_cases h : n = m.name
  · rw [if_pos h, h, find_insertModule_self]
    rfl
  · rw [if_neg h, find_insertModule_ne m n h]

/-- The attributes and wires of the modules after a front end has read a file depend on
the attributes and wires of the modules before only. -/
theorem frontend_face (env : Env) (filename format : String) (d d2 : Design)
    (hf : ∀ n, d2.face n = d.face n) :
    ∀ n, (frontend_call env d2 filename format).face n =
      (frontend_call env d filename format).face n := by
  unfold frontend_call
  generalize env.frontend filename format = ms
  induction ms generalizing d d2 with
  | nil => exact hf
  | cons m rest ih =>
    rw [List.foldl_cons, List.foldl_cons]
    have hc : d2.count m.name = d.count m.name := by
      rw [count_eq_face, count_eq_face, hf]
    rw [hc]
    by_cases h : d.count m.name = true
    · rw [if_pos h, if_pos h]
      exact ih d d2 hf
    · rw [if_neg h, if_neg h]
      apply ih
      intro n
      rw [face_insertModule, face_insertModule, hf]

theorem calls_derive_of_face {env : Env} {libdirs : List String} {d d2 : Design}
    (hf : ∀ n, d2.face n = d.face n) (c : Cell) :
    calls_derive env libdirs d2 c = calls_derive env libdirs d c := by
  unfold calls_derive
  have hc : ∀ n, d2.count n = d.count n := by
    intro n
    rw [count_eq_face, count_eq_face, hf]
  have hb : d2.blackbox c.type = d.blackbox c.type := by
    rw [blackbox_eq_face, blackbox_eq_face, hf]
  rw [hc, hc, hb]
  cases hl : find_libfile env c.type libdirs with
  | none => rfl
  | some r =>
    obtain ⟨filename, format⟩ := r
    simp only
    have hff := frontend_face env filename format d d2 hf
    have hc2 : (frontend_call env d2 filename format).count c.type =
        (frontend_call env d filename format).count c.type := by
      rw [count_eq_face, count_eq_face, hff]
    have hb2 : (frontend_call env d2 filename format).blackbox c.type =
        (frontend_call env d filename format).blackbox c.type := by
      rw [blackbox_eq_face, blackbox_eq_face, hff]
    rw [hc2, hb2]

/-- The effect of a call of `derive` for a cell of the module `modname`: the type of
the cell is the name returned, its parameters are cleared, and the other cells and the
modules of the design stay as they are. -/
theorem derive_step (env : Env) (modname : String) (d : Design) (tmpl : Module) (c : Cell)
    (hm : d.count modname = true) (sig : String × List (String × Const))
    (hsig : d.sigAt modname c.name = some sig) :
    d.Grows ((derive_result env d tmpl c.parameters).2.setCell modname
      { c with type := (derive_result env d tmpl c.parameters).1, parameters := [] }) ∧
    (∀ x, x ≠ c.name → ((derive_result env d tmpl c.parameters).2.setCell modname
      { c with type := (derive_result env d tmpl c.parameters).1, parameters := [] }).sigAt modname x =
        d.sigAt modname x) ∧
    ((derive_result env d tmpl c.parameters).2.setCell modname
      { c with type := (derive_result env d tmpl c.parameters).1, parameters := [] }).sigAt modname c.name =
        some ((derive_result env d tmpl c.parameters).1, []) := by
  have hext := derive_extends env d tmpl c.parameters
  refine ⟨grows_trans (grows_of_extends hext) (grows_of_face (fun n => face_setCell _ _ _ n)),
    ?_, ?_⟩
  · intro x hx
    rw [sigAt_setCell_ne _ modname
      { c with type := (derive_result env d tmpl c.parameters).1, parameters := [] } x hx,
      sigAt_extends hext hm]
  · have := sigAt_setCell_self (derive_result env d tmpl c.parameters).2 modname
      { c with type := (derive_result env d tmpl c.parameters).1, parameters := [] }
    simp only at this
    rw [this, sigAt_extends hext hm, hsig]
    rfl

/-- The effect of lines 197-206 for a cell of the module `modname`. -/
theorem derive_resolved_step (env : Env) (modname : String) (d : Design) (did : Bool)
    (cells : List (Cell × Int × Int)) (c : Cell) (arr : Option (Int × Int))
    (hm : d.count modname = true)
    (hsig : d.sigAt modname c.name = some (c.type, c.parameters)) :
    ∃ c1 : Cell,
      (derive_resolved_ok env modname ⟨d, did, cells⟩ c arr).array_cells =
        record_array cells arr c1 ∧
      c1.name = c.name ∧
      d.Grows (derive_resolved_ok env modname ⟨d, did, cells⟩ c arr).design ∧
      (∀ x, x ≠ c.name →
        (derive_resolved_ok env modname ⟨d, did, cells⟩ c arr).design.sigAt modname x =
          d.sigAt modname x) ∧
      (derive_resolved_ok env modname ⟨d, did, cells⟩ c arr).design.sigAt modname c.name =
        some (c1.type, c1.parameters) ∧
      ((decide (c.parameters.length ≠ 0) && !d.blackbox c.type) = true →
        d.count c.type = true → c1.parameters = []) ∧
      ((decide (c.parameters.length ≠ 0) && !d.blackbox c.type) = false →
        c1.type = c.type ∧ c1.parameters = c.parameters ∧
          (c.parameters ≠ [] → d.blackbox c.type = true)) := by
  unfold derive_resolved_ok
  by_cases hp : c.parameters.length = 0
  · rw [if_pos hp]
    refine ⟨c, rfl, rfl, grows_refl d, fun _ _ => rfl, hsig, ?_, ?_⟩
    · intro hcond
      simp [hp] at hcond
    · intro _
      exact ⟨rfl, rfl, fun hne => absurd (List.length_eq_zero.1 hp) hne⟩
  · rw [if_neg hp]
    simp only
    cases hfind : d.find c.type with
    | none =>
      refine ⟨c, rfl, rfl, grows_refl d, fun _ _ => rfl, hsig, ?_, ?_⟩
      · intro _ hc
        unfold Design.count at hc
        rw [hfind] at hc
        exact Bool.noConfusion hc
      · intro hcond
        unfold Design.blackbox at hcond
        rw [hfind] at hcond
        simp [hp] at hcond
    | some mod =>
      simp only
      have hbb : d.blackbox c.type = mod.get_bool_attribute "\\blackbox" := by
        unfold Design.blackbox
        rw [hfind]
      by_cases hb : mod.get_bool_attribute "\\blackbox" = true
      · rw [if_pos hb]
        refine ⟨c, rfl, rfl, grows_refl d, fun _ _ => rfl, hsig, ?_, ?_⟩
        · intro hcond
          rw [hbb, hb] at hcond
          simp at hcond
        · intro _
          exact ⟨rfl, rfl, fun _ => by rw [hbb]; exact hb⟩
      · rw [if_neg hb]
        obtain ⟨g1, g2, g3⟩ := derive_step env modname d mod c hm _ hsig
        refine ⟨{ c with type := (derive_result env d mod c.parameters).1, parameters := [] },
          rfl, rfl, g1, g2, g3, fun _ _ => rfl, ?_⟩
        intro hcond
        rw [hbb] at hcond
        rw [Bool.not_eq_true] at hb
        rw [hb] at hcond
        simp [hp] at hcond

/-- One step of the first loop of `expand_module` for the cell `c0` of the module
`modname`: the cell receives the type and the parameters of a cell `c1`, which is
recorded in `array_cells` when the type had an array descriptor; the other cells and
the attributes and wires of the modules stay as they are.  When `derive` is called the
parameters of `c1` are cleared; otherwise `c1` has the type of `c0` without array
descriptor and the parameters of `c0`, and when these are not empty the type is
primitive, or a blackbox module, or no module of the design in which the cell was
visited. -/
theorem expand_cell_step (env : Env) (modname : String) (flag_check : Bool)
    (libdirs : List String) (st st' : ExpandState) (c0 : Cell)
    (h : expand_cell env modname flag_check libdirs st c0 = .ok st')
    (hm : st.design.count modname = true)
    (hsig : st.design.sigAt modname c0.name = some (c0.type, c0.parameters)) :
    ∃ c1 : Cell,
      st'.array_cells = record_array st.array_cells (strip_array c0.type).2 c1 ∧
      c1.name = c0.name ∧
      st.design.Grows st'.design ∧
      (∀ x, x ≠ c0.name → st'.design.sigAt modname x = st.design.sigAt modname x) ∧
      st'.design.sigAt modname c0.name = some (c1.type, c1.parameters) ∧
      (calls_derive env libdirs st.design (stripped c0) = true → c1.parameters = []) ∧
      (calls_derive env libdirs st.design (stripped c0) = false →
        c1.type = (stripped c0).type ∧ c1.parameters = c0.parameters ∧
        (c0.parameters ≠ [] → firstIsDollar c1.type = true ∨
          st'.design.blackbox c1.type = true ∨ st.design.count c1.type = false)) := by
  have hdes : ∃ design : Design,
      design = (match (strip_array c0.type).2 with
        | some _ => st.design.setCell modname (stripped c0)
        | none => st.design) ∧
      (∀ n, design.face n = st.design.face n) ∧
      design.sigAt modname c0.name = some ((stripped c0).type, c0.parameters) ∧
      (∀ x, x ≠ c0.name → design.sigAt modname x = st.design.sigAt modname x) := by
    rcases strip_array_cases c0.type with ⟨_, hs⟩ | ⟨_, T, idx, num, hs⟩
    · refine ⟨st.design, ?_, fun _ => rfl, ?_, fun _ _ => rfl⟩
      · rw [hs]
      · rw [hsig]
        unfold stripped
        rw [hs]
    · refine ⟨st.design.setCell modname (stripped c0), ?_, fun n => face_setCell _ _ _ n, ?_, ?_⟩
      · rw [hs]
      · have := sigAt_setCell_self st.design modname (stripped c0)
        have hn : (stripped c0).name = c0.name := rfl
        rw [hn] at this
        rw [this, hsig]
        rfl
      · intro x hx
        exact sigAt_setCell_ne st.design modname (stripped c0) x hx
  obtain ⟨design, hdesign, hface, hself, hother⟩ := hdes
  rw [expand_cell_eq env modname flag_check libdirs st c0 design hdesign] at h
  rw [← calls_derive_of_face hface]
  have hcm : design.count modname = true := by
    rw [count_eq_face, hface, ← count_eq_face]
    exact hm
  have hg0 : st.design.Grows design := grows_of_face hface
  have hcnt : ∀ n, st.design.count n = design.count n := by
    intro n
    rw [count_eq_face, count_eq_face, hface]
  clear hdesign
  by_cases hcount : design.count (stripped c0).type = false
  · rw [if_pos hcount] at h
    cases hfind : design.find ("$abstract" ++ (stripped c0).type) with
    | some tmpl =>
      rw [hfind] at h
      simp only at h
      obtain ⟨g1, g2, g3⟩ := derive_step env modname design tmpl (stripped c0) hcm _ hself
      by_cases hfail : env.derive_fails tmpl (stripped c0).parameters = true
      · rw [if_pos hfail] at h
        exact Except.noConfusion h
      rw [if_neg hfail] at h
      rw [← Except.ok.inj h]
      have hcalls : calls_derive env libdirs design (stripped c0) = true := by
        unfold calls_derive
        have ht : design.count ("$abstract" ++ (stripped c0).type) = true := by
          unfold Design.count
          rw [hfind]
          rfl
        rw [if_pos hcount, if_pos ht]
      refine ⟨{ stripped c0 with
          type := (derive_result env design tmpl (stripped c0).parameters).1, parameters := [] },
        rfl, rfl, grows_trans hg0 g1, ?_, g3, fun _ => rfl, ?_⟩
      · intro x hx
        rw [g2 x hx, hother x hx]
      · intro hf
        rw [hcalls] at hf
        exact Bool.noConfusion hf
    | none =>
      rw [hfind] at h
      simp only at h
      have htc : design.count ("$abstract" ++ (stripped c0).type) = false :=
        (count_false_iff _ _).2 hfind
      by_cases hdollar : firstIsDollar (stripped c0).type = true
      · rw [if_pos hdollar] at h
        rw [← Except.ok.inj h]
        have hcalls : calls_derive env libdirs design (stripped c0) = false := by
          unfold calls_derive
          rw [if_pos hcount, htc, if_pos hdollar]
          simp
        refine ⟨stripped c0, rfl, rfl, hg0, hother, hself, ?_, ?_⟩
        · intro hf
          rw [hcalls] at hf
          exact Bool.noConfusion hf
        · intro _
          exact ⟨rfl, rfl, fun _ => Or.inl hdollar⟩
      · rw [if_neg hdollar] at h
        cases hlib : find_libfile env (stripped c0).type libdirs with
        | some r =>
          obtain ⟨filename, format⟩ := r
          rw [hlib] at h
          simp only at h
          by_cases hc2 : (frontend_call env design filename format).count (stripped c0).type = false
          · rw [if_pos hc2] at h
            exact Except.noConfusion h
          · rw [if_neg hc2] at h
            rw [Bool.not_eq_false] at hc2
            by_cases hfail : derive_resolved_fails env (frontend_call env design filename format)
                (stripped c0) = true
            · rw [if_pos hfail] at h
              exact Except.noConfusion h
            rw [if_neg hfail] at h
            have hext := frontend_extends env design filename format
            obtain ⟨c1, a1, a2, a3, a4, a5, a6, a7⟩ := derive_resolved_step env modname
              (frontend_call env design filename format) true st.array_cells (stripped c0)
              (strip_array c0.type).2 (extends_count hext hcm)
              (by rw [sigAt_extends hext hcm]; exact hself)
            rw [← Except.ok.inj h]
            have hcalls : calls_derive env libdirs design (stripped c0) =
                (decide ((stripped c0).parameters.length ≠ 0) &&
                  !(frontend_call env design filename format).blackbox (stripped c0).type) := by
              unfold calls_derive
              rw [if_pos hcount, htc, if_neg (by simp), if_neg hdollar, hlib]
              simp only
              rw [hc2, Bool.true_and]
            refine ⟨c1, a1, a2, grows_trans hg0 (grows_trans (grows_of_extends hext) a3),
              ?_, a5, ?_, ?_⟩
            · intro x hx
              rw [a4 x hx, sigAt_extends hext hcm, hother x hx]
            · intro hf
              rw [hcalls] at hf
              exact a6 hf hc2
            · intro hf
              rw [hcalls] at hf
              obtain ⟨b1, b2, b3⟩ := a7 hf
              exact ⟨b1, b2, fun hne => Or.inr (Or.inl (by
                rw [b1]
                exact grows_blackbox a3 (b3 hne)))⟩
        | none =>
          rw [hlib] at h
          simp only at h
          split at h
          · exact Except.noConfusion h
          · rw [← Except.ok.inj h]
            have hcalls : calls_derive env libdirs design (stripped c0) = false := by
              unfold calls_derive
              rw [if_pos hcount, htc, if_neg (by simp), if_neg hdollar, hlib]
            refine ⟨stripped c0, rfl, rfl, hg0, hother, hself, ?_, ?_⟩
            · intro hf
              rw [hcalls] at hf
              exact Bool.noConfusion hf
            · intro _
              exact ⟨rfl, rfl, fun _ => Or.inr (Or.inr (by rw [hcnt]; exact hcount))⟩
  · rw [if_neg hcount] at h
    rw [Bool.not_eq_false] at hcount
    by_cases hfail : derive_resolved_fails env design (stripped c0) = true
    · rw [if_pos hfail] at h
      exact Except.noConfusion h
    rw [if_neg hfail] at h
    obtain ⟨c1, a1, a2, a3, a4, a5, a6, a7⟩ := derive_resolved_step env modname design
      st.did_something st.array_cells (stripped c0) (strip_array c0.type).2 hcm hself
    rw [← Except.ok.inj h]
    have hcalls : calls_derive env libdirs design (stripped c0) =
        (decide ((stripped c0).parameters.length ≠ 0) && !design.blackbox (stripped c0).type) := by
      unfold calls_derive
      rw [if_neg (by rw [hcount]; simp)]
    refine ⟨c1, a1, a2, grows_trans hg0 a3, ?_, a5, ?_, ?_⟩
    · intro x hx
      rw [a4 x hx, hother x hx]
    · intro hf
      rw [hcalls] at hf
      exact a6 hf hcount
    · intro hf
      rw [hcalls] at hf
      obtain ⟨b1, b2, b3⟩ := a7 hf
      exact ⟨b1, b2, fun hne => Or.inr (Or.inl (by
        rw [b1]
        exact grows_blackbox a3 (b3 hne)))⟩

theorem record_array_append (cells : List (Cell × Int × Int)) (arr : Option (Int × Int))
    (c : Cell) :
    ∃ R, record_array cells arr c = cells ++ R ∧ ∀ e ∈ R, e.1 = c := by
  unfold record_array
  cases arr with
  | none => exact ⟨[], by simp, fun _ h => by simp at h⟩
  | some p =>
    obtain ⟨idx, num⟩ := p
    refine ⟨[(c, idx, num)], rfl, fun e he => ?_⟩
    rw [List.mem_singleton] at he
    rw [he]

/-- The first loop of `expand_module` over cells with pairwise different names: what it
leaves of each cell, in terms of the state in which the cell is visited. -/
theorem expand_cells_outcome (env : Env) (modname : String) (flag_check : Bool)
    (libdirs : List String) :
    ∀ (cells : List Cell) (st st' : ExpandState),
      expand_cells env modname flag_check libdirs cells st = .ok st' →
      (cells.map (fun c => c.name)).Nodup →
      st.design.count modname = true →
      (∀ c ∈ cells, st.design.sigAt modname c.name = some (c.type, c.parameters)) →
      st.design.Grows st'.design ∧
      (∀ x, x ∉ cells.map (fun c => c.name) →
        st'.design.sigAt modname x = st.design.sigAt modname x) ∧
      (∃ E, st'.array_cells = st.array_cells ++ E ∧
        ∀ e ∈ E, st'.design.sigAt modname e.1.name = some (e.1.type, e.1.parameters)) ∧
      ∀ pre c0 post, cells = pre ++ c0 :: post →
        ∃ stk t p, expand_cells env modname flag_check libdirs pre st = .ok stk ∧
          st'.design.sigAt modname c0.name = some (t, p) ∧
          (calls_derive env libdirs stk.design (stripped c0) = true → p = []) ∧
          (calls_derive env libdirs stk.design (stripped c0) = false →
            t = (stripped c0).type ∧ p = c0.parameters ∧
            (c0.parameters ≠ [] → firstIsDollar t = true ∨ st'.design.blackbox t = true ∨
              st.design.count t = false)) := by
  intro cells
  induction cells with
  | nil =>
    intro st st' h _ _ _
    rw [expand_cells] at h
    rw [← Except.ok.inj h]
    refine ⟨grows_refl _, fun _ _ => rfl, ⟨[], by simp, fun _ he => by simp at he⟩, ?_⟩
    intro pre c0 post heq
    exact absurd heq (by simp)
  | cons c rest ih =>
    intro st st' h hnd hm hsig
    rw [expand_cells] at h
    rw [List.map_cons, List.nodup_cons] at hnd
    cases h1 : expand_cell env modname flag_check libdirs st c with
    | error e => rw [h1] at h; exact Except.noConfusion h
    | ok st1 =>
      rw [h1] at h
      simp only at h
      obtain ⟨c1, a1, a2, a3, a4, a5, a6, a7⟩ := expand_cell_step env modname flag_check
        libdirs st st1 c h1 hm (hsig c (List.mem_cons_self _ _))
      have hsig1 : ∀ x ∈ rest, st1.design.sigAt modname x.name = some (x.type, x.parameters) := by
        intro x hx
        rw [a4 x.name (fun e => hnd.1 (by
          rw [← e]; exact List.mem_map_of_mem (fun c => c.name) hx))]
        exact hsig x (List.mem_cons_of_mem _ hx)
      obtain ⟨i1, i2, ⟨E, i3a, i3b⟩, i4⟩ := ih st1 st' h hnd.2 (grows_count a3 hm) hsig1
      have hself : st'.design.sigAt modname c.name = some (c1.type, c1.parameters) := by
        rw [i2 c.name hnd.1]
        exact a5
      refine ⟨grows_trans a3 i1, ?_, ?_, ?_⟩
      · intro x hx
        rw [List.map_cons, List.mem_cons, not_or] at hx
        rw [i2 x hx.2, a4 x hx.1]
      · obtain ⟨R, hR, hRc⟩ := record_array_append st.array_cells (strip_array c.type).2 c1
        refine ⟨R ++ E, ?_, ?_⟩
        · rw [i3a, a1, hR, List.append_assoc]
        · intro e he
          rcases List.mem_append.1 he with hr | hE
          · rw [hRc e hr, a2]
            exact hself
          · exact i3b e hE
      · intro pre c0 post heq
        cases pre with
        | nil =>
          rw [List.nil_append] at heq
          obtain ⟨e1, _⟩ := List.cons.inj heq
          subst e1
          refine ⟨st, c1.type, c1.parameters, by rw [expand_cells], hself, a6, ?_⟩
          intro hf
          obtain ⟨b1, b2, b3⟩ := a7 hf
          refine ⟨b1, b2, fun hne => ?_⟩
          rcases b3 hne with g | g | g
          · exact Or.inl g
          · exact Or.inr (Or.inl (grows_blackbox i1 g))
          · exact Or.inr (Or.inr g)
        | cons p0 pre1 =>
          rw [List.cons_append] at heq
          obtain ⟨e1, e2⟩ := List.cons.inj heq
          subst e1
          obtain ⟨stk, t, p, k1, k2, k3, k4⟩ := i4 pre1 c0 post e2
          refine ⟨stk, t, p, by rw [expand_cells, h1]; exact k1, k2, k3, ?_⟩
          intro hf
          obtain ⟨b1, b2, b3⟩ := k4 hf
          refine ⟨b1, b2, fun hne => ?_⟩
          rcases b3 hne with g | g | g
          · exact Or.inl g
          · exact Or.inr (Or.inl g)
          · right
            right
            cases hc : st.design.count t
            · rfl
            · rw [grows_count a3 hc] at g
              exact Bool.noConfusion g

theorem sigAt_foldl_setCell (modname : String) :
    ∀ (B : List Cell) (d : Design),
      (∀ b ∈ B, d.sigAt modname b.name = some (b.type, b.parameters) ∨
        d.sigAt modname b.name = none) →
      ∀ x, (B.foldl (fun d x => d.setCell modname x) d).sigAt modname x = d.sigAt modname x := by
  intro B
  induction B with
  | nil => intro d _ x; rfl
  | cons b rest ih =>
    intro d hB x
    rw [List.foldl_cons]
    have hstep : ∀ y, (d.setCell modname b).sigAt modname y = d.sigAt modname y := by
      intro y
      by_cases hy : y = b.name
      · rw [hy, sigAt_setCell_self]
        rcases hB b (List.mem_cons_self _ _) with e | e
        · rw [e]; rfl
        · rw [e]; rfl
      · exact sigAt_setCell_ne d modname b y hy
    rw [ih (d.setCell modname b) (fun b2 hb2 => by
      rw [hstep]
      exact hB b2 (List.mem_cons_of_mem _ hb2)) x]
    exact hstep x

/-- What a call of `expand_module` that returns leaves of each cell of the module, when
the cells have pairwise different names. -/
theorem expand_module_cells (env : Env) (d : Design) (m : Module) (flag_check : Bool)
    (libdirs : List String) (d1 : Design) (did : Bool)
    (hfind : d.find m.name = some m) (hnodup : (m.cells.map (fun c => c.name)).Nodup)
    (h : expand_module env d m flag_check libdirs = .ok (d1, did)) :
    ∀ pre c0 post, m.cells = pre ++ c0 :: post →
      ∃ stk t p,
        expand_cells env m.name flag_check libdirs pre ⟨d, false, []⟩ = .ok stk ∧
        d1.sigAt m.name c0.name = some (t, p) ∧
        (calls_derive env libdirs stk.design (stripped c0) = true → p = []) ∧
        (calls_derive env libdirs stk.design (stripped c0) = false →
          t = (stripped c0).type ∧ p = c0.parameters ∧
          (c0.parameters ≠ [] → firstIsDollar t = true ∨ d1.blackbox t = true ∨
            d.count t = false)) := by
  unfold expand_module at h
  cases h1 : expand_cells env m.name flag_check libdirs m.cells ⟨d, false, []⟩ with
  | error e => rw [h1] at h; exact Except.noConfusion h
  | ok st =>
    rw [h1] at h
    simp only at h
    cases h2 : array_pass m.name st.array_cells st.design with
    | error e => rw [h2] at h; exact Except.noConfusion h
    | ok d2 =>
      rw [h2] at h
      simp only at h
      have hd : d2 = d1 := congrArg Prod.fst (Except.ok.inj h)
      subst hd
      have hm : d.count m.name = true := by
        unfold Design.count
        rw [hfind]
        rfl
      have hsig0 : ∀ c ∈ m.cells, d.sigAt m.name c.name = some (c.type, c.parameters) := by
        intro c hc
        unfold Design.sigAt Design.cellAt
        rw [hfind]
        simp only
        rw [find?_of_mem_nodup (fun (a : Cell) => a.name) m.cells hnodup c hc]
        rfl
      obtain ⟨_, _, ⟨E, hE, hEsig⟩, hsplit⟩ :=
        expand_cells_outcome env m.name flag_check libdirs m.cells _ st h1 hnodup hm hsig0
      simp only [List.nil_append] at hE
      obtain ⟨_, B, hB, hBe, _⟩ := array_pass_ok m.name st.array_cells st.design d2 h2
      have hsame : ∀ x, d2.sigAt m.name x = st.design.sigAt m.name x := by
        rw [hB]
        apply sigAt_foldl_setCell
        intro b hb
        obtain ⟨e, he, n1, n2, n3⟩ := hBe b hb
        left
        rw [n1, n2, n3]
        exact hEsig e (by rw [← hE]; exact he)
      have hbb : ∀ n, d2.blackbox n = st.design.blackbox n := by
        intro n
        rw [blackbox_eq_face, blackbox_eq_face, hB, face_foldl_setCell]
      intro pre c0 post heq
      obtain ⟨stk, t, p, k1, k2, k3, k4⟩ := hsplit pre c0 post heq
      refine ⟨stk, t, p, k1, by rw [hsame]; exact k2, k3, ?_⟩
      intro hf
      obtain ⟨b1, b2, b3⟩ := k4 hf
      refine ⟨b1, b2, fun hne => ?_⟩
      rw [hbb]
      exact b3 hne

/-- Counterexample to claim C12 as stated: the cell `u1` of type `foo` has a parameter
and is passed over because `foo` is no module and has no library file; the library file
loaded for the next cell `u2` of type `bar` declares both `bar` and `foo`.  The call
returns without error, `u1` still has its parameter, and its type `foo` is now a
module of the design that is neither primitive nor a blackbox. -/
theorem expand_module_keeps_parameters_of_resolved :
    expand_module libEnv multiDesign multiTop false ["lib"] = .ok (multiDone, true) ∧
    multiDone.cellAt "\\top" "\\u1" = some ⟨"\\u1", "\\foo", [("\\W", const8)], []⟩ ∧
    multiDone.count "\\foo" = true ∧ firstIsDollar "\\foo" = false ∧
    multiDone.blackbox "\\foo" = false := by
  refine ⟨by rfl, by decide, by decide, by decide, by decide⟩

/-- Claim C12 (parameters after `expand_module`), amended.  Let the cells of the module
have pairwise different names and let the call of `expand_module` return without
error.  Then every cell of the module is still a cell of it, and for the state `stk` in
which the first loop visits the cell: if `derive` is called for the cell (through an
`$abstract` template, or through a module that is not a blackbox while the cell has
parameters), the cell has an empty parameter set after the call; and a cell that still
has parameters after the call has its type, without array descriptor, and its
parameters unchanged, and this type is primitive, or a blackbox module, or was no module
of the design when the call began. -/
theorem expand_module_parameters (env : Env) (d : Design) (m : Module) (flag_check : Bool)
    (libdirs : List String) (d1 : Design) (did : Bool)
    (hfind : d.find m.name = some m) (hnodup : (m.cells.map (fun c => c.name)).Nodup)
    (h : expand_module env d m flag_check libdirs = .ok (d1, did)) :
    ∀ pre c0 post, m.cells = pre ++ c0 :: post →
      ∃ stk c1,
        expand_cells env m.name flag_check libdirs pre ⟨d, false, []⟩ = .ok stk ∧
        d1.cellAt m.name c0.name = some c1 ∧
        (calls_derive env libdirs stk.design (stripped c0) = true → c1.parameters = []) ∧
        (c1.parameters ≠ [] →
          c1.type = (stripped c0).type ∧ c1.parameters = c0.parameters ∧
          (firstIsDollar c1.type = true ∨ d1.blackbox c1.type = true ∨
            d.count c1.type = false)) := by
  intro pre c0 post heq
  obtain ⟨stk, t, p, k1, k2, k3, k4⟩ :=
    expand_module_cells env d m flag_check libdirs d1 did hfind hnodup h pre c0 post heq
  unfold Design.sigAt at k2
  cases hc : d1.cellAt m.name c0.name with
  | none => rw [hc] at k2; exact Option.noConfusion k2
  | some c1 =>
    rw [hc] at k2
    simp only [Option.map_some', Option.some.injEq, Prod.mk.injEq] at k2
    obtain ⟨e1, e2⟩ := k2
    refine ⟨stk, c1, k1, rfl, ?_, ?_⟩
    · intro hf
      rw [e2]
      exact k3 hf
    · intro hne
      cases hcd : calls_derive env libdirs stk.design (stripped c0) with
      | true => exact absurd (e2.trans (k3 hcd)) hne
      | false =>
        obtain ⟨b1, b2, b3⟩ := k4 hcd
        rw [e1, e2]
        exact ⟨b1, b2, b3 (by rw [← b2, ← e2]; exact hne)⟩

/-- Witness of `expand_module_parameters` on the template scenario: the two cells of
type `adder` with `WIDTH` 8 and 16 end with the two derived type names and empty
parameter sets. -/
theorem expand_module_parameters_witness :
    expand_module adderEnv adderDesign adderTop false [] = .ok (adderDone, true) ∧
    adderDone.cellAt "\\top" "\\a8" = some (plainCell "\\a8" "$paramod\\adder\\WIDTH=8") ∧
    adderDone.cellAt "\\top" "\\a16" = some (plainCell "\\a16" "$paramod\\adder\\WIDTH=16") ∧
    (∀ c ∈ adderTop.cells, calls_derive adderEnv [] adderDesign (stripped c) = true) ∧
    ∀ pre c0 post, adderTop.cells = pre ++ c0 :: post →
      ∃ stk c1,
        expand_cells adderEnv adderTop.name false [] pre ⟨adderDesign, false, []⟩ = .ok stk ∧
        adderDone.cellAt adderTop.name c0.name = some c1 ∧
        (calls_derive adderEnv [] stk.design (stripped c0) = true → c1.parameters = []) ∧
        (c1.parameters ≠ [] →
          c1.type = (stripped c0).type ∧ c1.parameters = c0.parameters ∧
          (firstIsDollar c1.type = true ∨ adderDone.blackbox c1.type = true ∨
            adderDesign.count c1.type = false)) :=
  ⟨by rfl, by decide, by decide, by decide,
    expand_module_parameters adderEnv adderDesign adderTop false [] adderDone true
      (by rfl) (by decide) (by rfl)⟩

/-! ## The pruner only removes modules -/

theorem hierarchy_delete_cons (purge_lib first_pass : Bool) (a : Module) (rest : List Module)
    (d : Design) :
    hierarchy_delete purge_lib first_pass (a :: rest) d =
      hierarchy_delete purge_lib first_pass rest
        (if retained purge_lib first_pass a = true then d else d.erase a.name) := by
  unfold hierarchy_delete retained
  simp only [List.foldl_cons]
  congr 1
  by_cases h1 : (first_pass && decide (substr a.name 0 9 = "$abstract")) = true
  · simp [h1]
  · by_cases h2 : (!purge_lib && a.get_bool_attribute "\\blackbox") = true
    · simp only [Bool.not_eq_true] at h1
      simp only [h1, h2, Bool.or_true, if_true, Bool.false_eq_true, if_false]
    · simp only [Bool.not_eq_true] at h1 h2
      simp only [h1, h2, Bool.or_false, Bool.false_eq_true, if_false]

theorem find_erase (d : Design) (a n : String) :
    (d.erase a).find n = if n = a then none else d.find n := by
  unfold Design.erase Design.find
  obtain ⟨ms⟩ := d
  simp only
  induction ms with
  | nil => simp
  | cons m rest ih =>
    by_cases hma : m.name = a
    · rw [List.filter_cons_of_neg (by simpa using hma), ih]
      by_cases hn : n = a
      · rw [if_pos hn, if_pos hn]
      · rw [if_neg hn, if_neg hn, List.find?_cons_of_neg _ (by
          simpa using fun e => hn (e.symm.trans hma))]
    · rw [List.filter_cons_of_pos (by simpa using hma)]
      by_cases hmn : m.name = n
      · rw [List.find?_cons_of_pos _ (by simpa using hmn),
          List.find?_cons_of_pos _ (by simpa using hmn),
          if_neg (fun e => hma (hmn.trans e))]
      · rw [List.find?_cons_of_neg _ (by simpa using hmn),
          List.find?_cons_of_neg _ (by simpa using hmn)]
        exact ih

/-- The second loop of `hierarchy` leaves a list of modules that is the list before
without some of its elements, in the same order. -/
theorem hierarchy_delete_sublist (purge_lib first_pass : Bool) (dels : List Module) :
    ∀ d : Design, (hierarchy_delete purge_lib first_pass dels d).modules.Sublist d.modules := by
  induction dels with
  | nil => intro d; exact List.Sublist.refl _
  | cons a rest ih =>
    intro d
    rw [hierarchy_delete_cons]
    by_cases hr : retained purge_lib first_pass a = true
    · rw [if_pos hr]
      exact ih d
    · rw [if_neg hr]
      exact (ih (d.erase a.name)).trans (List.filter_sublist _)

/-- The module map after the second loop of `hierarchy`: the entry of an erased name is
gone, every other name is mapped as before. -/
theorem hierarchy_delete_find (purge_lib first_pass : Bool) (dels : List Module) :
    ∀ (d : Design) (n : String),
      ((∀ x ∈ dels, retained purge_lib first_pass x = false → x.name ≠ n) →
        (hierarchy_delete purge_lib first_pass dels d).find n = d.find n) ∧
      ((∃ x ∈ dels, retained purge_lib first_pass x = false ∧ x.name = n) →
        (hierarchy_delete purge_lib first_pass dels d).find n = none) := by
  induction dels with
  | nil =>
    intro d n
    exact ⟨fun _ => rfl, fun ⟨x, hx, _⟩ => by simp at hx⟩
  | cons a rest ih =>
    intro d n
    rw [hierarchy_delete_cons]
    by_cases hr : retained purge_lib first_pass a = true
    · rw [if_pos hr]
      obtain ⟨i1, i2⟩ := ih d n
      refine ⟨fun h => i1 (fun x hx => h x (List.mem_cons_of_mem _ hx)), ?_⟩
      rintro ⟨x, hx, hxr, hxn⟩
      rcases List.mem_cons.1 hx with rfl | hx
      · rw [hr] at hxr
        exact Bool.noConfusion hxr
      · exact i2 ⟨x, hx, hxr, hxn⟩
    · rw [if_neg hr]
      rw [Bool.not_eq_true] at hr
      obtain ⟨i1, i2⟩ := ih (d.erase a.name) n
      constructor
      · intro h
        rw [i1 (fun x hx => h x (List.mem_cons_of_mem _ hx)), find_erase,
          if_neg (fun e => h a (List.mem_cons_self _ _) hr e.symm)]
      · rintro ⟨x, hx, hxr, hxn⟩
        rcases List.mem_cons.1 hx with rfl | hx
        · by_cases hex : ∃ y ∈ rest, retained purge_lib first_pass y = false ∧ y.name = n
          · exact i2 hex
          · rw [i1 (fun y hy hyr hyn => hex ⟨y, hy, hyr, hyn⟩), find_erase, if_pos hxn.symm]
        · exact i2 ⟨x, hx, hxr, hxn⟩

/-- The pruner returns a design whose module list is the list before without some of
its elements; the top module is kept, and a name is mapped to the module it was mapped
to before or to none. -/
theorem hierarchy_frame (design : Design) (top : Module) (purge_lib first_pass : Bool)
    (htop : design.find top.name = some top) :
    ∃ d2, hierarchy design top purge_lib first_pass = some d2 ∧
      d2.modules.Sublist design.modules ∧ d2.find top.name = some top ∧
      ∀ n, d2.find n = design.find n ∨ d2.find n = none := by
  obtain ⟨U, hreach, hU⟩ := hierarchy_unfold design top purge_lib first_pass htop
  refine ⟨_, hU, hierarchy_delete_sublist _ _ _ _, ?_, ?_⟩
  · rw [(hierarchy_delete_find purge_lib first_pass _ design top.name).1 ?_]
    · exact htop
    · intro x hx _ hname
      simp only [List.mem_filter, decide_eq_true_eq] at hx
      apply hx.2
      rw [hname, hreach]
      exact Relation.ReflTransGen.refl
  · intro n
    obtain ⟨i1, i2⟩ := hierarchy_delete_find purge_lib first_pass
      (design.modules.filter (fun m => decide (m.name ∉ U))) design n
    by_cases hex : ∃ x ∈ design.modules.filter (fun m => decide (m.name ∉ U)),
        retained purge_lib first_pass x = false ∧ x.name = n
    · exact Or.inr (i2 hex)
    · exact Or.inl (i1 (fun y hy hyr hyn => hex ⟨y, hy, hyr, hyn⟩))

/-- Claim C21 (frame of the pruner).  For every design, every top module stored in it
under its name and all flag values, `hierarchy(design, top, purge_lib, first_pass)`
returns and only removes entries from the module map: the module list afterwards is the
list before without some of its elements, so every module that remains is a module of
the design before with the same name, cells, wires and attributes; `top` is kept; every
name that is still mapped is mapped to the module it was mapped to before; and no name
is mapped that was not mapped before. -/
theorem hierarchy_only_removes (design : Design) (top : Module) (purge_lib first_pass : Bool)
    (htop : design.find top.name = some top) :
    ∃ d2, hierarchy design top purge_lib first_pass = some d2 ∧
      d2.modules.Sublist design.modules ∧
      (∀ M ∈ d2.modules, M ∈ design.modules) ∧
      top ∈ d2.modules ∧ d2.find top.name = some top ∧
      (∀ n m, d2.find n = some m → design.find n = some m) ∧
      (∀ n, d2.count n = true → design.count n = true) := by
  obtain ⟨d2, h, hsub, hfind, hmap⟩ := hierarchy_frame design top purge_lib first_pass htop
  have hkeep : ∀ n m, d2.find n = some m → design.find n = some m := by
    intro n m hn
    rcases hmap n with e | e
    · rw [← e]
      exact hn
    · rw [e] at hn
      exact Option.noConfusion hn
  refine ⟨d2, h, hsub, fun M hM => hsub.subset hM, (find_some_mem hfind).1, hfind, hkeep, ?_⟩
  intro n hn
  unfold Design.count at hn ⊢
  cases hf : d2.find n with
  | none => rw [hf] at hn; exact Bool.noConfusion hn
  | some m => rw [hkeep n m hf]; rfl

/-- Witness of `hierarchy_only_removes` on the pruning scenario: `baz` is removed, and
`bar`, `foo`, `top` stay as they are. -/
theorem hierarchy_only_removes_witness :
    pruneDesign.find pruneTop.name = some pruneTop ∧
    hierarchy pruneDesign pruneTop false false = some ⟨[pruneBar, pruneFoo, pruneTop]⟩ ∧
    ∃ d2, hierarchy pruneDesign pruneTop false false = some d2 ∧
      d2.modules.Sublist pruneDesign.modules ∧
      (∀ M ∈ d2.modules, M ∈ pruneDesign.modules) ∧
      pruneTop ∈ d2.modules ∧ d2.find pruneTop.name = some pruneTop ∧
      (∀ n m, d2.find n = some m → pruneDesign.find n = some m) ∧
      (∀ n, d2.count n = true → pruneDesign.count n = true) :=
  ⟨by decide, by decide, hierarchy_only_removes pruneDesign pruneTop false false (by decide)⟩

/-! ## Strict checking of unresolved types -/

/-- The position of a positional key is the `int` that `atoi` leaves of its number: the
key `$4294967297` has position 1.  On the target of the remapping scenario the remapper
stores its connection under the port `clk` at position 1, where it replaces the
connection of the key `$1`. -/
theorem positional_id_int_example :
    positional_id "$1" = 1 ∧ positional_id "$4294967297" = 1 ∧
    positional_id "$2147483647" = 2147483647 ∧ positional_id "$2147483648" = -2147483648 ∧
    target_key remapSub "$4294967297" = "\\clk" ∧
    wideDesign.WF ∧ KeySorted wideInst.connections_ ∧
    (remap_positionals wideDesign).cellAt "\\top" "\\u" =
      some ⟨"\\u", "\\sub", [], [("\\clk", [9])]⟩ := by
  refine ⟨by decide, by decide, by decide, by decide, by decide, by unfold Design.WF; decide,
    by unfold KeySorted; decide, by decide⟩

end Hierarchy
